import Mathlib

/-!
Shallow embedding of the ROBDD engine of the rsdd repository
(src/src/builder/bdd/robdd.rs and the data model it works over), together
with theorems settling the frozen claims about it.

The node store (arena plus unique table) is modelled as a list of nodes;
a tagged pointer is either a terminal or a (regular or complemented) edge
holding the index of its target node.  State-passing makes the interior
mutability of the Rust builder explicit.  The optional time limit is
modelled by a step counter standing for elapsed time: each entry into
`ite_helper` (which bumps `num_recursive_calls`) advances it by one tick.
-/

namespace Rsdd

/-- A `VarLabel` (src/src/repr): an opaque nonnegative integer identifier. -/
abbrev VarLabel := Nat

/-- A tagged BDD pointer (`BddPtr` in src/src/repr): the constants, a regular
edge to the node at a store index, or a complement edge to such a node. -/
inductive BddPtr where
  | PtrTrue : BddPtr
  | PtrFalse : BddPtr
  | Reg : Nat → BddPtr
  | Compl : Nat → BddPtr
deriving DecidableEq, Repr

/-- An internal BDD node (`BddNode` in src/src/repr): a variable with a low
and a high child edge. -/
structure BddNode where
  var : VarLabel
  low : BddPtr
  high : BddPtr
deriving DecidableEq, Repr

/-- The arena of interned nodes owned by a manager; `BackedRobinhoodTable`
indexes into it, which the model realises by searching the list. -/
abbrev Store := List BddNode

/-- Default node used for out-of-range lookups; unreachable under validity. -/
def dfltNode : BddNode := ⟨0, .PtrTrue, .PtrTrue⟩

/-- Constant-time negation (`neg` on `BddPtr`): flip the tag. -/
def BddPtr.neg : BddPtr → BddPtr
  | .PtrTrue => .PtrFalse
  | .PtrFalse => .PtrTrue
  | .Reg i => .Compl i
  | .Compl i => .Reg i

/-- Test for a complement edge (`is_neg`). -/
def BddPtr.isNeg : BddPtr → Bool
  | .Compl _ => true
  | _ => false

/-- Test for the false constant (`is_false`). -/
def BddPtr.isFalse : BddPtr → Bool
  | .PtrFalse => true
  | _ => false

/-- Store index referenced by an edge, if any. -/
def BddPtr.idx? : BddPtr → Option Nat
  | .Reg i => some i
  | .Compl i => some i
  | _ => none

/-- Whether every index mentioned by the pointer is below the bound `k`. -/
def BddPtr.idxLt (p : BddPtr) (k : Nat) : Bool :=
  match p with
  | .Reg i => decide (i < k)
  | .Compl i => decide (i < k)
  | _ => true

/-- An environment assigning a Boolean value to every variable label. -/
abbrev Env := VarLabel → Bool

mutual

/-- Fuel-indexed Boolean denotation of the node at index `i`. -/
def evalIdx (s : Store) : Nat → Nat → Env → Bool
  | 0, _, _ => false
  | fuel+1, i, env =>
    match s.get? i with
    | none => false
    | some nd => evalTag s fuel (if env nd.var then nd.high else nd.low) env

/-- Fuel-indexed Boolean denotation of a tagged pointer. -/
def evalTag (s : Store) (fuel : Nat) : BddPtr → Env → Bool
  | .PtrTrue, _ => true
  | .PtrFalse, _ => false
  | .Reg j, env => evalIdx s fuel j env
  | .Compl j, env => !(evalIdx s fuel j env)

end

/-- Boolean function denoted by a pointer over a store: the store length is
always enough fuel for a store whose edges point strictly downwards. -/
def evalPtr (s : Store) (p : BddPtr) (env : Env) : Bool :=
  evalTag s s.length p env

/-- Validity of a store: every edge of the node at index `i` points to an
index strictly below `i` (arena property: children are interned first). -/
def ValidStore (s : Store) : Prop :=
  ∀ i, i < s.length →
    ((s.getD i dfltNode).low.idxLt i = true ∧ (s.getD i dfltNode).high.idxLt i = true)

instance : DecidablePred ValidStore := fun s =>
  Nat.decidableBallLT s.length fun i _ => _

/-- Pointer validity relative to a store. -/
def ValidPtr (s : Store) (p : BddPtr) : Prop := p.idxLt s.length = true

instance (s : Store) (p : BddPtr) : Decidable (ValidPtr s p) := by
  unfold ValidPtr
  infer_instance

/-- Store extension: the second store is an initial segment of the first.
All operations only ever append to the arena. -/
def Extends (s2 s : Store) : Prop := ∃ t, s2 = s ++ t

theorem extends_refl (s : Store) : Extends s s := ⟨[], by simp⟩

theorem extends_trans {s3 s2 s1 : Store} (h32 : Extends s3 s2) (h21 : Extends s2 s1) :
    Extends s3 s1 := by
  obtain ⟨t, rfl⟩ := h32
  obtain ⟨u, rfl⟩ := h21
  exact ⟨u ++ t, by simp⟩

theorem extends_length {s2 s : Store} (h : Extends s2 s) : s.length ≤ s2.length := by
  obtain ⟨t, rfl⟩ := h; simp

theorem validPtr_mono {s2 s : Store} {p : BddPtr} (h : Extends s2 s)
    (hp : ValidPtr s p) : ValidPtr s2 p := by
  have := extends_length h
  cases p <;> simp [ValidPtr, BddPtr.idxLt] at hp ⊢ <;> omega

theorem getD_of_extends {s2 s : Store} {i : Nat} (h : Extends s2 s)
    (hi : i < s.length) : s2.getD i dfltNode = s.getD i dfltNode := by
  obtain ⟨t, rfl⟩ := h
  simp [List.getD, List.getElem?_append_left hi]

theorem get?_of_extends {s2 s : Store} {i : Nat} (h : Extends s2 s)
    (hi : i < s.length) : s2.get? i = s.get? i := by
  obtain ⟨t, rfl⟩ := h
  simp [List.get?_eq_getElem?, List.getElem?_append_left hi]

theorem get?_eq_getD {s : Store} {i : Nat} (hi : i < s.length) :
    s.get? i = some (s.getD i dfltNode) := by
  simp [List.get?_eq_getElem?, List.getD, List.getElem?_eq_getElem hi]

/-- Fuel irrelevance: under validity, any fuel above the index evaluates
the node at that index to the same value. -/
theorem evalIdx_congr {s : Store} (hs : ValidStore s) :
    ∀ i, ∀ {n m : Nat} {env : Env}, i < n → i < m →
      evalIdx s n i env = evalIdx s m i env := by
  intro i
  induction i using Nat.strong_induction_on with
  | _ i ih =>
    intro n m env hn hm
    cases n with
    | zero => omega
    | succ n =>
    cases m with
    | zero => omega
    | succ m =>
    simp only [evalIdx]
    cases hget : s.get? i with
    | none => rfl
    | some nd =>
      have hilen : i < s.length := by
        have := List.get?_eq_some.mp hget
        exact this.choose
      have hnd : nd = s.getD i dfltNode := by
        rw [get?_eq_getD hilen] at hget; exact (Option.some.inj hget).symm
      have hlo := (hs i hilen).1
      have hhi := (hs i hilen).2
      rw [← hnd] at hlo hhi
      cases henv : env nd.var <;>
        simp only [henv, Bool.false_eq_true, if_false, if_true]
      · cases hl : nd.low with
        | PtrTrue => simp [evalTag]
        | PtrFalse => simp [evalTag]
        | Reg j =>
          rw [hl] at hlo
          simp only [BddPtr.idxLt, decide_eq_true_eq] at hlo
          simp [evalTag, ih j hlo (Nat.lt_of_lt_of_le hlo (Nat.lt_succ_iff.mp hn))
            (Nat.lt_of_lt_of_le hlo (Nat.lt_succ_iff.mp hm))]
        | Compl j =>
          rw [hl] at hlo
          simp only [BddPtr.idxLt, decide_eq_true_eq] at hlo
          simp [evalTag, ih j hlo (Nat.lt_of_lt_of_le hlo (Nat.lt_succ_iff.mp hn))
            (Nat.lt_of_lt_of_le hlo (Nat.lt_succ_iff.mp hm))]
      · cases hl : nd.high with
        | PtrTrue => simp [evalTag]
        | PtrFalse => simp [evalTag]
        | Reg j =>
          rw [hl] at hhi
          simp only [BddPtr.idxLt, decide_eq_true_eq] at hhi
          simp [evalTag, ih j hhi (Nat.lt_of_lt_of_le hhi (Nat.lt_succ_iff.mp hn))
            (Nat.lt_of_lt_of_le hhi (Nat.lt_succ_iff.mp hm))]
        | Compl j =>
          rw [hl] at hhi
          simp only [BddPtr.idxLt, decide_eq_true_eq] at hhi
          simp [evalTag, ih j hhi (Nat.lt_of_lt_of_le hhi (Nat.lt_succ_iff.mp hn))
            (Nat.lt_of_lt_of_le hhi (Nat.lt_succ_iff.mp hm))]

theorem evalTag_congr {s : Store} (hs : ValidStore s) {p : BddPtr} {n m : Nat}
    {env : Env} (hn : p.idxLt n = true) (hm : p.idxLt m = true) :
    evalTag s n p env = evalTag s m p env := by
  cases p with
  | PtrTrue => simp [evalTag]
  | PtrFalse => simp [evalTag]
  | Reg j =>
    simp only [BddPtr.idxLt, decide_eq_true_eq] at hn hm
    simpa [evalTag] using evalIdx_congr hs j hn hm
  | Compl j =>
    simp only [BddPtr.idxLt, decide_eq_true_eq] at hn hm
    simpa [evalTag] using congrArg Bool.not (evalIdx_congr hs j hn hm)

theorem evalIdx_extends {s t : Store} (hs : ValidStore s) :
    ∀ (fuel i : Nat) (env : Env), i < s.length →
      evalIdx (s ++ t) fuel i env = evalIdx s fuel i env := by
  intro fuel
  induction fuel with
  | zero => intro i env _; simp [evalIdx]
  | succ fuel ih =>
    intro i env hi
    have hget : (s ++ t).get? i = s.get? i :=
      get?_of_extends ⟨t, rfl⟩ hi
    simp only [evalIdx, hget]
    cases hg : s.get? i with
    | none => rfl
    | some nd =>
      have hnd : nd = s.getD i dfltNode := by
        rw [get?_eq_getD hi] at hg; exact (Option.some.inj hg).symm
      have hlo := (hs i hi).1
      have hhi2 := (hs i hi).2
      rw [← hnd] at hlo hhi2
      cases henv : env nd.var <;>
        simp only [henv, Bool.false_eq_true, if_false, if_true]
      · cases hl : nd.low with
        | PtrTrue => simp [evalTag]
        | PtrFalse => simp [evalTag]
        | Reg j =>
          rw [hl] at hlo; simp only [BddPtr.idxLt, decide_eq_true_eq] at hlo
          simp [evalTag, ih j env (Nat.lt_trans hlo hi)]
        | Compl j =>
          rw [hl] at hlo; simp only [BddPtr.idxLt, decide_eq_true_eq] at hlo
          simp [evalTag, ih j env (Nat.lt_trans hlo hi)]
      · cases hl : nd.high with
        | PtrTrue => simp [evalTag]
        | PtrFalse => simp [evalTag]
        | Reg j =>
          rw [hl] at hhi2; simp only [BddPtr.idxLt, decide_eq_true_eq] at hhi2
          simp [evalTag, ih j env (Nat.lt_trans hhi2 hi)]
        | Compl j =>
          rw [hl] at hhi2; simp only [BddPtr.idxLt, decide_eq_true_eq] at hhi2
          simp [evalTag, ih j env (Nat.lt_trans hhi2 hi)]

theorem evalPtr_extends {s2 s : Store} {p : BddPtr} {env : Env}
    (hext : Extends s2 s) (hs : ValidStore s) (hp : ValidPtr s p) :
    evalPtr s2 p env = evalPtr s p env := by
  obtain ⟨t, rfl⟩ := hext
  cases p with
  | PtrTrue => simp [evalPtr, evalTag]
  | PtrFalse => simp [evalPtr, evalTag]
  | Reg j =>
    simp only [ValidPtr, BddPtr.idxLt, decide_eq_true_eq] at hp
    simp only [evalPtr, evalTag]
    rw [evalIdx_extends hs _ j env hp]
    exact evalIdx_congr hs j (Nat.lt_of_lt_of_le hp (by simp)) hp
  | Compl j =>
    simp only [ValidPtr, BddPtr.idxLt, decide_eq_true_eq] at hp
    simp only [evalPtr, evalTag]
    rw [evalIdx_extends hs _ j env hp]
    exact congrArg Bool.not (evalIdx_congr hs j (Nat.lt_of_lt_of_le hp (by simp)) hp)

theorem evalPtr_neg (s : Store) (p : BddPtr) (env : Env) :
    evalPtr s p.neg env = !(evalPtr s p env) := by
  cases p <;> simp [evalPtr, BddPtr.neg, evalTag]

theorem neg_neg_ptr (p : BddPtr) : p.neg.neg = p := by
  cases p <;> rfl

theorem neg_injective {p q : BddPtr} (h : p.neg = q.neg) : p = q := by
  cases p <;> cases q <;> simp [BddPtr.neg] at h ⊢ <;> assumption

theorem idxLt_neg (p : BddPtr) (k : Nat) : p.neg.idxLt k = p.idxLt k := by
  cases p <;> rfl

/-- Unfolding lemma: a valid regular edge evaluates by branching on the
variable of the node it targets. -/
theorem evalPtr_reg {s : Store} (hs : ValidStore s) {i : Nat} (hi : i < s.length)
    (env : Env) :
    evalPtr s (.Reg i) env =
      (if env (s.getD i dfltNode).var then evalPtr s (s.getD i dfltNode).high env
       else evalPtr s (s.getD i dfltNode).low env) := by
  cases hlen : s.length with
  | zero => omega
  | succ F =>
    have hF : evalPtr s (.Reg i) env = evalIdx s (F+1) i env := by
      simp [evalPtr, evalTag, hlen]
    rw [hF]
    simp only [evalIdx, get?_eq_getD hi]
    have hlo := (hs i hi).1
    have hhi := (hs i hi).2
    cases henv : env (s.getD i dfltNode).var <;>
      simp only [henv, Bool.false_eq_true, if_false, if_true, evalPtr]
    · apply evalTag_congr hs
      · cases h : (s.getD i dfltNode).low <;> rw [h] at hlo <;>
          simp [BddPtr.idxLt] at hlo ⊢ <;> omega
      · cases h : (s.getD i dfltNode).low <;> rw [h] at hlo <;>
          simp [BddPtr.idxLt] at hlo ⊢ <;> omega
    · apply evalTag_congr hs
      · cases h : (s.getD i dfltNode).high <;> rw [h] at hhi <;>
          simp [BddPtr.idxLt] at hhi ⊢ <;> omega
      · cases h : (s.getD i dfltNode).high <;> rw [h] at hhi <;>
          simp [BddPtr.idxLt] at hhi ⊢ <;> omega

theorem evalPtr_compl (s : Store) (i : Nat) (env : Env) :
    evalPtr s (.Compl i) env = !(evalPtr s (.Reg i) env) := by
  simp [evalPtr, evalTag]

/-- Modelled from the spec (§4.1): lookup part of `BackedRobinhoodTable`
(src/src/backing_store, not vendored here) — the index of the canonical copy
of a node, if one is already interned.  Equality is deep on the triple. -/
def findNode : Store → BddNode → Option Nat
  | [], _ => none
  | m :: rest, n => if m = n then some 0 else (findNode rest n).map (· + 1)

theorem findNode_some : ∀ (s : Store) (n : BddNode) (i : Nat),
    findNode s n = some i → i < s.length ∧ s.getD i dfltNode = n := by
  intro s
  induction s with
  | nil => intro n i h; simp [findNode] at h
  | cons m rest ih =>
    intro n i h
    simp only [findNode] at h
    by_cases hm : m = n
    · rw [if_pos hm] at h
      cases h
      exact ⟨Nat.succ_pos _, by simpa [List.getD] using hm⟩
    · rw [if_neg hm] at h
      cases hf : findNode rest n with
      | none => rw [hf] at h; simp at h
      | some j =>
        rw [hf] at h
        have hji : j + 1 = i := by simpa using h
        cases hji
        obtain ⟨hj, hget⟩ := ih n j hf
        exact ⟨by simpa using Nat.succ_lt_succ hj, by simpa [List.getD] using hget⟩

theorem findNode_none : ∀ (s : Store) (n : BddNode),
    findNode s n = none → ∀ i, i < s.length → s.getD i dfltNode ≠ n := by
  intro s
  induction s with
  | nil => intro n _ i hi; simp at hi
  | cons m rest ih =>
    intro n h i hi
    simp only [findNode] at h
    by_cases hm : m = n
    · rw [if_pos hm] at h; simp at h
    · rw [if_neg hm] at h
      cases i with
      | zero => simpa [List.getD] using hm
      | succ j =>
        have hrest : findNode rest n = none := by
          cases hf : findNode rest n with
          | none => rfl
          | some _ => rw [hf] at h; simp at h
        have := ih n hrest j (by simpa using Nat.lt_of_succ_lt_succ hi)
        simpa [List.getD] using this

/-- Modelled from the spec (§4.1): `BackedRobinhoodTable::get_or_insert` —
return the index of the canonical copy, inserting a fresh copy at the end
of the arena when none exists.  Insertions never evict. -/
def intern (s : Store) (n : BddNode) : Nat × Store :=
  match findNode s n with
  | some i => (i, s)
  | none => (s.length, s ++ [n])

theorem intern_extends (s : Store) (n : BddNode) : Extends (intern s n).2 s := by
  unfold intern
  cases findNode s n with
  | some i => exact extends_refl s
  | none => exact ⟨[n], rfl⟩

theorem intern_lt (s : Store) (n : BddNode) : (intern s n).1 < (intern s n).2.length := by
  unfold intern
  cases h : findNode s n with
  | some i => exact (findNode_some s n i h).1
  | none => simp

theorem intern_getD (s : Store) (n : BddNode) :
    (intern s n).2.getD (intern s n).1 dfltNode = n := by
  unfold intern
  cases h : findNode s n with
  | some i => exact (findNode_some s n i h).2
  | none => simp [List.getD]

theorem validStore_append {s : Store} {n : BddNode} (hs : ValidStore s)
    (hl : n.low.idxLt s.length = true) (hh : n.high.idxLt s.length = true) :
    ValidStore (s ++ [n]) := by
  intro i hi
  simp only [List.length_append, List.length_singleton] at hi
  by_cases h : i < s.length
  · rw [getD_of_extends ⟨[n], rfl⟩ h]
    exact hs i h
  · have hieq : i = s.length := by omega
    subst hieq
    have : (s ++ [n]).getD s.length dfltNode = n := by
      simp [List.getD, List.getElem?_append_right (Nat.le_refl _)]
    rw [this]
    exact ⟨hl, hh⟩

theorem validStore_intern {s : Store} {n : BddNode} (hs : ValidStore s)
    (hl : ValidPtr s n.low) (hh : ValidPtr s n.high) :
    ValidStore (intern s n).2 := by
  unfold intern
  cases findNode s n with
  | some i => exact hs
  | none => exact validStore_append hs hl hh

/-- Complement-edge canonicity of a store: the high edge of every interned
node is neither complemented nor the false constant (spec invariant C2). -/
def HighCanon (s : Store) : Prop :=
  ∀ i, i < s.length →
    ((s.getD i dfltNode).high.isNeg = false ∧ (s.getD i dfltNode).high.isFalse = false)

instance : DecidablePred HighCanon := fun s =>
  Nat.decidableBallLT s.length fun i _ => _

/-- Reducedness: no interned node has identical children. -/
def ReducedStore (s : Store) : Prop :=
  ∀ i, i < s.length → (s.getD i dfltNode).low ≠ (s.getD i dfltNode).high

instance : DecidablePred ReducedStore := fun s =>
  Nat.decidableBallLT s.length fun i _ => _

/-- Unique-table canonicity: at most one copy of every node triple. -/
def NoDupStore (s : Store) : Prop :=
  ∀ i, i < s.length → ∀ j, j < s.length →
    s.getD i dfltNode = s.getD j dfltNode → i = j

instance : DecidablePred NoDupStore := fun s => by
  unfold NoDupStore
  infer_instance

theorem highCanon_intern {s : Store} {n : BddNode} (hs : HighCanon s)
    (hn : n.high.isNeg = false) (hf : n.high.isFalse = false) :
    HighCanon (intern s n).2 := by
  unfold intern
  cases findNode s n with
  | some i => exact hs
  | none =>
    intro i hi
    simp only [List.length_append, List.length_singleton] at hi
    by_cases h : i < s.length
    · rw [getD_of_extends ⟨[n], rfl⟩ h]; exact hs i h
    · have hieq : i = s.length := by omega
      subst hieq
      have : (s ++ [n]).getD s.length dfltNode = n := by
        simp [List.getD, List.getElem?_append_right (Nat.le_refl _)]
      rw [this]; exact ⟨hn, hf⟩

theorem reduced_intern {s : Store} {n : BddNode} (hs : ReducedStore s)
    (hn : n.low ≠ n.high) : ReducedStore (intern s n).2 := by
  unfold intern
  cases findNode s n with
  | some i => exact hs
  | none =>
    intro i hi
    simp only [List.length_append, List.length_singleton] at hi
    by_cases h : i < s.length
    · rw [getD_of_extends ⟨[n], rfl⟩ h]; exact hs i h
    · have hieq : i = s.length := by omega
      subst hieq
      have : (s ++ [n]).getD s.length dfltNode = n := by
        simp [List.getD, List.getElem?_append_right (Nat.le_refl _)]
      rw [this]; exact hn

theorem noDup_intern {s : Store} {n : BddNode} (hs : NoDupStore s) :
    NoDupStore (intern s n).2 := by
  unfold intern
  cases hf : findNode s n with
  | some i => exact hs
  | none =>
    have hnone := findNode_none s n hf
    have hlast : (s ++ [n]).getD s.length dfltNode = n := by
      simp [List.getD, List.getElem?_append_right (Nat.le_refl _)]
    intro i hi j hj heq
    simp only [List.length_append, List.length_singleton] at hi hj
    by_cases h1 : i < s.length <;> by_cases h2 : j < s.length
    · rw [getD_of_extends ⟨[n], rfl⟩ h1, getD_of_extends ⟨[n], rfl⟩ h2] at heq
      exact hs i h1 j h2 heq
    · have hjeq : j = s.length := by omega
      subst hjeq
      rw [getD_of_extends ⟨[n], rfl⟩ h1, hlast] at heq
      exact absurd heq (hnone i h1)
    · have hieq : i = s.length := by omega
      subst hieq
      rw [getD_of_extends ⟨[n], rfl⟩ h2, hlast] at heq
      exact absurd heq.symm (hnone j h2)
    · omega

/-- Normalizing canonical insertion, `get_or_insert` from
src/src/builder/bdd/robdd.rs (lines 47-60): when the high child is a
complement edge or false, intern the De Morgan dual and return a complement
edge; otherwise intern the node itself behind a regular edge. -/
def getOrInsert (s : Store) (bdd : BddNode) : BddPtr × Store :=
  if bdd.high.isNeg || bdd.high.isFalse then
    let r := intern s ⟨bdd.var, bdd.low.neg, bdd.high.neg⟩
    (.Compl r.1, r.2)
  else
    let r := intern s bdd
    (.Reg r.1, r.2)

/-- Variable at the top of a pointer (the `var` field of the referenced node). -/
def topVar (s : Store) (p : BddPtr) : Option VarLabel :=
  p.idx?.map (fun i => (s.getD i dfltNode).var)

theorem getOrInsert_extends (s : Store) (n : BddNode) :
    Extends (getOrInsert s n).2 s := by
  unfold getOrInsert
  by_cases h : (n.high.isNeg || n.high.isFalse) = true
  · simp only [h, if_true]; exact intern_extends _ _
  · simp only [h, if_false]; exact intern_extends _ _

theorem getOrInsert_validStore {s : Store} {n : BddNode} (hs : ValidStore s)
    (hl : ValidPtr s n.low) (hh : ValidPtr s n.high) :
    ValidStore (getOrInsert s n).2 := by
  unfold getOrInsert
  by_cases h : (n.high.isNeg || n.high.isFalse) = true
  · simp only [h, if_true]
    exact validStore_intern hs (by simpa [ValidPtr, idxLt_neg] using hl)
      (by simpa [ValidPtr, idxLt_neg] using hh)
  · simp only [h, if_false]
    exact validStore_intern hs hl hh

theorem getOrInsert_validPtr (s : Store) (n : BddNode) :
    ValidPtr (getOrInsert s n).2 (getOrInsert s n).1 := by
  unfold getOrInsert
  by_cases h : (n.high.isNeg || n.high.isFalse) = true
  · simp only [h, if_true]
    simpa [ValidPtr, BddPtr.idxLt] using intern_lt s ⟨n.var, n.low.neg, n.high.neg⟩
  · simp only [h, if_false]
    simpa [ValidPtr, BddPtr.idxLt] using intern_lt s n

theorem getOrInsert_topVar (s : Store) (n : BddNode) :
    topVar (getOrInsert s n).2 (getOrInsert s n).1 = some n.var := by
  unfold getOrInsert
  by_cases h : (n.high.isNeg || n.high.isFalse) = true
  · simp only [h, if_true, topVar, BddPtr.idx?, Option.map_some']
    rw [intern_getD s ⟨n.var, n.low.neg, n.high.neg⟩]
  · simp only [h, Bool.false_eq_true, if_false, topVar, BddPtr.idx?, Option.map_some']
    rw [intern_getD s n]

theorem getOrInsert_noDup {s : Store} {n : BddNode} (h : NoDupStore s) :
    NoDupStore (getOrInsert s n).2 := by
  unfold getOrInsert
  by_cases hb : (n.high.isNeg || n.high.isFalse) = true
  · simp only [hb, if_true]; exact noDup_intern h
  · simp only [hb, if_false]; exact noDup_intern h

theorem getOrInsert_reduced {s : Store} {n : BddNode} (h : ReducedStore s)
    (hn : n.low ≠ n.high) : ReducedStore (getOrInsert s n).2 := by
  unfold getOrInsert
  by_cases hb : (n.high.isNeg || n.high.isFalse) = true
  · simp only [hb, if_true]
    exact reduced_intern h (fun heq => hn (neg_injective heq))
  · simp only [hb, if_false]
    exact reduced_intern h hn

theorem getOrInsert_eval {s : Store} {n : BddNode} (hs : ValidStore s)
    (hl : ValidPtr s n.low) (hh : ValidPtr s n.high) (env : Env) :
    evalPtr (getOrInsert s n).2 (getOrInsert s n).1 env =
      (if env n.var then evalPtr s n.high env else evalPtr s n.low env) := by
  unfold getOrInsert
  by_cases h : (n.high.isNeg || n.high.isFalse) = true
  · simp only [h, if_true]
    have hext := intern_extends s (⟨n.var, n.low.neg, n.high.neg⟩ : BddNode)
    have hvs : ValidStore (intern s (⟨n.var, n.low.neg, n.high.neg⟩ : BddNode)).2 :=
      validStore_intern hs (by simpa [ValidPtr, idxLt_neg] using hl)
        (by simpa [ValidPtr, idxLt_neg] using hh)
    have hlt := intern_lt s (⟨n.var, n.low.neg, n.high.neg⟩ : BddNode)
    have hget := intern_getD s (⟨n.var, n.low.neg, n.high.neg⟩ : BddNode)
    rw [evalPtr_compl, evalPtr_reg hvs hlt env, hget]
    cases henv : env n.var <;>
      simp only [henv, Bool.false_eq_true, if_false, if_true]
    · rw [evalPtr_neg, Bool.not_not, evalPtr_extends hext hs hl]
    · rw [evalPtr_neg, Bool.not_not, evalPtr_extends hext hs hh]
  · simp only [h, Bool.false_eq_true, if_false]
    have hext := intern_extends s n
    have hvs : ValidStore (intern s n).2 := validStore_intern hs hl hh
    have hlt := intern_lt s n
    have hget := intern_getD s n
    rw [evalPtr_reg hvs hlt env, hget]
    cases henv : env n.var <;>
      simp only [henv, Bool.false_eq_true, if_false, if_true]
    · exact evalPtr_extends hext hs hl
    · exact evalPtr_extends hext hs hh

/-- C3: `get_or_insert` emits a complement edge to the interned De Morgan
dual `(var, not low, not high)` exactly when the high child is a complement
edge or the false constant, and a regular edge to the interned node itself
otherwise; consequently complement-edge canonicity of the stored table
(high edges never complemented and never false) is preserved. -/
theorem claim3_get_or_insert_canonical (s : Store) (bdd : BddNode) :
    ((bdd.high.isNeg || bdd.high.isFalse) = true →
      getOrInsert s bdd =
        (.Compl (intern s ⟨bdd.var, bdd.low.neg, bdd.high.neg⟩).1,
         (intern s ⟨bdd.var, bdd.low.neg, bdd.high.neg⟩).2)) ∧
    ((bdd.high.isNeg || bdd.high.isFalse) = false →
      getOrInsert s bdd = (.Reg (intern s bdd).1, (intern s bdd).2)) ∧
    (HighCanon s → HighCanon (getOrInsert s bdd).2) := by
  refine ⟨fun h => by simp only [getOrInsert, h, if_true], fun h => by
    simp only [getOrInsert, h, Bool.false_eq_true, if_false], fun hcanon => ?_⟩
  unfold getOrInsert
  by_cases h : (bdd.high.isNeg || bdd.high.isFalse) = true
  · simp only [h, if_true]
    refine highCanon_intern hcanon ?_ ?_ <;>
      cases hb : bdd.high <;> rw [hb] at h <;>
      simp [BddPtr.isNeg, BddPtr.isFalse, BddPtr.neg] at h ⊢
  · simp only [h, if_false]
    simp only [Bool.or_eq_true, not_or] at h
    push_neg at h
    refine highCanon_intern hcanon ?_ ?_
    · exact Bool.not_eq_true _ ▸ Bool.eq_false_iff.mpr h.1
    · exact Bool.eq_false_iff.mpr h.2

/-- Witness for C3 at a concrete input: interning `(0, True, False)` stores
the dual `(0, False, True)` and returns a complement edge to it. -/
theorem claim3_witness :
    getOrInsert [] ⟨0, .PtrTrue, .PtrFalse⟩ =
      (.Compl (intern [] ⟨0, BddPtr.neg .PtrTrue, BddPtr.neg .PtrFalse⟩).1,
       (intern [] ⟨0, BddPtr.neg .PtrTrue, BddPtr.neg .PtrFalse⟩).2) ∧
    HighCanon (getOrInsert [] ⟨0, .PtrTrue, .PtrFalse⟩).2 := by
  refine ⟨(claim3_get_or_insert_canonical [] ⟨0, .PtrTrue, .PtrFalse⟩).1 (by decide),
    (claim3_get_or_insert_canonical [] ⟨0, .PtrTrue, .PtrFalse⟩).2.2 ?_⟩
  intro i hi
  simp at hi

/-- Modelled from the spec (§3): a `VarOrder` is a bijection between
variables and positions `0..N` exposing `lt` (strict position comparison),
`level` and `var_at_level`; src/src/repr/var_order.rs is not vendored. -/
structure VarOrder where
  level : VarLabel → Nat
  varAt : Nat → VarLabel

/-- Strict order comparison `VarOrder::lt`. -/
def VarOrder.lt (ord : VarOrder) (a b : VarLabel) : Bool :=
  decide (ord.level a < ord.level b)

/-- The default linear order (`VarOrder::linear_order`). -/
def linearOrder : VarOrder := ⟨fun v => v, fun i => i⟩

/-- Injectivity of positions, one half of the spec-mandated bijection. -/
def OrdInj (ord : VarOrder) : Prop :=
  ∀ a b, ord.level a = ord.level b → a = b

/-- Whether the node (if any) referenced by the pointer sits at position
at least `l` of the order. -/
def levBoundB (ord : VarOrder) (s : Store) (p : BddPtr) (l : Nat) : Bool :=
  match p.idx? with
  | some i => decide (l ≤ ord.level ((s.getD i dfltNode).var))
  | none => true

theorem levBoundB_neg (ord : VarOrder) (s : Store) (p : BddPtr) (l : Nat) :
    levBoundB ord s p.neg l = levBoundB ord s p l := by
  cases p <;> rfl

theorem levBoundB_mono {ord : VarOrder} {s : Store} {p : BddPtr} {l m : Nat}
    (h : levBoundB ord s p l = true) (hm : m ≤ l) : levBoundB ord s p m = true := by
  cases p <;> simp [levBoundB, BddPtr.idx?] at h ⊢ <;> omega

theorem levBoundB_extends {ord : VarOrder} {s2 s : Store} {p : BddPtr} {l : Nat}
    (hext : Extends s2 s) (hp : ValidPtr s p) :
    levBoundB ord s2 p l = levBoundB ord s p l := by
  cases p with
  | PtrTrue => rfl
  | PtrFalse => rfl
  | Reg i =>
    simp only [ValidPtr, BddPtr.idxLt, decide_eq_true_eq] at hp
    simp only [levBoundB, BddPtr.idx?]
    rw [getD_of_extends hext hp]
  | Compl i =>
    simp only [ValidPtr, BddPtr.idxLt, decide_eq_true_eq] at hp
    simp only [levBoundB, BddPtr.idx?]
    rw [getD_of_extends hext hp]

/-- Variable ordering of a store: every edge of a node points to a node
whose variable sits strictly later in the order (invariant of `BddNode`). -/
def OrderedStore (ord : VarOrder) (s : Store) : Prop :=
  ∀ i, i < s.length →
    (levBoundB ord s (s.getD i dfltNode).low
        (ord.level (s.getD i dfltNode).var + 1) = true ∧
     levBoundB ord s (s.getD i dfltNode).high
        (ord.level (s.getD i dfltNode).var + 1) = true)

instance (ord : VarOrder) : DecidablePred (OrderedStore ord) := fun s =>
  Nat.decidableBallLT s.length fun i _ => _

/-- Update one variable of an environment.  Used to state conditioning. -/
def updEnv (env : Env) (l : VarLabel) (b : Bool) : Env :=
  fun v => if v = l then b else env v

/-- Support lemma: the function denoted by a node only depends on variables
at the position of its own variable or later. -/
theorem evalReg_indep {ord : VarOrder} {s : Store} (hs : ValidStore s)
    (ho : OrderedStore ord s) :
    ∀ i, i < s.length → ∀ {l : Nat} {env env2 : Env},
      l ≤ ord.level ((s.getD i dfltNode).var) →
      (∀ v, l ≤ ord.level v → env v = env2 v) →
      evalPtr s (.Reg i) env = evalPtr s (.Reg i) env2 := by
  intro i
  induction i using Nat.strong_induction_on with
  | _ i ih =>
    intro hi l env env2 hl hagree
    rw [evalPtr_reg hs hi env, evalPtr_reg hs hi env2]
    rw [hagree (s.getD i dfltNode).var hl]
    have hchild : ∀ (c : BddPtr),
        levBoundB ord s c (ord.level ((s.getD i dfltNode).var) + 1) = true →
        c.idxLt i = true →
        evalPtr s c env = evalPtr s c env2 := by
      intro c hcb hcv
      cases c with
      | PtrTrue => simp [evalPtr, evalTag]
      | PtrFalse => simp [evalPtr, evalTag]
      | Reg j =>
        simp only [BddPtr.idxLt, decide_eq_true_eq] at hcv
        simp only [levBoundB, BddPtr.idx?, decide_eq_true_eq] at hcb
        exact ih j hcv (Nat.lt_trans hcv hi)
          (Nat.le_trans (Nat.le_trans hl (Nat.le_succ _)) hcb) hagree
      | Compl j =>
        simp only [BddPtr.idxLt, decide_eq_true_eq] at hcv
        simp only [levBoundB, BddPtr.idx?, decide_eq_true_eq] at hcb
        rw [evalPtr_compl, evalPtr_compl]
        exact congrArg Bool.not (ih j hcv (Nat.lt_trans hcv hi)
          (Nat.le_trans (Nat.le_trans hl (Nat.le_succ _)) hcb) hagree)
    cases env2 (s.getD i dfltNode).var
    · exact hchild _ (ho i hi).1 (hs i hi).1
    · exact hchild _ (ho i hi).2 (hs i hi).2

/-- Support lemma for arbitrary pointers. -/
theorem evalPtr_indep {ord : VarOrder} {s : Store} {p : BddPtr} {l : Nat}
    {env env2 : Env} (hs : ValidStore s) (ho : OrderedStore ord s)
    (hp : ValidPtr s p) (hb : levBoundB ord s p l = true)
    (hagree : ∀ v, l ≤ ord.level v → env v = env2 v) :
    evalPtr s p env = evalPtr s p env2 := by
  cases p with
  | PtrTrue => simp [evalPtr, evalTag]
  | PtrFalse => simp [evalPtr, evalTag]
  | Reg i =>
    simp only [ValidPtr, BddPtr.idxLt, decide_eq_true_eq] at hp
    simp only [levBoundB, BddPtr.idx?, decide_eq_true_eq] at hb
    exact evalReg_indep hs ho i hp hb hagree
  | Compl i =>
    simp only [ValidPtr, BddPtr.idxLt, decide_eq_true_eq] at hp
    simp only [levBoundB, BddPtr.idx?, decide_eq_true_eq] at hb
    rw [evalPtr_compl, evalPtr_compl]
    exact congrArg Bool.not (evalReg_indep hs ho i hp hb hagree)

/-- Conditioning applied only when the top variable is the given label,
`condition_essential` from robdd.rs (lines 501-516): non-matching pointers
are returned untouched; a matching node yields the chosen raw child,
negated when the incoming edge is complemented. -/
def conditionEssential (s : Store) (f : BddPtr) (lbl : VarLabel) (v : Bool) : BddPtr :=
  match f with
  | .PtrTrue => f
  | .PtrFalse => f
  | .Reg i | .Compl i =>
    let node := s.getD i dfltNode
    if node.var ≠ lbl then f
    else
      let r := if v then node.high else node.low
      if f.isNeg then r.neg else r

theorem validPtr_neg {s : Store} {p : BddPtr} (h : ValidPtr s p) :
    ValidPtr s p.neg := by
  simpa [ValidPtr, idxLt_neg] using h

theorem validPtr_low {s : Store} (hs : ValidStore s) {i : Nat} (hi : i < s.length) :
    ValidPtr s (s.getD i dfltNode).low := by
  have h := (hs i hi).1
  cases hc : (s.getD i dfltNode).low <;> rw [hc] at h <;>
    simp [ValidPtr, BddPtr.idxLt] at h ⊢ <;> omega

theorem validPtr_high {s : Store} (hs : ValidStore s) {i : Nat} (hi : i < s.length) :
    ValidPtr s (s.getD i dfltNode).high := by
  have h := (hs i hi).2
  cases hc : (s.getD i dfltNode).high <;> rw [hc] at h <;>
    simp [ValidPtr, BddPtr.idxLt] at h ⊢ <;> omega

theorem condEss_untouched {s : Store} {f : BddPtr} {lbl : VarLabel} {v : Bool}
    (h : topVar s f ≠ some lbl) : conditionEssential s f lbl v = f := by
  cases f with
  | PtrTrue => rfl
  | PtrFalse => rfl
  | Reg i =>
    simp only [topVar, BddPtr.idx?, Option.map_some', ne_eq, Option.some.injEq] at h
    simp only [conditionEssential, ne_eq]
    rw [if_pos h]
  | Compl i =>
    simp only [topVar, BddPtr.idx?, Option.map_some', ne_eq, Option.some.injEq] at h
    simp only [conditionEssential, ne_eq]
    rw [if_pos h]

theorem condEss_validPtr {s : Store} {f : BddPtr} {lbl : VarLabel} {v : Bool}
    (hs : ValidStore s) (hf : ValidPtr s f) :
    ValidPtr s (conditionEssential s f lbl v) := by
  cases f with
  | PtrTrue => exact hf
  | PtrFalse => exact hf
  | Reg i =>
    have hi : i < s.length := by
      simpa [ValidPtr, BddPtr.idxLt] using hf
    simp only [conditionEssential, ne_eq]
    by_cases hv : (s.getD i dfltNode).var = lbl
    · rw [if_neg (by simpa using hv)]
      simp only [BddPtr.isNeg, Bool.false_eq_true, if_false]
      cases v <;> simp only [Bool.false_eq_true, if_false, if_true]
      · exact validPtr_low hs hi
      · exact validPtr_high hs hi
    · rw [if_pos hv]
      exact hf
  | Compl i =>
    have hi : i < s.length := by
      simpa [ValidPtr, BddPtr.idxLt] using hf
    simp only [conditionEssential, ne_eq]
    by_cases hv : (s.getD i dfltNode).var = lbl
    · rw [if_neg (by simpa using hv)]
      simp only [BddPtr.isNeg, if_true]
      cases v <;> simp only [Bool.false_eq_true, if_false, if_true]
      · exact validPtr_neg (validPtr_low hs hi)
      · exact validPtr_neg (validPtr_high hs hi)
    · rw [if_pos hv]
      exact hf

theorem updEnv_self (env : Env) (l : VarLabel) (b : Bool) : updEnv env l b l = b := by
  simp [updEnv]

theorem updEnv_agree (ord : VarOrder) (env : Env) (l : VarLabel) (b : Bool) :
    ∀ u, ord.level l + 1 ≤ ord.level u → env u = updEnv env l b u := by
  intro u hlev
  unfold updEnv
  by_cases hu : u = l
  · subst hu; omega
  · simp [hu]

theorem condEss_levBound {ord : VarOrder} {s : Store} {f : BddPtr} {lbl : VarLabel}
    {v : Bool} (ho : OrderedStore ord s) (hinj : OrdInj ord)
    (hf : ValidPtr s f) (hb : levBoundB ord s f (ord.level lbl) = true) :
    levBoundB ord s (conditionEssential s f lbl v) (ord.level lbl + 1) = true := by
  cases f with
  | PtrTrue => rfl
  | PtrFalse => rfl
  | Reg i =>
    have hi : i < s.length := by simpa [ValidPtr, BddPtr.idxLt] using hf
    simp only [levBoundB, BddPtr.idx?, decide_eq_true_eq] at hb
    simp only [conditionEssential, ne_eq]
    by_cases hv : (s.getD i dfltNode).var = lbl
    · rw [if_neg (by simpa using hv)]
      simp only [BddPtr.isNeg, Bool.false_eq_true, if_false]
      cases v <;> simp only [Bool.false_eq_true, if_false, if_true]
      · exact levBoundB_mono (ho i hi).1 (by rw [hv])
      · exact levBoundB_mono (ho i hi).2 (by rw [hv])
    · rw [if_pos hv]
      have : ord.level lbl ≠ ord.level (s.getD i dfltNode).var :=
        fun he => hv ((hinj _ _ he).symm)
      simp only [levBoundB, BddPtr.idx?, decide_eq_true_eq]
      omega
  | Compl i =>
    have hi : i < s.length := by simpa [ValidPtr, BddPtr.idxLt] using hf
    simp only [levBoundB, BddPtr.idx?, decide_eq_true_eq] at hb
    simp only [conditionEssential, ne_eq]
    by_cases hv : (s.getD i dfltNode).var = lbl
    · rw [if_neg (by simpa using hv)]
      simp only [BddPtr.isNeg, if_true]
      cases v <;> simp only [Bool.false_eq_true, if_false, if_true]
      · rw [levBoundB_neg]
        exact levBoundB_mono (ho i hi).1 (by rw [hv])
      · rw [levBoundB_neg]
        exact levBoundB_mono (ho i hi).2 (by rw [hv])
    · rw [if_pos hv]
      have : ord.level lbl ≠ ord.level (s.getD i dfltNode).var :=
        fun he => hv ((hinj _ _ he).symm)
      simp only [levBoundB, BddPtr.idx?, decide_eq_true_eq]
      omega

theorem condEss_eval {ord : VarOrder} {s : Store} {f : BddPtr} {lbl : VarLabel}
    {v : Bool} (hs : ValidStore s) (ho : OrderedStore ord s) (hinj : OrdInj ord)
    (hf : ValidPtr s f) (hb : levBoundB ord s f (ord.level lbl) = true) (env : Env) :
    evalPtr s (conditionEssential s f lbl v) env = evalPtr s f (updEnv env lbl v) := by
  cases f with
  | PtrTrue => simp [conditionEssential, evalPtr, evalTag]
  | PtrFalse => simp [conditionEssential, evalPtr, evalTag]
  | Reg i =>
    have hi : i < s.length := by simpa [ValidPtr, BddPtr.idxLt] using hf
    simp only [levBoundB, BddPtr.idx?, decide_eq_true_eq] at hb
    simp only [conditionEssential, ne_eq]
    by_cases hv : (s.getD i dfltNode).var = lbl
    · rw [if_neg (by simpa using hv)]
      simp only [BddPtr.isNeg, Bool.false_eq_true, if_false]
      rw [evalPtr_reg hs hi (updEnv env lbl v), hv, updEnv_self]
      cases v <;> simp only [Bool.false_eq_true, if_false, if_true]
      · exact evalPtr_indep hs ho (validPtr_low hs hi)
          (levBoundB_mono (ho i hi).1 (by rw [hv])) (updEnv_agree ord env lbl false)
      · exact evalPtr_indep hs ho (validPtr_high hs hi)
          (levBoundB_mono (ho i hi).2 (by rw [hv])) (updEnv_agree ord env lbl true)
    · rw [if_pos hv]
      have hneq : ord.level lbl ≠ ord.level (s.getD i dfltNode).var :=
        fun he => hv ((hinj _ _ he).symm)
      exact evalPtr_indep hs ho hf
        (by simp only [levBoundB, BddPtr.idx?, decide_eq_true_eq]; omega)
        (updEnv_agree ord env lbl v)
  | Compl i =>
    have hi : i < s.length := by simpa [ValidPtr, BddPtr.idxLt] using hf
    simp only [levBoundB, BddPtr.idx?, decide_eq_true_eq] at hb
    simp only [conditionEssential, ne_eq]
    by_cases hv : (s.getD i dfltNode).var = lbl
    · rw [if_neg (by simpa using hv)]
      simp only [BddPtr.isNeg, if_true]
      rw [evalPtr_compl, evalPtr_reg hs hi (updEnv env lbl v), hv, updEnv_self]
      cases v <;> simp only [Bool.false_eq_true, if_false, if_true]
      · rw [evalPtr_neg]
        exact congrArg Bool.not (evalPtr_indep hs ho (validPtr_low hs hi)
          (levBoundB_mono (ho i hi).1 (by rw [hv])) (updEnv_agree ord env lbl false))
      · rw [evalPtr_neg]
        exact congrArg Bool.not (evalPtr_indep hs ho (validPtr_high hs hi)
          (levBoundB_mono (ho i hi).2 (by rw [hv])) (updEnv_agree ord env lbl true))
    · rw [if_pos hv]
      have hneq : ord.level lbl ≠ ord.level (s.getD i dfltNode).var :=
        fun he => hv ((hinj _ _ he).symm)
      exact evalPtr_indep hs ho hf
        (by simp only [levBoundB, BddPtr.idx?, decide_eq_true_eq]; omega)
        (updEnv_agree ord env lbl v)

/-- Modelled from the spec (§4.3): `VarOrder::first_essential` — the
minimum-order variable appearing at the top of any of the three arguments
(src/src/repr/var_order.rs is not vendored). -/
def firstEssential (ord : VarOrder) (s : Store) (f g h : BddPtr) : VarLabel :=
  match List.filterMap (topVar s) [f, g, h] with
  | [] => 0
  | c :: cs => cs.foldl (fun acc w => if ord.lt w acc then w else acc) c

theorem feFold_le (ord : VarOrder) :
    ∀ (cs : List VarLabel) (c x : VarLabel), (x = c ∨ x ∈ cs) →
      ord.level (cs.foldl (fun acc w => if ord.lt w acc then w else acc) c) ≤
        ord.level x := by
  intro cs
  induction cs with
  | nil =>
    intro c x hx
    rcases hx with rfl | hx
    · simp
    · simp at hx
  | cons w cs ih =>
    intro c x hx
    simp only [List.foldl_cons]
    by_cases hlt : ord.lt w c = true
    · rw [if_pos hlt]
      simp only [VarOrder.lt, decide_eq_true_eq] at hlt
      rcases hx with rfl | hx
      · exact Nat.le_trans (ih w w (Or.inl rfl)) (Nat.le_of_lt hlt)
      · rcases List.mem_cons.mp hx with hxw | hx
        · rw [hxw]; exact ih w w (Or.inl rfl)
        · exact ih w x (Or.inr hx)
    · rw [if_neg hlt]
      simp only [VarOrder.lt, decide_eq_true_eq] at hlt
      rcases hx with rfl | hx
      · exact ih x x (Or.inl rfl)
      · rcases List.mem_cons.mp hx with hxw | hx
        · rw [hxw]; exact Nat.le_trans (ih c c (Or.inl rfl)) (Nat.le_of_not_lt hlt)
        · exact ih c x (Or.inr hx)

theorem feFold_mem (ord : VarOrder) :
    ∀ (cs : List VarLabel) (c : VarLabel),
      (cs.foldl (fun acc w => if ord.lt w acc then w else acc) c) = c ∨
      (cs.foldl (fun acc w => if ord.lt w acc then w else acc) c) ∈ cs := by
  intro cs
  induction cs with
  | nil => intro c; exact Or.inl rfl
  | cons w cs ih =>
    intro c
    simp only [List.foldl_cons]
    by_cases hlt : ord.lt w c = true
    · rw [if_pos hlt]
      rcases ih w with heq | hmem
      · exact Or.inr (List.mem_cons.mpr (Or.inl heq))
      · exact Or.inr (List.mem_cons.mpr (Or.inr hmem))
    · rw [if_neg hlt]
      rcases ih c with heq | hmem
      · exact Or.inl heq
      · exact Or.inr (List.mem_cons.mpr (Or.inr hmem))

/-- The first essential variable lower-bounds the top position of each of
the three arguments. -/
theorem firstEssential_le {ord : VarOrder} {s : Store} {f g h : BddPtr}
    (a : BddPtr) (ha : a = f ∨ a = g ∨ a = h) :
    levBoundB ord s a (ord.level (firstEssential ord s f g h)) = true := by
  cases hta : topVar s a with
  | none =>
    cases a <;> simp [topVar, BddPtr.idx?] at hta ⊢ <;> simp [levBoundB, BddPtr.idx?]
  | some w =>
    have hmem : w ∈ List.filterMap (topVar s) [f, g, h] := by
      apply List.mem_filterMap.mpr
      rcases ha with rfl | rfl | rfl
      · exact ⟨a, by simp, hta⟩
      · exact ⟨a, by simp, hta⟩
      · exact ⟨a, by simp, hta⟩
    unfold firstEssential
    cases hcands : List.filterMap (topVar s) [f, g, h] with
    | nil => rw [hcands] at hmem; simp at hmem
    | cons c cs =>
      rw [hcands] at hmem
      have hle := feFold_le ord cs c w (by
        rcases List.mem_cons.mp hmem with rfl | hm
        · exact Or.inl rfl
        · exact Or.inr hm)
      cases a <;> simp [topVar, BddPtr.idx?] at hta <;>
        simp [levBoundB, BddPtr.idx?, hta] <;> omega

/-- Position lower bounds on all three arguments transfer to the first
essential variable itself. -/
theorem firstEssential_min {ord : VarOrder} {s : Store} {f g h : BddPtr} {l : Nat}
    (hbf : levBoundB ord s f l = true) (hbg : levBoundB ord s g l = true)
    (hbh : levBoundB ord s h l = true) (hne : topVar s f ≠ none) :
    l ≤ ord.level (firstEssential ord s f g h) := by
  have hmemfe : (firstEssential ord s f g h) ∈ List.filterMap (topVar s) [f, g, h] := by
    unfold firstEssential
    cases hcands : List.filterMap (topVar s) [f, g, h] with
    | nil =>
      exfalso
      cases htf : topVar s f with
      | none => exact hne htf
      | some w =>
        have : w ∈ List.filterMap (topVar s) [f, g, h] :=
          List.mem_filterMap.mpr ⟨f, by simp, htf⟩
        rw [hcands] at this; simp at this
    | cons c cs =>
      show (cs.foldl (fun acc w => if ord.lt w acc then w else acc) c) ∈ c :: cs
      rcases feFold_mem ord cs c with heq | hmem
      · rw [heq]; exact List.mem_cons.mpr (Or.inl rfl)
      · exact List.mem_cons.mpr (Or.inr hmem)
  obtain ⟨a, hamem, hatop⟩ := List.mem_filterMap.mp hmemfe
  have hab : levBoundB ord s a l = true := by
    simp at hamem
    rcases hamem with rfl | rfl | rfl
    · exact hbf
    · exact hbg
    · exact hbh
  cases a <;> simp [topVar, BddPtr.idx?] at hatop <;>
    simp [levBoundB, BddPtr.idx?, hatop] at hab <;> omega

theorem ordered_append {ord : VarOrder} {s : Store} {n : BddNode}
    (hs : ValidStore s) (ho : OrderedStore ord s)
    (hvl : ValidPtr s n.low) (hvh : ValidPtr s n.high)
    (hl : levBoundB ord s n.low (ord.level n.var + 1) = true)
    (hh : levBoundB ord s n.high (ord.level n.var + 1) = true) :
    OrderedStore ord (s ++ [n]) := by
  have hext : Extends (s ++ [n]) s := ⟨[n], rfl⟩
  intro i hi
  simp only [List.length_append, List.length_singleton] at hi
  by_cases hilt : i < s.length
  · rw [getD_of_extends hext hilt]
    constructor
    · rw [levBoundB_extends hext (validPtr_low hs hilt)]
      exact (ho i hilt).1
    · rw [levBoundB_extends hext (validPtr_high hs hilt)]
      exact (ho i hilt).2
  · have hieq : i = s.length := by omega
    subst hieq
    have hlast : (s ++ [n]).getD s.length dfltNode = n := by
      simp [List.getD, List.getElem?_append_right (Nat.le_refl _)]
    rw [hlast]
    constructor
    · rw [levBoundB_extends hext hvl]; exact hl
    · rw [levBoundB_extends hext hvh]; exact hh

theorem ordered_intern {ord : VarOrder} {s : Store} {n : BddNode}
    (hs : ValidStore s) (ho : OrderedStore ord s)
    (hvl : ValidPtr s n.low) (hvh : ValidPtr s n.high)
    (hl : levBoundB ord s n.low (ord.level n.var + 1) = true)
    (hh : levBoundB ord s n.high (ord.level n.var + 1) = true) :
    OrderedStore ord (intern s n).2 := by
  unfold intern
  cases findNode s n with
  | some i => exact ho
  | none => exact ordered_append hs ho hvl hvh hl hh

theorem getOrInsert_ordered {ord : VarOrder} {s : Store} {n : BddNode}
    (hs : ValidStore s) (ho : OrderedStore ord s)
    (hvl : ValidPtr s n.low) (hvh : ValidPtr s n.high)
    (hl : levBoundB ord s n.low (ord.level n.var + 1) = true)
    (hh : levBoundB ord s n.high (ord.level n.var + 1) = true) :
    OrderedStore ord (getOrInsert s n).2 := by
  unfold getOrInsert
  by_cases hb : (n.high.isNeg || n.high.isFalse) = true
  · simp only [hb, if_true]
    exact ordered_intern hs ho (validPtr_neg hvl) (validPtr_neg hvh)
      (by rwa [levBoundB_neg]) (by rwa [levBoundB_neg])
  · simp only [hb, Bool.false_eq_true, if_false]
    exact ordered_intern hs ho hvl hvh hl hh

/-- Denotation of the if-then-else combination of three pointers:
`(f and g) or (not f and h)`. -/
def iteSem (s : Store) (f g h : BddPtr) (env : Env) : Bool :=
  (evalPtr s f env && evalPtr s g env) || (!(evalPtr s f env) && evalPtr s h env)

/-- Result of `Ite::new` (builder/cache, not vendored): either a recognized
constant or a canonicalized triple. -/
inductive Ite where
  | IteConst : BddPtr → Ite
  | IteTriple : BddPtr → BddPtr → BddPtr → Ite
deriving DecidableEq, Repr

/-- Modelled from the spec (§4.3, step 2): collapse a then-branch equal to
the condition (or its negation) into a constant. -/
def iteCollapseG (f g : BddPtr) : BddPtr :=
  if g = f then .PtrTrue else if g = f.neg then .PtrFalse else g

/-- Modelled from the spec (§4.3, step 2): collapse an else-branch equal to
the condition (or its negation) into a constant. -/
def iteCollapseH (f h : BddPtr) : BddPtr :=
  if h = f then .PtrFalse else if h = f.neg then .PtrTrue else h

/-- Modelled from the spec (§4.3, step 2): operand reordering moving the
smaller pointer of a symmetric form into the first slot. -/
def iteReorder (lt : BddPtr → BddPtr → Bool) (f g h : BddPtr) :
    BddPtr × BddPtr × BddPtr :=
  if g = .PtrTrue ∧ lt h f = true then (h, .PtrTrue, f)
  else if h = .PtrFalse ∧ lt g f = true then (g, f, .PtrFalse)
  else if g = .PtrFalse ∧ lt h f = true then (h.neg, .PtrFalse, f.neg)
  else if h = .PtrTrue ∧ lt g f = true then (g.neg, f.neg, .PtrTrue)
  else (f, g, h)

/-- Modelled from the spec (§4.3, step 3): complement-edge pull on the
first argument, `ite(not f, g, h) = ite(f, h, g)`. -/
def iteComplPull (f g h : BddPtr) : Ite :=
  if f.isNeg then .IteTriple f.neg h g else .IteTriple f g h

/-- Modelled from the spec (§4.3): the constant-time normalization of
`Ite::new` — terminal shortcuts, branch collapse, constant re-detection,
operand reordering and the complement pull, in this order. -/
def iteNew (lt : BddPtr → BddPtr → Bool) (f g h : BddPtr) : Ite :=
  if f = .PtrTrue then .IteConst g
  else if f = .PtrFalse then .IteConst h
  else if g = h then .IteConst g
  else if g = .PtrTrue ∧ h = .PtrFalse then .IteConst f
  else if g = .PtrFalse ∧ h = .PtrTrue then .IteConst f.neg
  else
    let g1 := iteCollapseG f g
    let h1 := iteCollapseH f h
    if g1 = h1 then .IteConst g1
    else if g1 = .PtrTrue ∧ h1 = .PtrFalse then .IteConst f
    else if g1 = .PtrFalse ∧ h1 = .PtrTrue then .IteConst f.neg
    else
      match iteReorder lt f g1 h1 with
      | (a, b, c) => iteComplPull a b c

/-- The comparator `o` built inside `ite_helper` (robdd.rs lines 68-75):
constants sort first, nodes compare by the order position of their
variables. -/
def iteArgLt (ord : VarOrder) (s : Store) (a b : BddPtr) : Bool :=
  match a, b with
  | .PtrTrue, _ => true
  | .PtrFalse, _ => true
  | _, .PtrTrue => false
  | _, .PtrFalse => false
  | .Reg i, .Reg j => ord.lt (s.getD i dfltNode).var (s.getD j dfltNode).var
  | .Reg i, .Compl j => ord.lt (s.getD i dfltNode).var (s.getD j dfltNode).var
  | .Compl i, .Reg j => ord.lt (s.getD i dfltNode).var (s.getD j dfltNode).var
  | .Compl i, .Compl j => ord.lt (s.getD i dfltNode).var (s.getD j dfltNode).var

/-- Modelled from the spec (§4.3 and §5): the apply cache keyed by the
normalized triple; the vendored builder is generic over `IteTable`, and the
lossless `AllIteTable` instance is modelled as an association list. -/
abbrev ACache := List ((BddPtr × BddPtr × BddPtr) × BddPtr)

def cacheGet (c : ACache) (k : BddPtr × BddPtr × BddPtr) : Option BddPtr :=
  (c.find? (fun e => e.1 == k)).map (fun e => e.2)

/-- Mutable state of a `RobddBuilder`: the arena-backed unique table, the
apply cache, the recursive-call counter (also standing for elapsed time)
and the optional time budget measured in the same ticks. -/
structure BState where
  store : Store
  cache : ACache
  steps : Nat
  budget : Option Nat
deriving Repr

/-- Time-limit poll `check_time_limit` (robdd.rs lines 147-153): true once
the elapsed ticks exceed the budget. -/
def checkTimeLimit (st : BState) : Bool :=
  match st.budget with
  | some b => decide (b < st.steps)
  | none => false

/-- The recursive core `ite_helper` (robdd.rs lines 62-115), with the
default `BddBuilder::ite` wrapper (not vendored; it simply calls
`ite_helper`) realised by the recursive calls.  Fuel makes termination
explicit; `none` means fuel ran out and never occurs with enough fuel. -/
def iteHelper (ord : VarOrder) :
    Nat → BState → BddPtr → BddPtr → BddPtr → Option (BddPtr × BState)
  | 0, _, _, _, _ => none
  | fuel+1, st, f, g, h =>
    if checkTimeLimit st then some (.PtrFalse, st)
    else
      let st1 : BState := { st with steps := st.steps + 1 }
      match iteNew (iteArgLt ord st1.store) f g h with
      | .IteConst c => some (c, st1)
      | .IteTriple f2 g2 h2 =>
        match cacheGet st1.cache (f2, g2, h2) with
        | some v => some (v, st1)
        | none =>
          let lbl := firstEssential ord st1.store f g h
          let fx := conditionEssential st1.store f lbl true
          let gx := conditionEssential st1.store g lbl true
          let hx := conditionEssential st1.store h lbl true
          let fxn := conditionEssential st1.store f lbl false
          let gxn := conditionEssential st1.store g lbl false
          let hxn := conditionEssential st1.store h lbl false
          match iteHelper ord fuel st1 fx gx hx with
          | none => none
          | some (t, st2) =>
            match iteHelper ord fuel st2 fxn gxn hxn with
            | none => none
            | some (e, st3) =>
              if t = e then
                some (t, { st3 with cache := ((f2, g2, h2), t) :: st3.cache })
              else if checkTimeLimit st3 then some (.PtrFalse, st3)
              else
                let r := getOrInsert st3.store ⟨lbl, e, t⟩
                let st4 : BState :=
                  { st3 with store := r.2, cache := ((f2, g2, h2), r.1) :: st3.cache }
                some (r.1, st4)

/-- Per-call state of `cond_with_alloc`: the arena, the scratch slots
(node index to memo index, `set_scratch`/`scratch::<usize>` on nodes), the
memo vector `alloc`, and the recursive-call counter. -/
structure CondSt where
  store : Store
  scratch : Nat → Option Nat
  alloc : List BddPtr
  steps : Nat

/-- The conditioning recursion `cond_with_alloc` (robdd.rs lines 518-588).
Fuel makes termination explicit; `none` means fuel ran out. -/
def condWithAlloc (ord : VarOrder) :
    Nat → CondSt → BddPtr → VarLabel → Bool → Option (BddPtr × CondSt)
  | 0, _, _, _, _ => none
  | fuel+1, st0, bdd, lbl, value =>
    let st : CondSt := ⟨st0.store, st0.scratch, st0.alloc, st0.steps + 1⟩
    match bdd with
    | .PtrTrue => some (bdd, st)
    | .PtrFalse => some (bdd, st)
    | .Reg i | .Compl i =>
      let node := st.store.getD i dfltNode
      if ord.lt lbl node.var then some (bdd, st)
      else if node.var = lbl then
        let r := if value then node.high else node.low
        some ((if bdd.isNeg then r.neg else r), st)
      else
        match st.scratch i with
        | some v =>
          some ((if bdd.isNeg then (st.alloc.getD v .PtrFalse).neg
                 else st.alloc.getD v .PtrFalse), st)
        | none =>
          match condWithAlloc ord fuel st node.low lbl value with
          | none => none
          | some (l, st1) =>
            match condWithAlloc ord fuel st1 node.high lbl value with
            | none => none
            | some (hc, st2) =>
              if l = hc then
                some ((if bdd.isNeg then l.neg else l), st2)
              else
                let rs :=
                  if l ≠ node.low ∨ hc ≠ node.high then
                    let r0 := getOrInsert st2.store ⟨node.var, l, hc⟩
                    ((if bdd.isNeg then r0.1.neg else r0.1), r0.2)
                  else (bdd, st2.store)
                let pushed := if bdd.isNeg then rs.1.neg else rs.1
                let st3 : CondSt :=
                  ⟨rs.2,
                   fun j => if j = i then some st2.alloc.length else st2.scratch j,
                   st2.alloc ++ [pushed], st2.steps⟩
                some (rs.1, st3)

/-- Freshly interned region of an extended store is reduced: every node at
an index past the old length has distinct children. -/
def NewReduced (s2 s : Store) : Prop :=
  ∀ i, s.length ≤ i → i < s2.length →
    (s2.getD i dfltNode).low ≠ (s2.getD i dfltNode).high

theorem newReduced_refl (s : Store) : NewReduced s s := by
  intro i h1 h2; omega

theorem newReduced_trans {s3 s2 s1 : Store} (h32 : Extends s3 s2)
    (n32 : NewReduced s3 s2) (h21 : Extends s2 s1) (n21 : NewReduced s2 s1) :
    NewReduced s3 s1 := by
  intro i hi1 hi3
  by_cases h : i < s2.length
  · rw [getD_of_extends h32 h]
    exact n21 i hi1 h
  · exact n32 i (by omega) hi3

theorem getOrInsert_newReduced {s : Store} {n : BddNode} (hn : n.low ≠ n.high) :
    NewReduced (getOrInsert s n).2 s := by
  have key : ∀ (m : BddNode), m.low ≠ m.high → NewReduced (intern s m).2 s := by
    intro m hm i hi1 hi2
    cases hf : findNode s m with
    | some j =>
      have h2 : (intern s m).2 = s := by unfold intern; rw [hf]
      rw [h2] at hi2
      omega
    | none =>
      have h2 : (intern s m).2 = s ++ [m] := by unfold intern; rw [hf]
      rw [h2] at hi2 ⊢
      simp only [List.length_append, List.length_singleton] at hi2
      have hieq : i = s.length := by omega
      subst hieq
      have hx : (s ++ [m]).getD s.length dfltNode = m := by
        simp [List.getD, List.getElem?_append_right (Nat.le_refl _)]
      rw [hx]
      exact hm
  unfold getOrInsert
  by_cases hb : (n.high.isNeg || n.high.isFalse) = true
  · simp only [hb, if_true]
    exact key _ (fun he => hn (neg_injective he))
  · simp only [hb, Bool.false_eq_true, if_false]
    exact key _ hn

theorem iteHelper_newReduced (ord : VarOrder) :
    ∀ (fuel : Nat) (st : BState) (f g h r : BddPtr) (st2 : BState),
      iteHelper ord fuel st f g h = some (r, st2) →
      Extends st2.store st.store ∧ NewReduced st2.store st.store := by
  intro fuel
  induction fuel with
  | zero => intro st f g h r st2 heq; simp [iteHelper] at heq
  | succ fuel ih =>
    intro st f g h r st2 heq
    simp only [iteHelper] at heq
    split at heq
    · simp only [Option.some.injEq, Prod.mk.injEq] at heq
      obtain ⟨rfl, rfl⟩ := heq
      exact ⟨extends_refl _, newReduced_refl _⟩
    · split at heq
      · simp only [Option.some.injEq, Prod.mk.injEq] at heq
        obtain ⟨rfl, rfl⟩ := heq
        exact ⟨extends_refl _, newReduced_refl _⟩
      · split at heq
        · simp only [Option.some.injEq, Prod.mk.injEq] at heq
          obtain ⟨rfl, rfl⟩ := heq
          exact ⟨extends_refl _, newReduced_refl _⟩
        · split at heq
          · exact Option.noConfusion heq
          next t stA hrec1 =>
            split at heq
            · exact Option.noConfusion heq
            next e stB hrec2 =>
              obtain ⟨he1, hn1⟩ := ih _ _ _ _ _ _ hrec1
              obtain ⟨he2, hn2⟩ := ih _ _ _ _ _ _ hrec2
              split at heq
              · simp only [Option.some.injEq, Prod.mk.injEq] at heq
                obtain ⟨rfl, rfl⟩ := heq
                exact ⟨extends_trans he2 he1, newReduced_trans he2 hn2 he1 hn1⟩
              next hne =>
                split at heq
                · simp only [Option.some.injEq, Prod.mk.injEq] at heq
                  obtain ⟨rfl, rfl⟩ := heq
                  exact ⟨extends_trans he2 he1, newReduced_trans he2 hn2 he1 hn1⟩
                · simp only [Option.some.injEq, Prod.mk.injEq] at heq
                  obtain ⟨rfl, rfl⟩ := heq
                  have hgo_ext := getOrInsert_extends stB.store
                    ⟨firstEssential ord st.store f g h, e, t⟩
                  have hgo_new : NewReduced (getOrInsert stB.store
                      ⟨firstEssential ord st.store f g h, e, t⟩).2 stB.store :=
                    getOrInsert_newReduced (fun hc => hne (id (Eq.symm hc)))
                  refine ⟨extends_trans (extends_trans hgo_ext he2) he1, ?_⟩
                  exact newReduced_trans hgo_ext hgo_new (extends_trans he2 he1)
                    (newReduced_trans he2 hn2 he1 hn1)

theorem condWithAlloc_newReduced (ord : VarOrder) :
    ∀ (fuel : Nat) (st : CondSt) (bdd : BddPtr) (lbl : VarLabel) (value : Bool)
      (r : BddPtr) (st2 : CondSt),
      condWithAlloc ord fuel st bdd lbl value = some (r, st2) →
      Extends st2.store st.store ∧ NewReduced st2.store st.store := by
  intro fuel
  induction fuel with
  | zero => intro st bdd lbl value r st2 heq; simp [condWithAlloc] at heq
  | succ fuel ih =>
    intro st bdd lbl value r st2 heq
    cases bdd with
    | PtrTrue =>
      simp only [condWithAlloc, Option.some.injEq, Prod.mk.injEq] at heq
      obtain ⟨rfl, rfl⟩ := heq
      exact ⟨extends_refl _, newReduced_refl _⟩
    | PtrFalse =>
      simp only [condWithAlloc, Option.some.injEq, Prod.mk.injEq] at heq
      obtain ⟨rfl, rfl⟩ := heq
      exact ⟨extends_refl _, newReduced_refl _⟩
    | Reg i =>
      simp only [condWithAlloc] at heq
      split at heq
      · simp only [Option.some.injEq, Prod.mk.injEq] at heq
        obtain ⟨rfl, rfl⟩ := heq
        exact ⟨extends_refl _, newReduced_refl _⟩
      · split at heq
        · simp only [Option.some.injEq, Prod.mk.injEq] at heq
          obtain ⟨rfl, rfl⟩ := heq
          exact ⟨extends_refl _, newReduced_refl _⟩
        · split at heq
          · simp only [Option.some.injEq, Prod.mk.injEq] at heq
            obtain ⟨rfl, rfl⟩ := heq
            exact ⟨extends_refl _, newReduced_refl _⟩
          · split at heq
            · exact Option.noConfusion heq
            next l stA hrec1 =>
              split at heq
              · exact Option.noConfusion heq
              next hc stB hrec2 =>
                obtain ⟨he1, hn1⟩ := ih _ _ _ _ _ _ hrec1
                obtain ⟨he2, hn2⟩ := ih _ _ _ _ _ _ hrec2
                split at heq
                · simp only [Option.some.injEq, Prod.mk.injEq] at heq
                  obtain ⟨rfl, rfl⟩ := heq
                  exact ⟨extends_trans he2 he1, newReduced_trans he2 hn2 he1 hn1⟩
                next hne =>
                  simp only [Option.some.injEq, Prod.mk.injEq] at heq
                  obtain ⟨rfl, rfl⟩ := heq
                  split
                  · have hgo_ext := getOrInsert_extends stB.store
                      ⟨(st.store.getD i dfltNode).var, l, hc⟩
                    have hgo_new : NewReduced (getOrInsert stB.store
                        ⟨(st.store.getD i dfltNode).var, l, hc⟩).2 stB.store :=
                      getOrInsert_newReduced hne
                    exact ⟨extends_trans (extends_trans hgo_ext he2) he1,
                      newReduced_trans hgo_ext hgo_new (extends_trans he2 he1)
                        (newReduced_trans he2 hn2 he1 hn1)⟩
                  · exact ⟨extends_trans he2 he1, newReduced_trans he2 hn2 he1 hn1⟩
    | Compl i =>
      simp only [condWithAlloc] at heq
      split at heq
      · simp only [Option.some.injEq, Prod.mk.injEq] at heq
        obtain ⟨rfl, rfl⟩ := heq
        exact ⟨extends_refl _, newReduced_refl _⟩
      · split at heq
        · simp only [Option.some.injEq, Prod.mk.injEq] at heq
          obtain ⟨rfl, rfl⟩ := heq
          exact ⟨extends_refl _, newReduced_refl _⟩
        · split at heq
          · simp only [Option.some.injEq, Prod.mk.injEq] at heq
            obtain ⟨rfl, rfl⟩ := heq
            exact ⟨extends_refl _, newReduced_refl _⟩
          · split at heq
            · exact Option.noConfusion heq
            next l stA hrec1 =>
              split at heq
              · exact Option.noConfusion heq
              next hc stB hrec2 =>
                obtain ⟨he1, hn1⟩ := ih _ _ _ _ _ _ hrec1
                obtain ⟨he2, hn2⟩ := ih _ _ _ _ _ _ hrec2
                split at heq
                · simp only [Option.some.injEq, Prod.mk.injEq] at heq
                  obtain ⟨rfl, rfl⟩ := heq
                  exact ⟨extends_trans he2 he1, newReduced_trans he2 hn2 he1 hn1⟩
                next hne =>
                  simp only [Option.some.injEq, Prod.mk.injEq] at heq
                  obtain ⟨rfl, rfl⟩ := heq
                  split
                  · have hgo_ext := getOrInsert_extends stB.store
                      ⟨(st.store.getD i dfltNode).var, l, hc⟩
                    have hgo_new : NewReduced (getOrInsert stB.store
                        ⟨(st.store.getD i dfltNode).var, l, hc⟩).2 stB.store :=
                      getOrInsert_newReduced hne
                    exact ⟨extends_trans (extends_trans hgo_ext he2) he1,
                      newReduced_trans hgo_ext hgo_new (extends_trans he2 he1)
                        (newReduced_trans he2 hn2 he1 hn1)⟩
                  · exact ⟨extends_trans he2 he1, newReduced_trans he2 hn2 he1 hn1⟩

/-- C10: every node interned during a call to `ite` or to `condition` has
pointer-distinct children: when the two recursive results are pointer-equal
the shared result is returned (parity-adjusted) without reaching
`get_or_insert`, so the region of the unique table freshly interned by
either recursion is reduced. -/
theorem claim10_interned_nodes_reduced (ord : VarOrder) :
    (∀ (fuel : Nat) (st : BState) (f g h r : BddPtr) (st2 : BState),
        iteHelper ord fuel st f g h = some (r, st2) →
        NewReduced st2.store st.store) ∧
    (∀ (fuel : Nat) (st : CondSt) (bdd : BddPtr) (lbl : VarLabel) (value : Bool)
        (r : BddPtr) (st2 : CondSt),
        condWithAlloc ord fuel st bdd lbl value = some (r, st2) →
        NewReduced st2.store st.store) :=
  ⟨fun fuel st f g h r st2 heq =>
      (iteHelper_newReduced ord fuel st f g h r st2 heq).2,
   fun fuel st bdd lbl value r st2 heq =>
      (condWithAlloc_newReduced ord fuel st bdd lbl value r st2 heq).2⟩

/-- Witness for C10: a concrete `ite` run that interns the conjunction node
`(0, False, Reg 1)`, and a concrete `condition` run on a constant. -/
theorem claim10_witness :
    NewReduced
      [⟨0, .PtrFalse, .PtrTrue⟩, ⟨1, .PtrFalse, .PtrTrue⟩, ⟨0, .PtrFalse, .Reg 1⟩]
      [⟨0, .PtrFalse, .PtrTrue⟩, ⟨1, .PtrFalse, .PtrTrue⟩] ∧
    NewReduced ([] : Store) ([] : Store) :=
  ⟨(claim10_interned_nodes_reduced linearOrder).1 4
      ⟨[⟨0, .PtrFalse, .PtrTrue⟩, ⟨1, .PtrFalse, .PtrTrue⟩], [], 0, none⟩
      (.Reg 0) (.Reg 1) .PtrFalse (.Reg 2)
      ⟨[⟨0, .PtrFalse, .PtrTrue⟩, ⟨1, .PtrFalse, .PtrTrue⟩, ⟨0, .PtrFalse, .Reg 1⟩],
       [((.Reg 0, .Reg 1, .PtrFalse), .Reg 2)], 3, none⟩ rfl,
   (claim10_interned_nodes_reduced linearOrder).2 1
      ⟨[], fun _ => none, [], 0⟩ .PtrTrue 0 true .PtrTrue
      ⟨[], fun _ => none, [], 1⟩ rfl⟩

/-- C6 (code bug demonstration): with the time budget already exhausted
when the two recursive subcalls poll it, `ite_helper` still inserts an
apply-cache entry through the equal-children shortcut (robdd.rs line 101,
which runs before the second `check_time_limit` guard at line 105), caching
the sentinel `False` for the triple `(v0, v1, False)` even though `False`
is not the value of `ite(v0, v1, False)`; the code comment at line 106
states the intent of avoiding exactly this caching. -/
theorem claim6_sentinel_cached_on_timeout :
    iteHelper linearOrder 6
        ⟨[⟨0, .PtrFalse, .PtrTrue⟩, ⟨1, .PtrFalse, .PtrTrue⟩], [], 0, some 0⟩
        (.Reg 0) (.Reg 1) .PtrFalse =
      some (.PtrFalse,
        ⟨[⟨0, .PtrFalse, .PtrTrue⟩, ⟨1, .PtrFalse, .PtrTrue⟩],
         [((.Reg 0, .Reg 1, .PtrFalse), .PtrFalse)], 1, some 0⟩) ∧
    cacheGet [((.Reg 0, .Reg 1, .PtrFalse), .PtrFalse)]
        (.Reg 0, .Reg 1, .PtrFalse) = some .PtrFalse ∧
    evalPtr [⟨0, .PtrFalse, .PtrTrue⟩, ⟨1, .PtrFalse, .PtrTrue⟩] .PtrFalse
        (fun _ => true) = false ∧
    iteSem [⟨0, .PtrFalse, .PtrTrue⟩, ⟨1, .PtrFalse, .PtrTrue⟩]
        (.Reg 0) (.Reg 1) .PtrFalse (fun _ => true) = true := by
  refine ⟨rfl, rfl, by simp [evalPtr, evalTag], ?_⟩
  simp [iteSem, evalPtr, evalTag, evalIdx, get?_eq_getD, List.getD]

@[simp]
theorem evalPtr_true (s : Store) (env : Env) : evalPtr s .PtrTrue env = true := by
  simp [evalPtr, evalTag]

@[simp]
theorem evalPtr_false (s : Store) (env : Env) : evalPtr s .PtrFalse env = false := by
  simp [evalPtr, evalTag]

theorem checkTimeLimit_none {st : BState} (h : st.budget = none) :
    checkTimeLimit st = false := by
  unfold checkTimeLimit
  rw [h]

theorem iteSem_extends {s2 s : Store} {f g h : BddPtr} {env : Env}
    (hext : Extends s2 s) (hs : ValidStore s) (hf : ValidPtr s f)
    (hg : ValidPtr s g) (hh : ValidPtr s h) :
    iteSem s2 f g h env = iteSem s f g h env := by
  unfold iteSem
  rw [evalPtr_extends hext hs hf, evalPtr_extends hext hs hg,
    evalPtr_extends hext hs hh]

theorem updEnv_id {env : Env} {lbl : VarLabel} {b : Bool} (h : env lbl = b) :
    updEnv env lbl b = env := by
  funext u
  unfold updEnv
  by_cases hu : u = lbl
  · subst hu; simp [h]
  · simp [hu]

theorem levBoundB_topVar {ord : VarOrder} {s : Store} {p : BddPtr} {w : VarLabel}
    (h : topVar s p = some w) {l : Nat} :
    levBoundB ord s p l = true ↔ l ≤ ord.level w := by
  cases p <;> simp [topVar, BddPtr.idx?] at h <;>
    simp [levBoundB, BddPtr.idx?, h]

theorem iteCollapseG_sem (s : Store) (f g h : BddPtr) (env : Env) :
    iteSem s f (iteCollapseG f g) h env = iteSem s f g h env := by
  unfold iteCollapseG
  split_ifs with h1 h2
  · rw [h1]
    cases hf : evalPtr s f env <;> simp [iteSem, hf]
  · rw [h2]
    cases hf : evalPtr s f env <;> simp [iteSem, hf, evalPtr_neg]
  · rfl

theorem iteCollapseH_sem (s : Store) (f g h : BddPtr) (env : Env) :
    iteSem s f g (iteCollapseH f h) env = iteSem s f g h env := by
  unfold iteCollapseH
  split_ifs with h1 h2
  · rw [h1]
    cases hf : evalPtr s f env <;> simp [iteSem, hf]
  · rw [h2]
    cases hf : evalPtr s f env <;> simp [iteSem, hf, evalPtr_neg]
  · rfl

theorem iteReorder_sem (lt : BddPtr → BddPtr → Bool) (s : Store)
    (f g h : BddPtr) (env : Env) :
    iteSem s (iteReorder lt f g h).1 (iteReorder lt f g h).2.1
      (iteReorder lt f g h).2.2 env = iteSem s f g h env := by
  unfold iteReorder
  split_ifs with h1 h2 h3 h4
  · obtain ⟨rfl, -⟩ := h1
    cases hf : evalPtr s f env <;> cases hh : evalPtr s h env <;>
      simp [iteSem, hf, hh]
  · obtain ⟨rfl, -⟩ := h2
    cases hf : evalPtr s f env <;> cases hg : evalPtr s g env <;>
      simp [iteSem, hf, hg]
  · obtain ⟨rfl, -⟩ := h3
    cases hf : evalPtr s f env <;> cases hh : evalPtr s h env <;>
      simp [iteSem, hf, hh, evalPtr_neg]
  · obtain ⟨rfl, -⟩ := h4
    cases hf : evalPtr s f env <;> cases hg : evalPtr s g env <;>
      simp [iteSem, hf, hg, evalPtr_neg]
  · rfl

theorem iteComplPull_sem {a b c a2 b2 c2 : BddPtr}
    (heq : iteComplPull a b c = .IteTriple a2 b2 c2) (s : Store) (env : Env) :
    iteSem s a2 b2 c2 env = iteSem s a b c env := by
  unfold iteComplPull at heq
  split_ifs at heq with h1
  · injection heq with e1 e2 e3
    subst e1; subst e2; subst e3
    cases ha : evalPtr s a env <;> simp [iteSem, ha, evalPtr_neg]
  · injection heq with e1 e2 e3
    subst e1; subst e2; subst e3
    rfl

theorem validPtr_const_true {s : Store} : ValidPtr s .PtrTrue := rfl

theorem validPtr_const_false {s : Store} : ValidPtr s .PtrFalse := rfl

theorem levBoundB_const_true {ord : VarOrder} {s : Store} {l : Nat} :
    levBoundB ord s .PtrTrue l = true := rfl

theorem levBoundB_const_false {ord : VarOrder} {s : Store} {l : Nat} :
    levBoundB ord s .PtrFalse l = true := rfl

theorem iteCollapseG_valid {s : Store} {f g : BddPtr} (hg : ValidPtr s g) :
    ValidPtr s (iteCollapseG f g) := by
  unfold iteCollapseG
  split_ifs <;> first | exact validPtr_const_true | exact validPtr_const_false | exact hg

theorem iteCollapseH_valid {s : Store} {f h : BddPtr} (hh : ValidPtr s h) :
    ValidPtr s (iteCollapseH f h) := by
  unfold iteCollapseH
  split_ifs <;> first | exact validPtr_const_true | exact validPtr_const_false | exact hh

theorem iteCollapseG_lev {ord : VarOrder} {s : Store} {f g : BddPtr} {l : Nat}
    (hg : levBoundB ord s g l = true) :
    levBoundB ord s (iteCollapseG f g) l = true := by
  unfold iteCollapseG
  split_ifs <;> first | exact levBoundB_const_true | exact levBoundB_const_false | exact hg

theorem iteCollapseH_lev {ord : VarOrder} {s : Store} {f h : BddPtr} {l : Nat}
    (hh : levBoundB ord s h l = true) :
    levBoundB ord s (iteCollapseH f h) l = true := by
  unfold iteCollapseH
  split_ifs <;> first | exact levBoundB_const_true | exact levBoundB_const_false | exact hh

theorem iteCollapseG_lev_bwd {ord : VarOrder} {s : Store} {f g : BddPtr} {l : Nat}
    (hf : levBoundB ord s f l = true)
    (hg1 : levBoundB ord s (iteCollapseG f g) l = true) :
    levBoundB ord s g l = true := by
  unfold iteCollapseG at hg1
  split_ifs at hg1 with h1 h2
  · rw [h1]; exact hf
  · rw [h2, levBoundB_neg]; exact hf
  · exact hg1

theorem iteCollapseH_lev_bwd {ord : VarOrder} {s : Store} {f h : BddPtr} {l : Nat}
    (hf : levBoundB ord s f l = true)
    (hh1 : levBoundB ord s (iteCollapseH f h) l = true) :
    levBoundB ord s h l = true := by
  unfold iteCollapseH at hh1
  split_ifs at hh1 with h1 h2
  · rw [h1]; exact hf
  · rw [h2, levBoundB_neg]; exact hf
  · exact hh1

theorem iteReorder_valid {lt : BddPtr → BddPtr → Bool} {s : Store} {f g h : BddPtr}
    (hf : ValidPtr s f) (hg : ValidPtr s g) (hh : ValidPtr s h) :
    ValidPtr s (iteReorder lt f g h).1 ∧ ValidPtr s (iteReorder lt f g h).2.1 ∧
      ValidPtr s (iteReorder lt f g h).2.2 := by
  unfold iteReorder
  split_ifs <;>
    refine ⟨?_, ?_, ?_⟩ <;>
    first
      | exact hh | exact hg | exact hf
      | exact validPtr_neg hh | exact validPtr_neg hg | exact validPtr_neg hf
      | exact validPtr_const_true | exact validPtr_const_false

theorem iteReorder_lev {lt : BddPtr → BddPtr → Bool} {ord : VarOrder} {s : Store}
    {f g h : BddPtr} {l : Nat}
    (hf : levBoundB ord s f l = true) (hg : levBoundB ord s g l = true)
    (hh : levBoundB ord s h l = true) :
    levBoundB ord s (iteReorder lt f g h).1 l = true ∧
      levBoundB ord s (iteReorder lt f g h).2.1 l = true ∧
      levBoundB ord s (iteReorder lt f g h).2.2 l = true := by
  unfold iteReorder
  split_ifs <;>
    refine ⟨?_, ?_, ?_⟩ <;>
    first
      | exact hh | exact hg | exact hf
      | (rw [levBoundB_neg]; first | exact hh | exact hg | exact hf)
      | exact levBoundB_const_true | exact levBoundB_const_false

theorem iteReorder_lev_bwd {lt : BddPtr → BddPtr → Bool} {ord : VarOrder} {s : Store}
    {f g h : BddPtr} {l : Nat}
    (ha : levBoundB ord s (iteReorder lt f g h).1 l = true)
    (hb : levBoundB ord s (iteReorder lt f g h).2.1 l = true)
    (hc : levBoundB ord s (iteReorder lt f g h).2.2 l = true) :
    levBoundB ord s f l = true ∧ levBoundB ord s g l = true ∧
      levBoundB ord s h l = true := by
  unfold iteReorder at ha hb hc
  split_ifs at ha hb hc with h1 h2 h3 h4
  · exact ⟨hc, by rw [h1.1]; exact levBoundB_const_true, ha⟩
  · exact ⟨hb, ha, by rw [h2.1]; exact levBoundB_const_false⟩
  · exact ⟨by rw [← levBoundB_neg]; exact hc,
      by rw [h3.1]; exact levBoundB_const_false,
      by rw [← levBoundB_neg]; exact ha⟩
  · exact ⟨by rw [← levBoundB_neg]; exact hb,
      by rw [← levBoundB_neg]; exact ha,
      by rw [h4.1]; exact levBoundB_const_true⟩
  · exact ⟨ha, hb, hc⟩

theorem iteComplPull_valid {s : Store} {a b c a2 b2 c2 : BddPtr}
    (heq : iteComplPull a b c = .IteTriple a2 b2 c2)
    (ha : ValidPtr s a) (hb : ValidPtr s b) (hc : ValidPtr s c) :
    ValidPtr s a2 ∧ ValidPtr s b2 ∧ ValidPtr s c2 := by
  unfold iteComplPull at heq
  split_ifs at heq <;> injection heq with e1 e2 e3 <;>
    subst e1 <;> subst e2 <;> subst e3
  · exact ⟨validPtr_neg ha, hc, hb⟩
  · exact ⟨ha, hb, hc⟩

theorem iteComplPull_lev {ord : VarOrder} {s : Store} {a b c a2 b2 c2 : BddPtr}
    {l : Nat} (heq : iteComplPull a b c = .IteTriple a2 b2 c2)
    (ha : levBoundB ord s a l = true) (hb : levBoundB ord s b l = true)
    (hc : levBoundB ord s c l = true) :
    levBoundB ord s a2 l = true ∧ levBoundB ord s b2 l = true ∧
      levBoundB ord s c2 l = true := by
  unfold iteComplPull at heq
  split_ifs at heq <;> injection heq with e1 e2 e3 <;>
    subst e1 <;> subst e2 <;> subst e3
  · exact ⟨by rw [levBoundB_neg]; exact ha, hc, hb⟩
  · exact ⟨ha, hb, hc⟩

theorem iteComplPull_lev_bwd {ord : VarOrder} {s : Store} {a b c a2 b2 c2 : BddPtr}
    {l : Nat} (heq : iteComplPull a b c = .IteTriple a2 b2 c2)
    (ha : levBoundB ord s a2 l = true) (hb : levBoundB ord s b2 l = true)
    (hc : levBoundB ord s c2 l = true) :
    levBoundB ord s a l = true ∧ levBoundB ord s b l = true ∧
      levBoundB ord s c l = true := by
  unfold iteComplPull at heq
  split_ifs at heq <;> injection heq with e1 e2 e3 <;>
    subst e1 <;> subst e2 <;> subst e3
  · exact ⟨by rw [← levBoundB_neg]; exact ha, hc, hb⟩
  · exact ⟨ha, hb, hc⟩

theorem iteNew_triple_inv {lt : BddPtr → BddPtr → Bool} {f g h a b c : BddPtr}
    (heq : iteNew lt f g h = .IteTriple a b c) :
    f ≠ .PtrTrue ∧ f ≠ .PtrFalse ∧
    iteComplPull (iteReorder lt f (iteCollapseG f g) (iteCollapseH f h)).1
      (iteReorder lt f (iteCollapseG f g) (iteCollapseH f h)).2.1
      (iteReorder lt f (iteCollapseG f g) (iteCollapseH f h)).2.2 =
      .IteTriple a b c := by
  simp only [iteNew] at heq
  split_ifs at heq with h1 h2 h3 h4 h5 h6 h7 h8
  exact ⟨h1, h2, heq⟩

theorem iteNew_triple_sem {lt : BddPtr → BddPtr → Bool} {f g h a b c : BddPtr}
    (heq : iteNew lt f g h = .IteTriple a b c) (s : Store) (env : Env) :
    iteSem s a b c env = iteSem s f g h env := by
  obtain ⟨-, -, hpull⟩ := iteNew_triple_inv heq
  calc iteSem s a b c env
      = iteSem s (iteReorder lt f (iteCollapseG f g) (iteCollapseH f h)).1
          (iteReorder lt f (iteCollapseG f g) (iteCollapseH f h)).2.1
          (iteReorder lt f (iteCollapseG f g) (iteCollapseH f h)).2.2 env :=
        iteComplPull_sem hpull s env
    _ = iteSem s f (iteCollapseG f g) (iteCollapseH f h) env :=
        iteReorder_sem lt s f (iteCollapseG f g) (iteCollapseH f h) env
    _ = iteSem s f (iteCollapseG f g) h env :=
        iteCollapseH_sem s f (iteCollapseG f g) h env
    _ = iteSem s f g h env := iteCollapseG_sem s f g h env

theorem iteNew_triple_valid {lt : BddPtr → BddPtr → Bool} {f g h a b c : BddPtr}
    {s : Store} (heq : iteNew lt f g h = .IteTriple a b c)
    (hf : ValidPtr s f) (hg : ValidPtr s g) (hh : ValidPtr s h) :
    ValidPtr s a ∧ ValidPtr s b ∧ ValidPtr s c := by
  obtain ⟨-, -, hpull⟩ := iteNew_triple_inv heq
  have hre := @iteReorder_valid lt s f (iteCollapseG f g) (iteCollapseH f h)
    hf (@iteCollapseG_valid s f g hg) (@iteCollapseH_valid s f h hh)
  exact iteComplPull_valid hpull hre.1 hre.2.1 hre.2.2

theorem iteNew_triple_lev {lt : BddPtr → BddPtr → Bool} {ord : VarOrder}
    {f g h a b c : BddPtr} {s : Store} {l : Nat}
    (heq : iteNew lt f g h = .IteTriple a b c)
    (hf : levBoundB ord s f l = true) (hg : levBoundB ord s g l = true)
    (hh : levBoundB ord s h l = true) :
    levBoundB ord s a l = true ∧ levBoundB ord s b l = true ∧
      levBoundB ord s c l = true := by
  obtain ⟨-, -, hpull⟩ := iteNew_triple_inv heq
  have hre := @iteReorder_lev lt ord s f (iteCollapseG f g) (iteCollapseH f h)
    l hf (@iteCollapseG_lev ord s f g l hg) (@iteCollapseH_lev ord s f h l hh)
  exact iteComplPull_lev hpull hre.1 hre.2.1 hre.2.2

theorem iteNew_triple_lev_bwd {lt : BddPtr → BddPtr → Bool} {ord : VarOrder}
    {f g h a b c : BddPtr} {s : Store} {l : Nat}
    (heq : iteNew lt f g h = .IteTriple a b c)
    (ha : levBoundB ord s a l = true) (hb : levBoundB ord s b l = true)
    (hc : levBoundB ord s c l = true) :
    levBoundB ord s f l = true ∧ levBoundB ord s g l = true ∧
      levBoundB ord s h l = true := by
  obtain ⟨-, -, hpull⟩ := iteNew_triple_inv heq
  obtain ⟨ha0, hb0, hc0⟩ := iteComplPull_lev_bwd hpull ha hb hc
  obtain ⟨hf, hg1, hh1⟩ := iteReorder_lev_bwd ha0 hb0 hc0
  exact ⟨hf, iteCollapseG_lev_bwd hf hg1, iteCollapseH_lev_bwd hf hh1⟩

theorem iteNew_const_sem {lt : BddPtr → BddPtr → Bool} {f g h c : BddPtr}
    (heq : iteNew lt f g h = .IteConst c) (s : Store) (env : Env) :
    evalPtr s c env = iteSem s f g h env := by
  have hGH : iteSem s f (iteCollapseG f g) (iteCollapseH f h) env =
      iteSem s f g h env := by
    rw [iteCollapseH_sem s f (iteCollapseG f g) h env, iteCollapseG_sem s f g h env]
  simp only [iteNew] at heq
  split_ifs at heq with h1 h2 h3 h4 h5 h6 h7 h8
  · injection heq with hc; subst hc
    rw [h1]
    cases hg : evalPtr s g env <;> simp [iteSem, hg]
  · injection heq with hc; subst hc
    rw [h2]
    cases hh : evalPtr s h env <;> simp [iteSem, hh]
  · injection heq with hc; subst hc
    rw [h3]
    cases hf : evalPtr s f env <;> cases hh : evalPtr s h env <;>
      simp [iteSem, hf, hh]
  · injection heq with hc; subst hc
    rw [h4.1, h4.2]
    cases hf : evalPtr s f env <;> simp [iteSem, hf]
  · injection heq with hc; subst hc
    rw [h5.1, h5.2]
    cases hf : evalPtr s f env <;> simp [iteSem, hf, evalPtr_neg]
  · injection heq with hc; subst hc
    rw [← hGH, ← h6]
    cases hf : evalPtr s f env <;>
      cases hg1 : evalPtr s (iteCollapseG f g) env <;>
      simp [iteSem, hf, hg1]
  · injection heq with hc; subst hc
    rw [← hGH, h7.1, h7.2]
    cases hf : evalPtr s f env <;> simp [iteSem, hf]
  · injection heq with hc; subst hc
    rw [← hGH, h8.1, h8.2]
    cases hf : evalPtr s f env <;> simp [iteSem, hf, evalPtr_neg]
  · exfalso
    revert heq
    unfold iteComplPull
    split_ifs <;> intro heq <;> first | exact heq | exact absurd heq (by simp)

theorem iteNew_const_valid {lt : BddPtr → BddPtr → Bool} {f g h c : BddPtr}
    {s : Store} (heq : iteNew lt f g h = .IteConst c)
    (hf : ValidPtr s f) (hg : ValidPtr s g) (hh : ValidPtr s h) :
    ValidPtr s c := by
  simp only [iteNew] at heq
  split_ifs at heq with h1 h2 h3 h4 h5 h6 h7 h8
  · injection heq with hc; subst hc; exact hg
  · injection heq with hc; subst hc; exact hh
  · injection heq with hc; subst hc; exact hg
  · injection heq with hc; subst hc; exact hf
  · injection heq with hc; subst hc; exact validPtr_neg hf
  · injection heq with hc; subst hc; exact iteCollapseG_valid hg
  · injection heq with hc; subst hc; exact hf
  · injection heq with hc; subst hc; exact validPtr_neg hf
  · exfalso
    revert heq
    unfold iteComplPull
    split_ifs <;> intro heq <;> first | exact heq | exact absurd heq (by simp)

theorem iteNew_const_lev {lt : BddPtr → BddPtr → Bool} {ord : VarOrder}
    {f g h c : BddPtr} {s : Store} {l : Nat}
    (heq : iteNew lt f g h = .IteConst c)
    (hf : levBoundB ord s f l = true) (hg : levBoundB ord s g l = true)
    (hh : levBoundB ord s h l = true) :
    levBoundB ord s c l = true := by
  simp only [iteNew] at heq
  split_ifs at heq with h1 h2 h3 h4 h5 h6 h7 h8
  · injection heq with hc; subst hc; exact hg
  · injection heq with hc; subst hc; exact hh
  · injection heq with hc; subst hc; exact hg
  · injection heq with hc; subst hc; exact hf
  · injection heq with hc; subst hc; rw [levBoundB_neg]; exact hf
  · injection heq with hc; subst hc; exact iteCollapseG_lev hg
  · injection heq with hc; subst hc; exact hf
  · injection heq with hc; subst hc; rw [levBoundB_neg]; exact hf
  · exfalso
    revert heq
    unfold iteComplPull
    split_ifs <;> intro heq <;> first | exact heq | exact absurd heq (by simp)

/-- Correctness invariant of the apply cache: every stored entry maps a
valid normalized triple to a valid pointer denoting its ite combination,
and respects position lower bounds. -/
def CacheOK (ord : VarOrder) (s : Store) (c : ACache) : Prop :=
  ∀ e ∈ c,
    ValidPtr s e.1.1 ∧ ValidPtr s e.1.2.1 ∧ ValidPtr s e.1.2.2 ∧ ValidPtr s e.2 ∧
    (∀ env, evalPtr s e.2 env = iteSem s e.1.1 e.1.2.1 e.1.2.2 env) ∧
    (∀ l, levBoundB ord s e.1.1 l = true → levBoundB ord s e.1.2.1 l = true →
      levBoundB ord s e.1.2.2 l = true → levBoundB ord s e.2 l = true)

theorem cacheOK_nil (ord : VarOrder) (s : Store) : CacheOK ord s [] := by
  intro e he
  simp at he

theorem cacheOK_extends {ord : VarOrder} {s2 s : Store} {c : ACache}
    (hext : Extends s2 s) (hs : ValidStore s) (hc : CacheOK ord s c) :
    CacheOK ord s2 c := by
  intro e he
  obtain ⟨v1, v2, v3, v4, hsem, hlev⟩ := hc e he
  refine ⟨validPtr_mono hext v1, validPtr_mono hext v2, validPtr_mono hext v3,
    validPtr_mono hext v4, ?_, ?_⟩
  · intro env
    rw [evalPtr_extends hext hs v4, iteSem_extends hext hs v1 v2 v3]
    exact hsem env
  · intro l ha hb hcc
    rw [levBoundB_extends hext v1] at ha
    rw [levBoundB_extends hext v2] at hb
    rw [levBoundB_extends hext v3] at hcc
    rw [levBoundB_extends hext v4]
    exact hlev l ha hb hcc

theorem cacheOK_cons {ord : VarOrder} {s : Store} {c : ACache}
    {k : BddPtr × BddPtr × BddPtr} {v : BddPtr} (hc : CacheOK ord s c)
    (h1 : ValidPtr s k.1) (h2 : ValidPtr s k.2.1) (h3 : ValidPtr s k.2.2)
    (h4 : ValidPtr s v)
    (hsem : ∀ env, evalPtr s v env = iteSem s k.1 k.2.1 k.2.2 env)
    (hlev : ∀ l, levBoundB ord s k.1 l = true → levBoundB ord s k.2.1 l = true →
      levBoundB ord s k.2.2 l = true → levBoundB ord s v l = true) :
    CacheOK ord s ((k, v) :: c) := by
  intro e he
  rcases List.mem_cons.mp he with rfl | he2
  · exact ⟨h1, h2, h3, h4, hsem, hlev⟩
  · exact hc e he2

theorem cacheGet_ok {ord : VarOrder} {s : Store} {c : ACache}
    {k : BddPtr × BddPtr × BddPtr} {v : BddPtr}
    (hget : cacheGet c k = some v) (hc : CacheOK ord s c) :
    ValidPtr s v ∧
    (∀ env, evalPtr s v env = iteSem s k.1 k.2.1 k.2.2 env) ∧
    (∀ l, levBoundB ord s k.1 l = true → levBoundB ord s k.2.1 l = true →
      levBoundB ord s k.2.2 l = true → levBoundB ord s v l = true) := by
  unfold cacheGet at hget
  obtain ⟨e, hfind, hv⟩ := Option.map_eq_some'.mp hget
  have hmem := List.mem_of_find?_eq_some hfind
  have hpred := List.find?_some hfind
  have hek : e.1 = k := by simpa using hpred
  obtain ⟨-, -, -, v4, hsem, hlev⟩ := hc e hmem
  subst hv
  rw [hek] at hsem hlev
  exact ⟨v4, hsem, hlev⟩

theorem topVar_nonterminal {s : Store} {f : BddPtr}
    (h1 : f ≠ .PtrTrue) (h2 : f ≠ .PtrFalse) : topVar s f ≠ none := by
  cases f with
  | PtrTrue => exact absurd rfl h1
  | PtrFalse => exact absurd rfl h2
  | Reg i => simp [topVar, BddPtr.idx?]
  | Compl i => simp [topVar, BddPtr.idx?]

/-- Main invariant-preservation and correctness induction for `ite_helper`
under an inactive time budget: the result denotes the if-then-else of the
arguments, and validity, ordering and cache correctness are preserved. -/
theorem iteHelper_spec {ord : VarOrder} (hinj : OrdInj ord) :
    ∀ (fuel : Nat) (st : BState) (f g h r : BddPtr) (st2 : BState),
      st.budget = none →
      ValidStore st.store → OrderedStore ord st.store →
      CacheOK ord st.store st.cache →
      ValidPtr st.store f → ValidPtr st.store g → ValidPtr st.store h →
      iteHelper ord fuel st f g h = some (r, st2) →
      Extends st2.store st.store ∧ st2.budget = none ∧
      ValidStore st2.store ∧ OrderedStore ord st2.store ∧
      CacheOK ord st2.store st2.cache ∧ ValidPtr st2.store r ∧
      (∀ env, evalPtr st2.store r env = iteSem st.store f g h env) ∧
      (∀ l, levBoundB ord st.store f l = true → levBoundB ord st.store g l = true →
        levBoundB ord st.store h l = true → levBoundB ord st2.store r l = true) := by
  intro fuel
  induction fuel with
  | zero => intro st f g h r st2 hb hv ho hc hf hg hh heq; simp [iteHelper] at heq
  | succ fuel ih =>
    intro st f g h r st2 hb hv ho hc hf hg hh heq
    simp only [iteHelper] at heq
    rw [checkTimeLimit_none hb] at heq
    simp only [Bool.false_eq_true, if_false] at heq
    split at heq
    next c hnorm =>
      simp only [Option.some.injEq, Prod.mk.injEq] at heq
      obtain ⟨rfl, rfl⟩ := heq
      exact ⟨extends_refl _, hb, hv, ho, hc,
        iteNew_const_valid hnorm hf hg hh,
        fun env => iteNew_const_sem hnorm st.store env,
        fun l ha hb2 hc2 => iteNew_const_lev hnorm ha hb2 hc2⟩
    next f2 g2 h2 hnorm =>
      obtain ⟨hne1, hne2, -⟩ := iteNew_triple_inv hnorm
      obtain ⟨hkf2, hkg2, hkh2⟩ := iteNew_triple_valid hnorm hf hg hh
      split at heq
      next v hget =>
        simp only [Option.some.injEq, Prod.mk.injEq] at heq
        obtain ⟨rfl, rfl⟩ := heq
        obtain ⟨hvv, hvsem, hvlev⟩ := cacheGet_ok hget hc
        refine ⟨extends_refl _, hb, hv, ho, hc, hvv, ?_, ?_⟩
        · intro env
          rw [hvsem env]
          exact iteNew_triple_sem hnorm st.store env
        · intro l ha hb2 hc2
          obtain ⟨ka, kb, kc⟩ := iteNew_triple_lev hnorm ha hb2 hc2
          exact hvlev l ka kb kc
      next hget =>
        have hfeF : levBoundB ord st.store f
            (ord.level (firstEssential ord st.store f g h)) = true :=
          firstEssential_le f (Or.inl rfl)
        have hfeG : levBoundB ord st.store g
            (ord.level (firstEssential ord st.store f g h)) = true :=
          firstEssential_le g (Or.inr (Or.inl rfl))
        have hfeH : levBoundB ord st.store h
            (ord.level (firstEssential ord st.store f g h)) = true :=
          firstEssential_le h (Or.inr (Or.inr rfl))
        have hvfx := @condEss_validPtr _ _
          (firstEssential ord st.store f g h) true hv hf
        have hvgx := @condEss_validPtr _ _
          (firstEssential ord st.store f g h) true hv hg
        have hvhx := @condEss_validPtr _ _
          (firstEssential ord st.store f g h) true hv hh
        have hvfn := @condEss_validPtr _ _
          (firstEssential ord st.store f g h) false hv hf
        have hvgn := @condEss_validPtr _ _
          (firstEssential ord st.store f g h) false hv hg
        have hvhn := @condEss_validPtr _ _
          (firstEssential ord st.store f g h) false hv hh
        have hlfx := condEss_levBound (v := true) ho hinj hf hfeF
        have hlgx := condEss_levBound (v := true) ho hinj hg hfeG
        have hlhx := condEss_levBound (v := true) ho hinj hh hfeH
        have hlfn := condEss_levBound (v := false) ho hinj hf hfeF
        have hlgn := condEss_levBound (v := false) ho hinj hg hfeG
        have hlhn := condEss_levBound (v := false) ho hinj hh hfeH
        have hsemx : ∀ env, iteSem st.store
            (conditionEssential st.store f (firstEssential ord st.store f g h) true)
            (conditionEssential st.store g (firstEssential ord st.store f g h) true)
            (conditionEssential st.store h (firstEssential ord st.store f g h) true)
            env =
            iteSem st.store f g h
              (updEnv env (firstEssential ord st.store f g h) true) := by
          intro env
          unfold iteSem
          rw [condEss_eval hv ho hinj hf hfeF env, condEss_eval hv ho hinj hg hfeG env,
            condEss_eval hv ho hinj hh hfeH env]
        have hsemn : ∀ env, iteSem st.store
            (conditionEssential st.store f (firstEssential ord st.store f g h) false)
            (conditionEssential st.store g (firstEssential ord st.store f g h) false)
            (conditionEssential st.store h (firstEssential ord st.store f g h) false)
            env =
            iteSem st.store f g h
              (updEnv env (firstEssential ord st.store f g h) false) := by
          intro env
          unfold iteSem
          rw [condEss_eval hv ho hinj hf hfeF env, condEss_eval hv ho hinj hg hfeG env,
            condEss_eval hv ho hinj hh hfeH env]
        split at heq
        · exact Option.noConfusion heq
        next t stA hrec1 =>
          split at heq
          · exact Option.noConfusion heq
          next e stB hrec2 =>
            obtain ⟨hextA, hbA, hvA, hoA, hcA, hvt, hevt, hlevt⟩ :=
              ih ⟨st.store, st.cache, st.steps + 1, st.budget⟩ _ _ _ _ _
                hb hv ho hc hvfx hvgx hvhx hrec1
            obtain ⟨hextB, hbB, hvB, hoB, hcB, hvee, heve, hleve⟩ :=
              ih _ _ _ _ _ _ hbA hvA hoA hcA (validPtr_mono hextA hvfn)
                (validPtr_mono hextA hvgn) (validPtr_mono hextA hvhn) hrec2
            have hextBA := extends_trans hextB hextA
            have hevalE : ∀ env, evalPtr stB.store e env =
                iteSem st.store f g h
                  (updEnv env (firstEssential ord st.store f g h) false) := by
              intro env
              rw [heve env,
                iteSem_extends hextA hv hvfn hvgn hvhn, hsemn env]
            have hevalT : ∀ env, evalPtr stB.store t env =
                iteSem st.store f g h
                  (updEnv env (firstEssential ord st.store f g h) true) := by
              intro env
              rw [evalPtr_extends hextB hvA hvt, hevt env, hsemx env]
            have hlevT : levBoundB ord stB.store t
                (ord.level (firstEssential ord st.store f g h) + 1) = true := by
              rw [levBoundB_extends hextB hvt]
              exact hlevt _ hlfx hlgx hlhx
            have hlevE : levBoundB ord stB.store e
                (ord.level (firstEssential ord st.store f g h) + 1) = true := by
              refine hleve _ ?_ ?_ ?_ <;>
                rw [levBoundB_extends hextA] <;>
                first
                  | exact hlfn | exact hlgn | exact hlhn
                  | exact hvfn | exact hvgn | exact hvhn
            have hminkey : ∀ l, levBoundB ord st.store f l = true →
                levBoundB ord st.store g l = true →
                levBoundB ord st.store h l = true →
                l ≤ ord.level (firstEssential ord st.store f g h) := by
              intro l ha hb2 hc2
              exact firstEssential_min ha hb2 hc2 (topVar_nonterminal hne1 hne2)
            split at heq
            next hte =>
              subst hte
              simp only [Option.some.injEq, Prod.mk.injEq] at heq
              obtain ⟨rfl, rfl⟩ := heq
              have hevalR : ∀ env, evalPtr stB.store t env =
                  iteSem st.store f g h env := by
                intro env
                cases hl : env (firstEssential ord st.store f g h)
                · rw [hevalE env, updEnv_id hl]
                · rw [hevalT env, updEnv_id hl]
              refine ⟨extends_trans hextB hextA, hbB, hvB, hoB, ?_,
                validPtr_mono (extends_refl _) hvee, hevalR, ?_⟩
              · refine cacheOK_cons hcB (validPtr_mono hextBA hkf2)
                  (validPtr_mono hextBA hkg2) (validPtr_mono hextBA hkh2)
                  hvee ?_ ?_
                · intro env
                  rw [hevalR env, ← iteNew_triple_sem hnorm st.store env,
                    iteSem_extends hextBA hv hkf2 hkg2 hkh2]
                · intro l k1 k2 k3
                  rw [levBoundB_extends hextBA hkf2] at k1
                  rw [levBoundB_extends hextBA hkg2] at k2
                  rw [levBoundB_extends hextBA hkh2] at k3
                  obtain ⟨bf, bg, bh⟩ := iteNew_triple_lev_bwd hnorm k1 k2 k3
                  exact levBoundB_mono hlevT
                    (Nat.le_succ_of_le (hminkey l bf bg bh))
              · intro l bf bg bh
                exact levBoundB_mono hlevT (Nat.le_succ_of_le (hminkey l bf bg bh))
            next hte =>
              split at heq
              next htime2 =>
                rw [checkTimeLimit_none hbB] at htime2
                exact absurd htime2 (by simp)
              next =>
                simp only [Option.some.injEq, Prod.mk.injEq] at heq
                obtain ⟨rfl, rfl⟩ := heq
                have hgo_ext := getOrInsert_extends stB.store
                  ⟨firstEssential ord st.store f g h, e, t⟩
                have hgo_vs : ValidStore (getOrInsert stB.store
                    ⟨firstEssential ord st.store f g h, e, t⟩).2 :=
                  getOrInsert_validStore hvB hvee (validPtr_mono hextB hvt)
                have hgo_ord : OrderedStore ord (getOrInsert stB.store
                    ⟨firstEssential ord st.store f g h, e, t⟩).2 :=
                  getOrInsert_ordered hvB hoB hvee (validPtr_mono hextB hvt)
                    hlevE hlevT
                have hgo_vp := getOrInsert_validPtr stB.store
                  ⟨firstEssential ord st.store f g h, e, t⟩
                have hgo_tv := getOrInsert_topVar stB.store
                  ⟨firstEssential ord st.store f g h, e, t⟩
                have hextAll := extends_trans hgo_ext hextBA
                have hevalR : ∀ env, evalPtr (getOrInsert stB.store
                    ⟨firstEssential ord st.store f g h, e, t⟩).2
                    (getOrInsert stB.store
                      ⟨firstEssential ord st.store f g h, e, t⟩).1 env =
                    iteSem st.store f g h env := by
                  intro env
                  rw [getOrInsert_eval hvB hvee (validPtr_mono hextB hvt) env]
                  cases hl : env (firstEssential ord st.store f g h)
                  · simp only [hl, Bool.false_eq_true, if_false]
                    rw [hevalE env, updEnv_id hl]
                  · simp only [hl, if_true]
                    rw [hevalT env, updEnv_id hl]
                have hlevR : ∀ l, l ≤ ord.level (firstEssential ord st.store f g h) →
                    levBoundB ord (getOrInsert stB.store
                      ⟨firstEssential ord st.store f g h, e, t⟩).2
                      (getOrInsert stB.store
                        ⟨firstEssential ord st.store f g h, e, t⟩).1 l = true := by
                  intro l hl
                  exact (levBoundB_topVar hgo_tv).mpr hl
                refine ⟨hextAll, hbB, hgo_vs, hgo_ord, ?_, hgo_vp, hevalR, ?_⟩
                · refine cacheOK_cons
                    (cacheOK_extends hgo_ext hvB hcB)
                    (validPtr_mono hextAll hkf2) (validPtr_mono hextAll hkg2)
                    (validPtr_mono hextAll hkh2) hgo_vp ?_ ?_
                  · intro env
                    rw [hevalR env, ← iteNew_triple_sem hnorm st.store env,
                      iteSem_extends hextAll hv hkf2 hkg2 hkh2]
                  · intro l k1 k2 k3
                    rw [levBoundB_extends hextAll hkf2] at k1
                    rw [levBoundB_extends hextAll hkg2] at k2
                    rw [levBoundB_extends hextAll hkh2] at k3
                    obtain ⟨bf, bg, bh⟩ := iteNew_triple_lev_bwd hnorm k1 k2 k3
                    exact hlevR l (hminkey l bf bg bh)
                · intro l bf bg bh
                  exact hlevR l (hminkey l bf bg bh)

/-- C2: `ite(f, g, h)` denotes `(f and g) or (not f and h)`; the recursion
branches on the first essential variable and cofactors via
`condition_essential`, which leaves every argument whose top variable is
not that variable untouched; and when the two recursive results are
pointer-equal that shared result is returned with only a cache insertion —
the store is left exactly as the recursion produced it, no node interned. -/
theorem claim2_ite_correct (ord : VarOrder) (hinj : OrdInj ord) :
    (∀ (fuel : Nat) (st : BState) (f g h r : BddPtr) (st2 : BState),
      st.budget = none → ValidStore st.store → OrderedStore ord st.store →
      CacheOK ord st.store st.cache → ValidPtr st.store f →
      ValidPtr st.store g → ValidPtr st.store h →
      iteHelper ord fuel st f g h = some (r, st2) →
      ∀ env, evalPtr st2.store r env = iteSem st.store f g h env) ∧
    (∀ (s : Store) (f : BddPtr) (lbl : VarLabel) (v : Bool),
      topVar s f ≠ some lbl → conditionEssential s f lbl v = f) ∧
    (∀ (fuel : Nat) (st : BState) (f g h f2 g2 h2 t e : BddPtr) (stA stB : BState),
      checkTimeLimit st = false →
      iteNew (iteArgLt ord st.store) f g h = .IteTriple f2 g2 h2 →
      cacheGet st.cache (f2, g2, h2) = none →
      iteHelper ord fuel ⟨st.store, st.cache, st.steps + 1, st.budget⟩
        (conditionEssential st.store f (firstEssential ord st.store f g h) true)
        (conditionEssential st.store g (firstEssential ord st.store f g h) true)
        (conditionEssential st.store h (firstEssential ord st.store f g h) true) =
        some (t, stA) →
      iteHelper ord fuel stA
        (conditionEssential st.store f (firstEssential ord st.store f g h) false)
        (conditionEssential st.store g (firstEssential ord st.store f g h) false)
        (conditionEssential st.store h (firstEssential ord st.store f g h) false) =
        some (e, stB) →
      t = e →
      iteHelper ord (fuel+1) st f g h =
        some (t, ⟨stB.store, ((f2, g2, h2), t) :: stB.cache, stB.steps, stB.budget⟩)) := by
  refine ⟨?_, ?_, ?_⟩
  · intro fuel st f g h r st2 hb hv ho hc hf hg hh heq
    exact (iteHelper_spec hinj fuel st f g h r st2 hb hv ho hc hf hg hh heq).2.2.2.2.2.2.1
  · intro s f lbl v hne
    exact condEss_untouched hne
  · intro fuel st f g h f2 g2 h2 t e stA stB htime hnorm hget hr1 hr2 hte
    subst hte
    simp [iteHelper, htime, hnorm, hget, hr1, hr2]

/-- Witness for C2 on concrete runs: `ite(v0, v0 and v1, v1)` exercises the
equal-results shortcut, `ite(v0, v1, False)` the semantic statement, and a
true-branch cofactor on an argument rooted at a different variable the
untouched case. -/
theorem claim2_witness :
    (∀ env,
      evalPtr [⟨0, .PtrFalse, .PtrTrue⟩, ⟨1, .PtrFalse, .PtrTrue⟩, ⟨0, .PtrFalse, .Reg 1⟩]
        (.Reg 2) env =
      iteSem [⟨0, .PtrFalse, .PtrTrue⟩, ⟨1, .PtrFalse, .PtrTrue⟩]
        (.Reg 0) (.Reg 1) .PtrFalse env) ∧
    conditionEssential [⟨0, .PtrFalse, .PtrTrue⟩, ⟨1, .PtrFalse, .PtrTrue⟩]
      (.Reg 1) 0 true = .Reg 1 ∧
    iteHelper linearOrder 4
      ⟨[⟨0, .PtrFalse, .PtrTrue⟩, ⟨1, .PtrFalse, .PtrTrue⟩, ⟨0, .PtrFalse, .Reg 1⟩],
       [], 0, none⟩ (.Reg 0) (.Reg 2) (.Reg 1) =
      some (.Reg 1,
        ⟨[⟨0, .PtrFalse, .PtrTrue⟩, ⟨1, .PtrFalse, .PtrTrue⟩, ⟨0, .PtrFalse, .Reg 1⟩],
         [((.Reg 0, .Reg 2, .Reg 1), .Reg 1)], 3, none⟩) := by
  refine ⟨?_, ?_, ?_⟩
  · exact (claim2_ite_correct linearOrder (fun a b hab => hab)).1 4
      ⟨[⟨0, .PtrFalse, .PtrTrue⟩, ⟨1, .PtrFalse, .PtrTrue⟩], [], 0, none⟩
      (.Reg 0) (.Reg 1) .PtrFalse (.Reg 2)
      ⟨[⟨0, .PtrFalse, .PtrTrue⟩, ⟨1, .PtrFalse, .PtrTrue⟩, ⟨0, .PtrFalse, .Reg 1⟩],
       [((.Reg 0, .Reg 1, .PtrFalse), .Reg 2)], 3, none⟩
      rfl (by decide) (by decide) (cacheOK_nil _ _) (by decide) (by decide)
      (by decide) rfl
  · exact (claim2_ite_correct linearOrder (fun a b hab => hab)).2.1
      [⟨0, .PtrFalse, .PtrTrue⟩, ⟨1, .PtrFalse, .PtrTrue⟩] (.Reg 1) 0 true
      (by decide)
  · exact (claim2_ite_correct linearOrder (fun a b hab => hab)).2.2 3
      ⟨[⟨0, .PtrFalse, .PtrTrue⟩, ⟨1, .PtrFalse, .PtrTrue⟩, ⟨0, .PtrFalse, .Reg 1⟩],
       [], 0, none⟩
      (.Reg 0) (.Reg 2) (.Reg 1) (.Reg 0) (.Reg 2) (.Reg 1) (.Reg 1) (.Reg 1)
      ⟨[⟨0, .PtrFalse, .PtrTrue⟩, ⟨1, .PtrFalse, .PtrTrue⟩, ⟨0, .PtrFalse, .Reg 1⟩],
       [], 2, none⟩
      ⟨[⟨0, .PtrFalse, .PtrTrue⟩, ⟨1, .PtrFalse, .PtrTrue⟩, ⟨0, .PtrFalse, .Reg 1⟩],
       [], 3, none⟩
      rfl (by decide) rfl rfl rfl rfl

theorem getD_append_lt {α : Type} {l1 l2 : List α} {v : Nat} (h : v < l1.length)
    (d : α) : (l1 ++ l2).getD v d = l1.getD v d := by
  simp [List.getD, List.getElem?_append_left h]

theorem getD_append_last {α : Type} {l1 : List α} {x : α} (d : α) :
    (l1 ++ [x]).getD l1.length d = x := by
  simp [List.getD, List.getElem?_append_right (Nat.le_refl _)]

theorem levBoundB_reg {ord : VarOrder} {s : Store} {i : Nat} {l : Nat} :
    levBoundB ord s (.Reg i) l = true ↔
      l ≤ ord.level ((s.getD i dfltNode).var) := by
  simp [levBoundB, BddPtr.idx?]

theorem levBoundB_compl {ord : VarOrder} {s : Store} {i : Nat} {l : Nat} :
    levBoundB ord s (.Compl i) l = true ↔
      l ≤ ord.level ((s.getD i dfltNode).var) := by
  simp [levBoundB, BddPtr.idx?]

/-- Invariant of the conditioning memo: every populated scratch slot points
into `alloc` at the regular-parity conditioned version of its node. -/
def MemoOK (ord : VarOrder) (lbl : VarLabel) (value : Bool) (st : CondSt) : Prop :=
  ∀ i v, st.scratch i = some v →
    i < st.store.length ∧ v < st.alloc.length ∧
    ValidPtr st.store (st.alloc.getD v .PtrFalse) ∧
    (∀ env, evalPtr st.store (st.alloc.getD v .PtrFalse) env =
      evalPtr st.store (.Reg i) (updEnv env lbl value)) ∧
    levBoundB ord st.store (st.alloc.getD v .PtrFalse)
      (ord.level ((st.store.getD i dfltNode).var)) = true

theorem memoOK_empty {ord : VarOrder} {lbl : VarLabel} {value : Bool}
    {st : CondSt} (h : ∀ i, st.scratch i = none) : MemoOK ord lbl value st := by
  intro i v hiv
  rw [h i] at hiv
  exact Option.noConfusion hiv

theorem memoOK_push {ord : VarOrder} {lbl : VarLabel} {value : Bool}
    {stB : CondSt} {sNew : Store} {i : Nat} {p : BddPtr} (steps : Nat)
    (hm : MemoOK ord lbl value stB) (hvsB : ValidStore stB.store)
    (hext : Extends sNew stB.store) (hi : i < stB.store.length)
    (hp : ValidPtr sNew p)
    (hpev : ∀ env, evalPtr sNew p env =
      evalPtr sNew (.Reg i) (updEnv env lbl value))
    (hpbnd : levBoundB ord sNew p
      (ord.level ((sNew.getD i dfltNode).var)) = true) :
    MemoOK ord lbl value
      ⟨sNew, fun j => if j = i then some stB.alloc.length else stB.scratch j,
       stB.alloc ++ [p], steps⟩ := by
  intro j w hjw
  simp only at hjw
  by_cases hji : j = i
  · rw [if_pos hji] at hjw
    subst hji
    obtain rfl : stB.alloc.length = w := Option.some.inj hjw
    have hjlen : j < sNew.length :=
      Nat.lt_of_lt_of_le hi (extends_length hext)
    refine ⟨hjlen, by simp, ?_, ?_, ?_⟩
    · rw [show (stB.alloc ++ [p]).getD stB.alloc.length .PtrFalse = p from
        getD_append_last _]
      exact hp
    · rw [show (stB.alloc ++ [p]).getD stB.alloc.length .PtrFalse = p from
        getD_append_last _]
      exact hpev
    · rw [show (stB.alloc ++ [p]).getD stB.alloc.length .PtrFalse = p from
        getD_append_last _]
      exact hpbnd
  · rw [if_neg hji] at hjw
    obtain ⟨hjl, hwl, hval, heval, hbnd⟩ := hm j w hjw
    have hvreg : ValidPtr stB.store (.Reg j) := by
      simpa [ValidPtr, BddPtr.idxLt] using hjl
    refine ⟨Nat.lt_of_lt_of_le hjl (extends_length hext),
      by simp; omega, ?_, ?_, ?_⟩
    · rw [getD_append_lt hwl]
      exact validPtr_mono hext hval
    · intro env
      rw [getD_append_lt hwl, evalPtr_extends hext hvsB hval, heval env,
        evalPtr_extends hext hvsB hvreg]
    · rw [getD_append_lt hwl, getD_of_extends hext hjl,
        levBoundB_extends hext hval]
      exact hbnd

/-- Main invariant-preservation and correctness induction for
`cond_with_alloc`: the result denotes the restriction of the input to
`lbl = value`, and validity, ordering and the memo invariant are preserved. -/
theorem condWithAlloc_spec {ord : VarOrder} (hinj : OrdInj ord)
    (lbl : VarLabel) (value : Bool) :
    ∀ (fuel : Nat) (st : CondSt) (bdd r : BddPtr) (st2 : CondSt),
      ValidStore st.store → OrderedStore ord st.store →
      MemoOK ord lbl value st → ValidPtr st.store bdd →
      condWithAlloc ord fuel st bdd lbl value = some (r, st2) →
      Extends st2.store st.store ∧ ValidStore st2.store ∧
      OrderedStore ord st2.store ∧ MemoOK ord lbl value st2 ∧
      ValidPtr st2.store r ∧
      (∀ env, evalPtr st2.store r env =
        evalPtr st.store bdd (updEnv env lbl value)) ∧
      (∀ l2, levBoundB ord st.store bdd l2 = true →
        levBoundB ord st2.store r l2 = true) := by
  intro fuel
  induction fuel with
  | zero => intro st bdd r st2 hs ho hm hvb heq; simp [condWithAlloc] at heq
  | succ fuel ih =>
    intro st bdd r st2 hs ho hm hvb heq
    cases bdd with
    | PtrTrue =>
      simp only [condWithAlloc, Option.some.injEq, Prod.mk.injEq] at heq
      obtain ⟨rfl, rfl⟩ := heq
      exact ⟨extends_refl _, hs, ho, hm, rfl, fun env => by simp, fun l2 hb => hb⟩
    | PtrFalse =>
      simp only [condWithAlloc, Option.some.injEq, Prod.mk.injEq] at heq
      obtain ⟨rfl, rfl⟩ := heq
      exact ⟨extends_refl _, hs, ho, hm, rfl, fun env => by simp, fun l2 hb => hb⟩
    | Reg i =>
      have hi : i < st.store.length := by
        simpa [ValidPtr, BddPtr.idxLt] using hvb
      simp only [condWithAlloc] at heq
      split at heq
      next hlt =>
        simp only [Option.some.injEq, Prod.mk.injEq] at heq
        obtain ⟨rfl, rfl⟩ := heq
        refine ⟨extends_refl _, hs, ho, hm, hvb, ?_, fun l2 hb => hb⟩
        intro env
        simp only [VarOrder.lt, decide_eq_true_eq] at hlt
        exact evalPtr_indep hs ho hvb
          (levBoundB_reg.mpr hlt) (updEnv_agree ord env lbl value)
      next hnlt =>
        split at heq
        next hveq =>
          simp only [Option.some.injEq, Prod.mk.injEq] at heq
          obtain ⟨rfl, rfl⟩ := heq
          simp only [BddPtr.isNeg, Bool.false_eq_true, if_false]
          have hchild : ∀ (c : BddPtr),
              ValidPtr st.store c →
              levBoundB ord st.store c
                (ord.level ((st.store.getD i dfltNode).var) + 1) = true →
              (∀ env, evalPtr st.store c env =
                  evalPtr st.store c (updEnv env lbl value)) := by
            intro c hvc hbc env
            refine evalPtr_indep hs ho hvc (levBoundB_mono hbc ?_)
              (updEnv_agree ord env lbl value)
            rw [hveq]
          cases value with
          | true =>
            simp only [if_true]
            refine ⟨extends_refl _, hs, ho, hm, validPtr_high hs hi, ?_, ?_⟩
            · intro env
              rw [evalPtr_reg hs hi (updEnv env lbl true), hveq, updEnv_self]
              simp only [if_true]
              exact hchild _ (validPtr_high hs hi) (ho i hi).2 env
            · intro l2 hb
              exact levBoundB_mono (ho i hi).2
                (Nat.le_succ_of_le (levBoundB_reg.mp hb))
          | false =>
            simp only [Bool.false_eq_true, if_false]
            refine ⟨extends_refl _, hs, ho, hm, validPtr_low hs hi, ?_, ?_⟩
            · intro env
              rw [evalPtr_reg hs hi (updEnv env lbl false), hveq, updEnv_self]
              simp only [Bool.false_eq_true, if_false]
              exact hchild _ (validPtr_low hs hi) (ho i hi).1 env
            · intro l2 hb
              exact levBoundB_mono (ho i hi).1
                (Nat.le_succ_of_le (levBoundB_reg.mp hb))
        next hvne =>
          split at heq
          next v hscr =>
            simp only [Option.some.injEq, Prod.mk.injEq] at heq
            obtain ⟨rfl, rfl⟩ := heq
            obtain ⟨-, -, hval, heval, hbnd⟩ := hm i v hscr
            simp only [BddPtr.isNeg, Bool.false_eq_true, if_false]
            refine ⟨extends_refl _, hs, ho, hm, hval, heval, ?_⟩
            intro l2 hb
            exact levBoundB_mono hbnd (levBoundB_reg.mp hb)
          next hscr =>
            split at heq
            · exact Option.noConfusion heq
            next cl stA hrec1 =>
              split at heq
              · exact Option.noConfusion heq
              next ch stB hrec2 =>
                obtain ⟨hextA, hvA, hoA, hmA, hvl, hevl, hbndl⟩ :=
                  ih ⟨st.store, st.scratch, st.alloc, st.steps + 1⟩ _ _ _
                    hs ho hm (validPtr_low hs hi) hrec1
                obtain ⟨hextB, hvB, hoB, hmB, hvh, hevh, hbndh⟩ :=
                  ih stA _ _ _ hvA hoA hmA
                    (validPtr_mono hextA (validPtr_high hs hi)) hrec2
                have hextBA := extends_trans hextB hextA
                have hevl2 : ∀ env, evalPtr stB.store cl env =
                    evalPtr st.store (st.store.getD i dfltNode).low
                      (updEnv env lbl value) := by
                  intro env
                  rw [evalPtr_extends hextB hvA hvl, hevl env]
                have hevh2 : ∀ env, evalPtr stB.store ch env =
                    evalPtr st.store (st.store.getD i dfltNode).high
                      (updEnv env lbl value) := by
                  intro env
                  rw [hevh env,
                    evalPtr_extends hextA hs (validPtr_high hs hi)]
                have hupdvar : ∀ env, updEnv env lbl value
                    ((st.store.getD i dfltNode).var) =
                    env ((st.store.getD i dfltNode).var) := by
                  intro env
                  unfold updEnv
                  rw [if_neg hvne]
                have hshan : ∀ env, evalPtr st.store (.Reg i)
                    (updEnv env lbl value) =
                    (if env ((st.store.getD i dfltNode).var) then
                      evalPtr st.store (st.store.getD i dfltNode).high
                        (updEnv env lbl value)
                    else
                      evalPtr st.store (st.store.getD i dfltNode).low
                        (updEnv env lbl value)) := by
                  intro env
                  rw [evalPtr_reg hs hi (updEnv env lbl value), hupdvar env]
                have hboundl : levBoundB ord stB.store cl
                    (ord.level ((st.store.getD i dfltNode).var) + 1) = true := by
                  rw [levBoundB_extends hextB hvl]
                  exact hbndl _ (ho i hi).1
                have hboundh : levBoundB ord stB.store ch
                    (ord.level ((st.store.getD i dfltNode).var) + 1) = true := by
                  refine hbndh _ ?_
                  rw [levBoundB_extends hextA (validPtr_high hs hi)]
                  exact (ho i hi).2
                split at heq
                next hlh =>
                  simp only [Option.some.injEq, Prod.mk.injEq] at heq
                  obtain ⟨rfl, rfl⟩ := heq
                  simp only [BddPtr.isNeg, Bool.false_eq_true, if_false]
                  refine ⟨hextBA, hvB, hoB, hmB, validPtr_mono hextB hvl, ?_, ?_⟩
                  · intro env
                    rw [hshan env]
                    cases henv : env ((st.store.getD i dfltNode).var)
                    · simp only [Bool.false_eq_true, if_false]
                      exact hevl2 env
                    · simp only [if_true]
                      rw [hlh]
                      exact hevh2 env
                  · intro l2 hb
                    rw [levBoundB_extends hextB hvl]
                    exact levBoundB_mono (hbndl _ (ho i hi).1)
                      (Nat.le_succ_of_le (levBoundB_reg.mp hb))
                next hlh =>
                  simp only [Option.some.injEq, Prod.mk.injEq] at heq
                  obtain ⟨rfl, rfl⟩ := heq
                  by_cases hch : (cl ≠ (st.store.getD i dfltNode).low ∨
                      ch ≠ (st.store.getD i dfltNode).high)
                  · simp only [hch, if_true, BddPtr.isNeg, Bool.false_eq_true,
                      if_false]
                    have hvcl : ValidPtr stB.store cl := validPtr_mono hextB hvl
                    have hgoext := getOrInsert_extends stB.store
                      ⟨(st.store.getD i dfltNode).var, cl, ch⟩
                    have hgovs := @getOrInsert_validStore stB.store
                      ⟨(st.store.getD i dfltNode).var, cl, ch⟩ hvB hvcl hvh
                    have hgoord := @getOrInsert_ordered ord stB.store
                      ⟨(st.store.getD i dfltNode).var, cl, ch⟩ hvB hoB hvcl hvh
                      hboundl hboundh
                    have hgovp := getOrInsert_validPtr stB.store
                      ⟨(st.store.getD i dfltNode).var, cl, ch⟩
                    have hgotv := getOrInsert_topVar stB.store
                      ⟨(st.store.getD i dfltNode).var, cl, ch⟩
                    have hextAll := extends_trans hgoext hextBA
                    have hmainEval : ∀ env,
                        evalPtr (getOrInsert stB.store
                          ⟨(st.store.getD i dfltNode).var, cl, ch⟩).2
                          (getOrInsert stB.store
                            ⟨(st.store.getD i dfltNode).var, cl, ch⟩).1 env =
                        evalPtr st.store (.Reg i) (updEnv env lbl value) := by
                      intro env
                      have hgoeval := @getOrInsert_eval stB.store
                        ⟨(st.store.getD i dfltNode).var, cl, ch⟩ hvB hvcl hvh env
                      rw [hgoeval, hshan env]
                      cases henv : env ((st.store.getD i dfltNode).var) <;>
                        simp only [henv, Bool.false_eq_true, if_false, if_true]
                      · exact hevl2 env
                      · exact hevh2 env
                    refine ⟨hextAll, hgovs, hgoord, ?_, hgovp, hmainEval, ?_⟩
                    · apply memoOK_push stB.steps hmB hvB hgoext
                        (Nat.lt_of_lt_of_le hi (extends_length hextBA)) hgovp
                      · intro env
                        rw [hmainEval env, evalPtr_extends hextAll hs hvb]
                      · rw [getD_of_extends hextAll hi]
                        exact (levBoundB_topVar hgotv).mpr (Nat.le_refl _)
                    · intro l2 hb
                      exact (levBoundB_topVar hgotv).mpr (levBoundB_reg.mp hb)
                  · simp only [hch, Bool.false_eq_true, if_false, BddPtr.isNeg]
                    push_neg at hch
                    obtain ⟨hcll, hchh⟩ := hch
                    have hRegEq : ∀ env, evalPtr st.store (.Reg i) env =
                        evalPtr st.store (.Reg i) (updEnv env lbl value) := by
                      intro env
                      rw [evalPtr_reg hs hi env,
                        evalPtr_reg hs hi (updEnv env lbl value), hupdvar env]
                      cases henv : env ((st.store.getD i dfltNode).var) <;>
                        simp only [henv, Bool.false_eq_true, if_false, if_true]
                      · calc evalPtr st.store (st.store.getD i dfltNode).low env
                            = evalPtr stB.store (st.store.getD i dfltNode).low env :=
                              (evalPtr_extends hextBA hs (validPtr_low hs hi)).symm
                          _ = evalPtr st.store (st.store.getD i dfltNode).low
                                (updEnv env lbl value) := by
                              have h1 := hevl2 env
                              rw [hcll] at h1
                              exact h1
                      · calc evalPtr st.store (st.store.getD i dfltNode).high env
                            = evalPtr stB.store (st.store.getD i dfltNode).high env :=
                              (evalPtr_extends hextBA hs (validPtr_high hs hi)).symm
                          _ = evalPtr st.store (st.store.getD i dfltNode).high
                                (updEnv env lbl value) := by
                              have h2 := hevh2 env
                              rw [hchh] at h2
                              exact h2
                    refine ⟨hextBA, hvB, hoB, ?_, validPtr_mono hextBA hvb, ?_, ?_⟩
                    · apply memoOK_push stB.steps hmB hvB (extends_refl _)
                        (Nat.lt_of_lt_of_le hi (extends_length hextBA))
                        (validPtr_mono hextBA hvb)
                      · intro env
                        rw [evalPtr_extends hextBA hs hvb,
                          evalPtr_extends hextBA hs hvb]
                        exact hRegEq env
                      · exact levBoundB_reg.mpr (Nat.le_refl _)
                    · intro env
                      rw [evalPtr_extends hextBA hs hvb]
                      exact hRegEq env
                    · intro l2 hb
                      rw [levBoundB_extends hextBA hvb]
                      exact hb
    | Compl i =>
      have hi : i < st.store.length := by
        simpa [ValidPtr, BddPtr.idxLt] using hvb
      have hvreg : ValidPtr st.store (.Reg i) := by
        simpa [ValidPtr, BddPtr.idxLt] using hi
      simp only [condWithAlloc] at heq
      split at heq
      next hlt =>
        simp only [Option.some.injEq, Prod.mk.injEq] at heq
        obtain ⟨rfl, rfl⟩ := heq
        refine ⟨extends_refl _, hs, ho, hm, hvb, ?_, fun l2 hb => hb⟩
        intro env
        simp only [VarOrder.lt, decide_eq_true_eq] at hlt
        exact evalPtr_indep hs ho hvb
          (levBoundB_compl.mpr hlt) (updEnv_agree ord env lbl value)
      next hnlt =>
        split at heq
        next hveq =>
          simp only [Option.some.injEq, Prod.mk.injEq] at heq
          obtain ⟨rfl, rfl⟩ := heq
          simp only [BddPtr.isNeg, if_true]
          have hchild : ∀ (c : BddPtr),
              ValidPtr st.store c →
              levBoundB ord st.store c
                (ord.level ((st.store.getD i dfltNode).var) + 1) = true →
              (∀ env, evalPtr st.store c env =
                  evalPtr st.store c (updEnv env lbl value)) := by
            intro c hvc hbc env
            refine evalPtr_indep hs ho hvc (levBoundB_mono hbc ?_)
              (updEnv_agree ord env lbl value)
            rw [hveq]
          cases value with
          | true =>
            simp only [if_true]
            refine ⟨extends_refl _, hs, ho, hm,
              validPtr_neg (validPtr_high hs hi), ?_, ?_⟩
            · intro env
              rw [evalPtr_compl, evalPtr_reg hs hi (updEnv env lbl true), hveq,
                updEnv_self]
              simp only [if_true]
              rw [evalPtr_neg]
              exact congrArg Bool.not
                (hchild _ (validPtr_high hs hi) (ho i hi).2 env)
            · intro l2 hb
              rw [levBoundB_neg]
              exact levBoundB_mono (ho i hi).2
                (Nat.le_succ_of_le (levBoundB_compl.mp hb))
          | false =>
            simp only [Bool.false_eq_true, if_false]
            refine ⟨extends_refl _, hs, ho, hm,
              validPtr_neg (validPtr_low hs hi), ?_, ?_⟩
            · intro env
              rw [evalPtr_compl, evalPtr_reg hs hi (updEnv env lbl false), hveq,
                updEnv_self]
              simp only [Bool.false_eq_true, if_false]
              rw [evalPtr_neg]
              exact congrArg Bool.not
                (hchild _ (validPtr_low hs hi) (ho i hi).1 env)
            · intro l2 hb
              rw [levBoundB_neg]
              exact levBoundB_mono (ho i hi).1
                (Nat.le_succ_of_le (levBoundB_compl.mp hb))
        next hvne =>
          split at heq
          next v hscr =>
            simp only [Option.some.injEq, Prod.mk.injEq] at heq
            obtain ⟨rfl, rfl⟩ := heq
            obtain ⟨-, -, hval, heval, hbnd⟩ := hm i v hscr
            simp only [BddPtr.isNeg, if_true]
            refine ⟨extends_refl _, hs, ho, hm, validPtr_neg hval, ?_, ?_⟩
            · intro env
              rw [evalPtr_neg, heval env, evalPtr_compl]
            · intro l2 hb
              rw [levBoundB_neg]
              exact levBoundB_mono hbnd (levBoundB_compl.mp hb)
          next hscr =>
            split at heq
            · exact Option.noConfusion heq
            next cl stA hrec1 =>
              split at heq
              · exact Option.noConfusion heq
              next ch stB hrec2 =>
                obtain ⟨hextA, hvA, hoA, hmA, hvl, hevl, hbndl⟩ :=
                  ih ⟨st.store, st.scratch, st.alloc, st.steps + 1⟩ _ _ _
                    hs ho hm (validPtr_low hs hi) hrec1
                obtain ⟨hextB, hvB, hoB, hmB, hvh, hevh, hbndh⟩ :=
                  ih stA _ _ _ hvA hoA hmA
                    (validPtr_mono hextA (validPtr_high hs hi)) hrec2
                have hextBA := extends_trans hextB hextA
                have hevl2 : ∀ env, evalPtr stB.store cl env =
                    evalPtr st.store (st.store.getD i dfltNode).low
                      (updEnv env lbl value) := by
                  intro env
                  rw [evalPtr_extends hextB hvA hvl, hevl env]
                have hevh2 : ∀ env, evalPtr stB.store ch env =
                    evalPtr st.store (st.store.getD i dfltNode).high
                      (updEnv env lbl value) := by
                  intro env
                  rw [hevh env,
                    evalPtr_extends hextA hs (validPtr_high hs hi)]
                have hupdvar : ∀ env, updEnv env lbl value
                    ((st.store.getD i dfltNode).var) =
                    env ((st.store.getD i dfltNode).var) := by
                  intro env
                  unfold updEnv
                  rw [if_neg hvne]
                have hshan : ∀ env, evalPtr st.store (.Reg i)
                    (updEnv env lbl value) =
                    (if env ((st.store.getD i dfltNode).var) then
                      evalPtr st.store (st.store.getD i dfltNode).high
                        (updEnv env lbl value)
                    else
                      evalPtr st.store (st.store.getD i dfltNode).low
                        (updEnv env lbl value)) := by
                  intro env
                  rw [evalPtr_reg hs hi (updEnv env lbl value), hupdvar env]
                have hboundl : levBoundB ord stB.store cl
                    (ord.level ((st.store.getD i dfltNode).var) + 1) = true := by
                  rw [levBoundB_extends hextB hvl]
                  exact hbndl _ (ho i hi).1
                have hboundh : levBoundB ord stB.store ch
                    (ord.level ((st.store.getD i dfltNode).var) + 1) = true := by
                  refine hbndh _ ?_
                  rw [levBoundB_extends hextA (validPtr_high hs hi)]
                  exact (ho i hi).2
                split at heq
                next hlh =>
                  simp only [Option.some.injEq, Prod.mk.injEq] at heq
                  obtain ⟨rfl, rfl⟩ := heq
                  simp only [BddPtr.isNeg, if_true]
                  refine ⟨hextBA, hvB, hoB, hmB,
                    validPtr_neg (validPtr_mono hextB hvl), ?_, ?_⟩
                  · intro env
                    rw [evalPtr_neg, evalPtr_compl]
                    refine congrArg Bool.not ?_
                    rw [hshan env]
                    cases henv : env ((st.store.getD i dfltNode).var)
                    · simp only [Bool.false_eq_true, if_false]
                      exact hevl2 env
                    · simp only [if_true]
                      rw [hlh]
                      exact hevh2 env
                  · intro l2 hb
                    rw [levBoundB_neg, levBoundB_extends hextB hvl]
                    exact levBoundB_mono (hbndl _ (ho i hi).1)
                      (Nat.le_succ_of_le (levBoundB_compl.mp hb))
                next hlh =>
                  simp only [Option.some.injEq, Prod.mk.injEq] at heq
                  obtain ⟨rfl, rfl⟩ := heq
                  by_cases hch : (cl ≠ (st.store.getD i dfltNode).low ∨
                      ch ≠ (st.store.getD i dfltNode).high)
                  · simp only [hch, if_true, BddPtr.isNeg, neg_neg_ptr]
                    have hvcl : ValidPtr stB.store cl := validPtr_mono hextB hvl
                    have hgoext := getOrInsert_extends stB.store
                      ⟨(st.store.getD i dfltNode).var, cl, ch⟩
                    have hgovs := @getOrInsert_validStore stB.store
                      ⟨(st.store.getD i dfltNode).var, cl, ch⟩ hvB hvcl hvh
                    have hgoord := @getOrInsert_ordered ord stB.store
                      ⟨(st.store.getD i dfltNode).var, cl, ch⟩ hvB hoB hvcl hvh
                      hboundl hboundh
                    have hgovp := getOrInsert_validPtr stB.store
                      ⟨(st.store.getD i dfltNode).var, cl, ch⟩
                    have hgotv := getOrInsert_topVar stB.store
                      ⟨(st.store.getD i dfltNode).var, cl, ch⟩
                    have hextAll := extends_trans hgoext hextBA
                    have hmainEval : ∀ env,
                        evalPtr (getOrInsert stB.store
                          ⟨(st.store.getD i dfltNode).var, cl, ch⟩).2
                          (getOrInsert stB.store
                            ⟨(st.store.getD i dfltNode).var, cl, ch⟩).1 env =
                        evalPtr st.store (.Reg i) (updEnv env lbl value) := by
                      intro env
                      have hgoeval := @getOrInsert_eval stB.store
                        ⟨(st.store.getD i dfltNode).var, cl, ch⟩ hvB hvcl hvh env
                      rw [hgoeval, hshan env]
                      cases henv : env ((st.store.getD i dfltNode).var) <;>
                        simp only [henv, Bool.false_eq_true, if_false, if_true]
                      · exact hevl2 env
                      · exact hevh2 env
                    refine ⟨hextAll, hgovs, hgoord, ?_,
                      validPtr_neg hgovp, ?_, ?_⟩
                    · apply memoOK_push stB.steps hmB hvB hgoext
                        (Nat.lt_of_lt_of_le hi (extends_length hextBA)) hgovp
                      · intro env
                        rw [hmainEval env, evalPtr_extends hextAll hs hvreg]
                      · rw [getD_of_extends hextAll hi]
                        exact (levBoundB_topVar hgotv).mpr (Nat.le_refl _)
                    · intro env
                      rw [evalPtr_neg, hmainEval env, evalPtr_compl]
                    · intro l2 hb
                      rw [levBoundB_neg]
                      exact (levBoundB_topVar hgotv).mpr (levBoundB_compl.mp hb)
                  · simp only [hch, Bool.false_eq_true, if_false, BddPtr.isNeg,
                      if_true, neg_neg_ptr]
                    push_neg at hch
                    obtain ⟨hcll, hchh⟩ := hch
                    have hRegEq : ∀ env, evalPtr st.store (.Reg i) env =
                        evalPtr st.store (.Reg i) (updEnv env lbl value) := by
                      intro env
                      rw [evalPtr_reg hs hi env,
                        evalPtr_reg hs hi (updEnv env lbl value), hupdvar env]
                      cases henv : env ((st.store.getD i dfltNode).var) <;>
                        simp only [henv, Bool.false_eq_true, if_false, if_true]
                      · calc evalPtr st.store (st.store.getD i dfltNode).low env
                            = evalPtr stB.store (st.store.getD i dfltNode).low env :=
                              (evalPtr_extends hextBA hs (validPtr_low hs hi)).symm
                          _ = evalPtr st.store (st.store.getD i dfltNode).low
                                (updEnv env lbl value) := by
                              have h1 := hevl2 env
                              rw [hcll] at h1
                              exact h1
                      · calc evalPtr st.store (st.store.getD i dfltNode).high env
                            = evalPtr stB.store (st.store.getD i dfltNode).high env :=
                              (evalPtr_extends hextBA hs (validPtr_high hs hi)).symm
                          _ = evalPtr st.store (st.store.getD i dfltNode).high
                                (updEnv env lbl value) := by
                              have h2 := hevh2 env
                              rw [hchh] at h2
                              exact h2
                    refine ⟨hextBA, hvB, hoB, ?_, validPtr_mono hextBA hvb, ?_, ?_⟩
                    · apply memoOK_push stB.steps hmB hvB (extends_refl _)
                        (Nat.lt_of_lt_of_le hi (extends_length hextBA))
                        (validPtr_mono hextBA hvreg)
                      · intro env
                        rw [evalPtr_extends hextBA hs hvreg,
                          evalPtr_extends hextBA hs hvreg]
                        exact hRegEq env
                      · exact levBoundB_reg.mpr (Nat.le_refl _)
                    · intro env
                      rw [evalPtr_extends hextBA hs hvb, evalPtr_compl,
                        evalPtr_compl]
                      exact congrArg Bool.not (hRegEq env)
                    · intro l2 hb
                      rw [levBoundB_extends hextBA hvb]
                      exact hb

/-- C4: `cond_with_alloc` computes the restriction `bdd | lbl = value`: the
returned pointer evaluates (over the possibly extended store) exactly as the
input pointer does in the environment updated at `lbl`; moreover at a pointer
whose node variable comes strictly after `lbl` in the order the input pointer
is returned unchanged, and at a pointer whose node variable is exactly `lbl`
the child selected by `value` is returned, negated exactly when the incoming
edge is complemented. -/
theorem claim4_condition_restricts {ord : VarOrder} (hinj : OrdInj ord)
    (lbl : VarLabel) (value : Bool) (fuel : Nat) (st : CondSt)
    (bdd r : BddPtr) (st2 : CondSt) (i : Nat)
    (hs : ValidStore st.store) (ho : OrderedStore ord st.store)
    (hscr : ∀ j, st.scratch j = none) (hvb : ValidPtr st.store bdd)
    (heq : condWithAlloc ord fuel st bdd lbl value = some (r, st2)) :
    (∀ env, evalPtr st2.store r env =
      evalPtr st.store bdd (updEnv env lbl value)) ∧
    (ord.lt lbl ((st.store.getD i dfltNode).var) = true →
      (condWithAlloc ord (fuel + 1) st (.Reg i) lbl value =
        some (.Reg i, ⟨st.store, st.scratch, st.alloc, st.steps + 1⟩) ∧
       condWithAlloc ord (fuel + 1) st (.Compl i) lbl value =
        some (.Compl i, ⟨st.store, st.scratch, st.alloc, st.steps + 1⟩))) ∧
    ((st.store.getD i dfltNode).var = lbl →
      ord.lt lbl ((st.store.getD i dfltNode).var) = false →
      (condWithAlloc ord (fuel + 1) st (.Reg i) lbl value =
        some ((if value then (st.store.getD i dfltNode).high
               else (st.store.getD i dfltNode).low),
              ⟨st.store, st.scratch, st.alloc, st.steps + 1⟩) ∧
       condWithAlloc ord (fuel + 1) st (.Compl i) lbl value =
        some ((if value then (st.store.getD i dfltNode).high
               else (st.store.getD i dfltNode).low).neg,
              ⟨st.store, st.scratch, st.alloc, st.steps + 1⟩))) := by
  refine ⟨(condWithAlloc_spec hinj lbl value fuel st bdd r st2 hs ho
      (memoOK_empty hscr) hvb heq).2.2.2.2.2.1, ?_, ?_⟩
  · intro hlt
    have hlt2 : ord.lt lbl ((st.store[i]?.getD dfltNode).var) = true := by
      simpa [List.getD] using hlt
    constructor <;> simp [condWithAlloc, hlt2]
  · intro hveq hnlt
    have hveq2 : (st.store[i]?.getD dfltNode).var = lbl := by
      simpa [List.getD] using hveq
    have hnlt2 : ord.lt lbl ((st.store[i]?.getD dfltNode).var) = false := by
      simpa [List.getD] using hnlt
    constructor <;>
      simp [condWithAlloc, hnlt2, hveq2, BddPtr.isNeg, VarOrder.lt]

def c4St : CondSt :=
  ⟨[⟨0, .PtrFalse, .PtrTrue⟩, ⟨1, .PtrFalse, .PtrTrue⟩],
   fun _ => none, [], 0⟩

def c4Stb : CondSt :=
  ⟨[⟨0, .PtrFalse, .PtrTrue⟩, ⟨1, .PtrFalse, .PtrTrue⟩],
   fun _ => none, [], 1⟩

/-- Witness for C4: conditioning on variable 0 over a two-node store, hitting
the semantic clause, the passed-variable clause and the matched-variable
clause at concrete inputs. -/
theorem claim4_witness :
    (evalPtr c4Stb.store (.Reg 1) (fun _ => true) =
      evalPtr c4St.store (.Reg 1) (updEnv (fun _ => true) 0 true)) ∧
    condWithAlloc linearOrder 3 c4St (.Reg 1) 0 true =
      some (.Reg 1, c4Stb) ∧
    condWithAlloc linearOrder 3 c4St (.Compl 0) 0 true =
      some ((BddPtr.PtrTrue).neg, c4Stb) := by
  have h1 := @claim4_condition_restricts linearOrder (fun a b h => h) 0 true 2
    c4St (.Reg 1) (.Reg 1) c4Stb 1 (by decide) (by decide) (fun j => rfl)
    (by decide) rfl
  have h2 := @claim4_condition_restricts linearOrder (fun a b h => h) 0 true 2
    c4St (.Reg 1) (.Reg 1) c4Stb 0 (by decide) (by decide) (fun j => rfl)
    (by decide) rfl
  exact ⟨h1.1 (fun _ => true), (h1.2.1 (by decide)).1,
    (h2.2.2 rfl (by decide)).2⟩


/-- `smooth_helper` from src/src/builder/bdd/robdd.rs (lines 615-641),
fuel-indexed.  At or past `total` the pointer is returned as is; a regular
node is rebuilt with both children smoothed one level deeper; a complement
edge smooths its regular counterpart and negates; a terminal inserts a fill
node labelled with the variable at the current level whose two children are
the terminal smoothed one level deeper (sequentially, as in the source). -/
def smoothHelper (ord : VarOrder) :
    Nat → Store → BddPtr → Nat → Nat → Option (BddPtr × Store)
  | 0, _, _, _, _ => none
  | fuel + 1, s, bdd, current, total =>
    if total ≤ current then some (bdd, s)
    else
      match bdd with
      | .Reg i =>
        match smoothHelper ord fuel s (s.getD i dfltNode).low
            (current + 1) total with
        | none => none
        | some (l, s1) =>
          match smoothHelper ord fuel s1 (s.getD i dfltNode).high
              (current + 1) total with
          | none => none
          | some (h2, s2) =>
            some (getOrInsert s2 ⟨(s.getD i dfltNode).var, l, h2⟩)
      | .Compl i =>
        match smoothHelper ord fuel s (.Reg i) current total with
        | none => none
        | some (r, s1) => some (r.neg, s1)
      | .PtrTrue =>
        match smoothHelper ord fuel s .PtrTrue (current + 1) total with
        | none => none
        | some (l, s1) =>
          match smoothHelper ord fuel s1 .PtrTrue (current + 1) total with
          | none => none
          | some (h2, s2) => some (getOrInsert s2 ⟨ord.varAt current, l, h2⟩)
      | .PtrFalse =>
        match smoothHelper ord fuel s .PtrFalse (current + 1) total with
        | none => none
        | some (l, s1) =>
          match smoothHelper ord fuel s1 .PtrFalse (current + 1) total with
          | none => none
          | some (h2, s2) => some (getOrInsert s2 ⟨ord.varAt current, l, h2⟩)

/-- `smooth` from src/src/builder/bdd/robdd.rs (lines 644-650): smoothing
starts at level 0 of the order. -/
def smooth (ord : VarOrder) (fuel : Nat) (s : Store) (bdd : BddPtr)
    (numVars : Nat) : Option (BddPtr × Store) :=
  smoothHelper ord fuel s bdd 0 numVars

/-- Fueled test that every root-to-leaf path below the pointer visits
exactly the variables at levels `current`, …, `total - 1` of the order, in
order (the property the spec asserts for the output of `smooth`). -/
def fullPathsF (ord : VarOrder) (s : Store) :
    Nat → BddPtr → Nat → Nat → Bool
  | 0, _, _, _ => false
  | fuel + 1, p, current, total =>
    if total ≤ current then
      match p with
      | .PtrTrue => true
      | .PtrFalse => true
      | _ => false
    else
      match p.idx? with
      | none => false
      | some i =>
        decide ((s.getD i dfltNode).var = ord.varAt current) &&
        fullPathsF ord s fuel (s.getD i dfltNode).low (current + 1) total &&
        fullPathsF ord s fuel (s.getD i dfltNode).high (current + 1) total

/-- The spec-asserted smoothness property with just enough fuel. -/
def FullPathsB (ord : VarOrder) (s : Store) (p : BddPtr)
    (current total : Nat) : Bool :=
  fullPathsF ord s (total - current + 1) p current total


theorem getOrInsert_children (s : Store) (n : BddNode) :
    ∃ i, ((getOrInsert s n).1 = .Reg i ∨ (getOrInsert s n).1 = .Compl i) ∧
      i < (getOrInsert s n).2.length ∧
      ((getOrInsert s n).2.getD i dfltNode).var = n.var ∧
      ((((getOrInsert s n).2.getD i dfltNode).low = n.low ∧
        ((getOrInsert s n).2.getD i dfltNode).high = n.high) ∨
       (((getOrInsert s n).2.getD i dfltNode).low = n.low.neg ∧
        ((getOrInsert s n).2.getD i dfltNode).high = n.high.neg)) := by
  unfold getOrInsert
  by_cases h : (n.high.isNeg || n.high.isFalse) = true
  · simp only [h, if_true]
    refine ⟨(intern s ⟨n.var, n.low.neg, n.high.neg⟩).1, Or.inr rfl,
      intern_lt s _, ?_, Or.inr ?_⟩
    · rw [intern_getD s ⟨n.var, n.low.neg, n.high.neg⟩]
    · rw [intern_getD s ⟨n.var, n.low.neg, n.high.neg⟩]
      exact ⟨rfl, rfl⟩
  · simp only [h, Bool.false_eq_true, if_false]
    refine ⟨(intern s n).1, Or.inl rfl, intern_lt s _, ?_, Or.inl ?_⟩
    · rw [intern_getD s n]
    · rw [intern_getD s n]
      exact ⟨rfl, rfl⟩

theorem fullPathsF_neg (ord : VarOrder) (s : Store) (fuel : Nat)
    (p : BddPtr) (c t : Nat) :
    fullPathsF ord s fuel p.neg c t = fullPathsF ord s fuel p c t := by
  cases fuel with
  | zero => rfl
  | succ fuel => cases p <;> rfl

theorem fullPathsF_extends {ord : VarOrder} {s2 s : Store}
    (hext : Extends s2 s) (hs : ValidStore s) :
    ∀ (fuel : Nat) (p : BddPtr) (c t : Nat), ValidPtr s p →
      fullPathsF ord s2 fuel p c t = fullPathsF ord s fuel p c t := by
  intro fuel
  induction fuel with
  | zero => intro p c t _; rfl
  | succ fuel ih =>
    intro p c t hv
    by_cases hct : t ≤ c
    · simp [fullPathsF, hct]
    · cases p with
      | PtrTrue => rfl
      | PtrFalse => rfl
      | Reg i =>
        have hi : i < s.length := by simpa [ValidPtr, BddPtr.idxLt] using hv
        simp only [fullPathsF, hct, if_false, BddPtr.idx?]
        rw [getD_of_extends hext hi, ih _ _ _ (validPtr_low hs hi),
          ih _ _ _ (validPtr_high hs hi)]
      | Compl i =>
        have hi : i < s.length := by simpa [ValidPtr, BddPtr.idxLt] using hv
        simp only [fullPathsF, hct, if_false, BddPtr.idx?]
        rw [getD_of_extends hext hi, ih _ _ _ (validPtr_low hs hi),
          ih _ _ _ (validPtr_high hs hi)]

theorem smoothHelper_spec {ord : VarOrder} :
    ∀ (fuel : Nat) (s : Store) (bdd : BddPtr) (current total : Nat)
      (r : BddPtr) (s2 : Store), ValidStore s → ValidPtr s bdd →
      smoothHelper ord fuel s bdd current total = some (r, s2) →
      Extends s2 s ∧ ValidStore s2 ∧ ValidPtr s2 r ∧
      ∀ env, evalPtr s2 r env = evalPtr s bdd env := by
  intro fuel
  induction fuel with
  | zero => intro s bdd c t r s2 _ _ heq; exact Option.noConfusion heq
  | succ fuel ih =>
    intro s bdd c t r s2 hs hv heq
    by_cases hct : t ≤ c
    · simp only [smoothHelper, hct, if_true, Option.some.injEq,
        Prod.mk.injEq] at heq
      obtain ⟨rfl, rfl⟩ := heq
      exact ⟨extends_refl _, hs, hv, fun env => rfl⟩
    · cases bdd with
      | PtrTrue =>
        simp only [smoothHelper, hct, if_false] at heq
        split at heq
        · exact Option.noConfusion heq
        next l s1 hrec1 =>
          split at heq
          · exact Option.noConfusion heq
          next h2 s2x hrec2 =>
            obtain ⟨hextA, hvA, hvl, hevl⟩ :=
              ih s .PtrTrue (c+1) t l s1 hs (by simp [ValidPtr, BddPtr.idxLt])
                hrec1
            obtain ⟨hextB, hvB, hvh, hevh⟩ :=
              ih s1 .PtrTrue (c+1) t h2 s2x hvA
                (by simp [ValidPtr, BddPtr.idxLt]) hrec2
            have hr1 : (getOrInsert s2x ⟨ord.varAt c, l, h2⟩).1 = r :=
              congrArg Prod.fst (Option.some.inj heq)
            have hr2 : (getOrInsert s2x ⟨ord.varAt c, l, h2⟩).2 = s2 :=
              congrArg Prod.snd (Option.some.inj heq)
            subst hr1 hr2
            refine ⟨extends_trans (getOrInsert_extends _ _)
              (extends_trans hextB hextA),
              @getOrInsert_validStore s2x ⟨ord.varAt c, l, h2⟩ hvB
                (validPtr_mono hextB hvl) hvh,
              getOrInsert_validPtr _ _, ?_⟩
            intro env
            rw [@getOrInsert_eval s2x ⟨ord.varAt c, l, h2⟩ hvB
              (validPtr_mono hextB hvl) hvh env]
            cases henv : env (ord.varAt c) <;>
              simp only [henv, Bool.false_eq_true, if_false, if_true,
                evalPtr_true]
            · rw [evalPtr_extends hextB hvA hvl, hevl env]; simp
            · rw [hevh env]; simp
      | PtrFalse =>
        simp only [smoothHelper, hct, if_false] at heq
        split at heq
        · exact Option.noConfusion heq
        next l s1 hrec1 =>
          split at heq
          · exact Option.noConfusion heq
          next h2 s2x hrec2 =>
            obtain ⟨hextA, hvA, hvl, hevl⟩ :=
              ih s .PtrFalse (c+1) t l s1 hs (by simp [ValidPtr, BddPtr.idxLt])
                hrec1
            obtain ⟨hextB, hvB, hvh, hevh⟩ :=
              ih s1 .PtrFalse (c+1) t h2 s2x hvA
                (by simp [ValidPtr, BddPtr.idxLt]) hrec2
            have hr1 : (getOrInsert s2x ⟨ord.varAt c, l, h2⟩).1 = r :=
              congrArg Prod.fst (Option.some.inj heq)
            have hr2 : (getOrInsert s2x ⟨ord.varAt c, l, h2⟩).2 = s2 :=
              congrArg Prod.snd (Option.some.inj heq)
            subst hr1 hr2
            refine ⟨extends_trans (getOrInsert_extends _ _)
              (extends_trans hextB hextA),
              @getOrInsert_validStore s2x ⟨ord.varAt c, l, h2⟩ hvB
                (validPtr_mono hextB hvl) hvh,
              getOrInsert_validPtr _ _, ?_⟩
            intro env
            rw [@getOrInsert_eval s2x ⟨ord.varAt c, l, h2⟩ hvB
              (validPtr_mono hextB hvl) hvh env]
            cases henv : env (ord.varAt c) <;>
              simp only [henv, Bool.false_eq_true, if_false, if_true,
                evalPtr_false]
            · rw [evalPtr_extends hextB hvA hvl, hevl env]; simp
            · rw [hevh env]; simp
      | Reg i =>
        have hi : i < s.length := by simpa [ValidPtr, BddPtr.idxLt] using hv
        simp only [smoothHelper, hct, if_false] at heq
        split at heq
        · exact Option.noConfusion heq
        next l s1 hrec1 =>
          split at heq
          · exact Option.noConfusion heq
          next h2 s2x hrec2 =>
            obtain ⟨hextA, hvA, hvl, hevl⟩ :=
              ih s _ (c+1) t l s1 hs (validPtr_low hs hi) hrec1
            obtain ⟨hextB, hvB, hvh, hevh⟩ :=
              ih s1 _ (c+1) t h2 s2x hvA
                (validPtr_mono hextA (validPtr_high hs hi)) hrec2
            have hr1 : (getOrInsert s2x ⟨(s.getD i dfltNode).var, l, h2⟩).1 = r :=
              congrArg Prod.fst (Option.some.inj heq)
            have hr2 : (getOrInsert s2x ⟨(s.getD i dfltNode).var, l, h2⟩).2 = s2 :=
              congrArg Prod.snd (Option.some.inj heq)
            subst hr1 hr2
            refine ⟨extends_trans (getOrInsert_extends _ _)
              (extends_trans hextB hextA),
              @getOrInsert_validStore s2x ⟨(s.getD i dfltNode).var, l, h2⟩ hvB
                (validPtr_mono hextB hvl) hvh,
              getOrInsert_validPtr _ _, ?_⟩
            intro env
            rw [@getOrInsert_eval s2x ⟨(s.getD i dfltNode).var, l, h2⟩ hvB
              (validPtr_mono hextB hvl) hvh env, evalPtr_reg hs hi env]
            cases henv : env ((s.getD i dfltNode).var) <;>
              simp only [henv, Bool.false_eq_true, if_false, if_true]
            · rw [evalPtr_extends hextB hvA hvl, hevl env]
            · rw [hevh env, evalPtr_extends hextA hs (validPtr_high hs hi)]
      | Compl i =>
        have hi : i < s.length := by simpa [ValidPtr, BddPtr.idxLt] using hv
        have hvreg : ValidPtr s (.Reg i) := by
          simpa [ValidPtr, BddPtr.idxLt] using hi
        simp only [smoothHelper, hct, if_false] at heq
        split at heq
        · exact Option.noConfusion heq
        next r0 s1 hrec =>
          simp only [Option.some.injEq, Prod.mk.injEq] at heq
          obtain ⟨rfl, rfl⟩ := heq
          obtain ⟨hextA, hvA, hvr, hev⟩ := ih s (.Reg i) c t r0 s1 hs hvreg hrec
          refine ⟨hextA, hvA, validPtr_neg hvr, ?_⟩
          intro env
          rw [evalPtr_neg, hev env, evalPtr_compl]

theorem fullPathsB_getOrInsert {ord : VarOrder} {s : Store} {l h : BddPtr}
    {c t : Nat} {v : VarLabel} (hs : ValidStore s) (hvl : ValidPtr s l)
    (hvh : ValidPtr s h) (hct : ¬ t ≤ c) (hv : v = ord.varAt c)
    (hfl : FullPathsB ord s l (c + 1) t = true)
    (hfh : FullPathsB ord s h (c + 1) t = true) :
    FullPathsB ord (getOrInsert s ⟨v, l, h⟩).2 (getOrInsert s ⟨v, l, h⟩).1
      c t = true := by
  obtain ⟨i, hform, hilt, hvar, hchild⟩ := getOrInsert_children s ⟨v, l, h⟩
  have hext := getOrInsert_extends s ⟨v, l, h⟩
  have harith : t - c = t - (c + 1) + 1 := by omega
  have hliftl : fullPathsF ord (getOrInsert s ⟨v, l, h⟩).2 (t - (c + 1) + 1)
      l (c + 1) t = true := by
    rw [fullPathsF_extends hext hs _ _ _ _ hvl]
    exact hfl
  have hlifth : fullPathsF ord (getOrInsert s ⟨v, l, h⟩).2 (t - (c + 1) + 1)
      h (c + 1) t = true := by
    rw [fullPathsF_extends hext hs _ _ _ _ hvh]
    exact hfh
  have hchildren :
      fullPathsF ord (getOrInsert s ⟨v, l, h⟩).2 (t - c)
        ((getOrInsert s ⟨v, l, h⟩).2.getD i dfltNode).low (c + 1) t = true ∧
      fullPathsF ord (getOrInsert s ⟨v, l, h⟩).2 (t - c)
        ((getOrInsert s ⟨v, l, h⟩).2.getD i dfltNode).high (c + 1) t = true := by
    rw [harith]
    rcases hchild with ⟨hcl, hch⟩ | ⟨hcl, hch⟩
    · rw [hcl, hch]
      exact ⟨hliftl, hlifth⟩
    · rw [hcl, hch, fullPathsF_neg, fullPathsF_neg]
      exact ⟨hliftl, hlifth⟩
  unfold FullPathsB
  rcases hform with hf | hf <;> rw [hf] <;>
    simp only [fullPathsF, hct, if_false, BddPtr.idx?, Bool.and_eq_true,
      decide_eq_true_eq]
  · exact ⟨⟨by rw [hvar, hv], hchildren.1⟩, hchildren.2⟩
  · exact ⟨⟨by rw [hvar, hv], hchildren.1⟩, hchildren.2⟩

theorem smoothTerm_full {ord : VarOrder} :
    ∀ (fuel : Nat) (s : Store) (bdd : BddPtr) (current total : Nat)
      (r : BddPtr) (s2 : Store), ValidStore s →
      (bdd = .PtrTrue ∨ bdd = .PtrFalse) →
      smoothHelper ord fuel s bdd current total = some (r, s2) →
      FullPathsB ord s2 r current total = true := by
  intro fuel
  induction fuel with
  | zero => intro s bdd c t r s2 _ _ heq; exact Option.noConfusion heq
  | succ fuel ih =>
    intro s bdd c t r s2 hs hterm heq
    by_cases hct : t ≤ c
    · simp only [smoothHelper, hct, if_true, Option.some.injEq,
        Prod.mk.injEq] at heq
      obtain ⟨rfl, rfl⟩ := heq
      rcases hterm with rfl | rfl <;> simp [FullPathsB, fullPathsF, hct]
    · rcases hterm with rfl | rfl
      · simp only [smoothHelper, hct, if_false] at heq
        split at heq
        · exact Option.noConfusion heq
        next l s1 hrec1 =>
          split at heq
          · exact Option.noConfusion heq
          next h2 s2x hrec2 =>
            obtain ⟨hextA, hvA, hvl, hevl⟩ :=
              smoothHelper_spec fuel s .PtrTrue (c+1) t l s1 hs
                (by simp [ValidPtr, BddPtr.idxLt]) hrec1
            obtain ⟨hextB, hvB, hvh, hevh⟩ :=
              smoothHelper_spec fuel s1 .PtrTrue (c+1) t h2 s2x hvA
                (by simp [ValidPtr, BddPtr.idxLt]) hrec2
            have hfl := ih s .PtrTrue (c+1) t l s1 hs (Or.inl rfl) hrec1
            have hfh := ih s1 .PtrTrue (c+1) t h2 s2x hvA (Or.inl rfl) hrec2
            have hr1 : (getOrInsert s2x ⟨ord.varAt c, l, h2⟩).1 = r :=
              congrArg Prod.fst (Option.some.inj heq)
            have hr2 : (getOrInsert s2x ⟨ord.varAt c, l, h2⟩).2 = s2 :=
              congrArg Prod.snd (Option.some.inj heq)
            subst hr1 hr2
            have hfl2 : FullPathsB ord s2x l (c + 1) t = true := by
              unfold FullPathsB
              rw [fullPathsF_extends hextB hvA _ _ _ _ hvl]
              exact hfl
            exact fullPathsB_getOrInsert hvB (validPtr_mono hextB hvl) hvh
              hct rfl hfl2 hfh
      · simp only [smoothHelper, hct, if_false] at heq
        split at heq
        · exact Option.noConfusion heq
        next l s1 hrec1 =>
          split at heq
          · exact Option.noConfusion heq
          next h2 s2x hrec2 =>
            obtain ⟨hextA, hvA, hvl, hevl⟩ :=
              smoothHelper_spec fuel s .PtrFalse (c+1) t l s1 hs
                (by simp [ValidPtr, BddPtr.idxLt]) hrec1
            obtain ⟨hextB, hvB, hvh, hevh⟩ :=
              smoothHelper_spec fuel s1 .PtrFalse (c+1) t h2 s2x hvA
                (by simp [ValidPtr, BddPtr.idxLt]) hrec2
            have hfl := ih s .PtrFalse (c+1) t l s1 hs (Or.inr rfl) hrec1
            have hfh := ih s1 .PtrFalse (c+1) t h2 s2x hvA (Or.inr rfl) hrec2
            have hr1 : (getOrInsert s2x ⟨ord.varAt c, l, h2⟩).1 = r :=
              congrArg Prod.fst (Option.some.inj heq)
            have hr2 : (getOrInsert s2x ⟨ord.varAt c, l, h2⟩).2 = s2 :=
              congrArg Prod.snd (Option.some.inj heq)
            subst hr1 hr2
            have hfl2 : FullPathsB ord s2x l (c + 1) t = true := by
              unfold FullPathsB
              rw [fullPathsF_extends hextB hvA _ _ _ _ hvl]
              exact hfl
            exact fullPathsB_getOrInsert hvB (validPtr_mono hextB hvl) hvh
              hct rfl hfl2 hfh


/-- C5 (amended): `smooth(bdd, N)` preserves the Boolean function of its
input (over the extended store), and when the input is a terminal it
produces a chain in which every root-to-leaf path visits the variables of
all `N` levels in order, each fill node being labelled with the variable at
its level; fill nodes are only created below terminal edges, so an internal
node whose variable sits below the current level is descended through
without filling the skipped level (refuting the unconditional full-paths
clause, see the counterexample). -/
theorem claim5_smooth_semantics (ord : VarOrder) (fuel : Nat) (s : Store)
    (bdd r : BddPtr) (numVars : Nat) (s2 : Store)
    (hs : ValidStore s) (hv : ValidPtr s bdd)
    (heq : smooth ord fuel s bdd numVars = some (r, s2)) :
    (Extends s2 s ∧ ValidStore s2 ∧ ValidPtr s2 r ∧
      ∀ env, evalPtr s2 r env = evalPtr s bdd env) ∧
    ((bdd = .PtrTrue ∨ bdd = .PtrFalse) →
      FullPathsB ord s2 r 0 numVars = true) :=
  ⟨smoothHelper_spec fuel s bdd 0 numVars r s2 hs hv heq,
   fun hterm => smoothTerm_full fuel s bdd 0 numVars r s2 hs hterm heq⟩

/-- Witness for C5: smoothing the true terminal to one variable yields the
interned node `(var 0, T, T)`, preserving the function and satisfying the
full-paths property. -/
theorem claim5_witness :
    evalPtr [(⟨0, .PtrTrue, .PtrTrue⟩ : BddNode)] (.Reg 0) (fun _ => false) =
      evalPtr [] .PtrTrue (fun _ => false) ∧
    FullPathsB linearOrder [(⟨0, .PtrTrue, .PtrTrue⟩ : BddNode)]
      (.Reg 0) 0 1 = true := by
  have h := claim5_smooth_semantics linearOrder 9 [] .PtrTrue (.Reg 0) 1
    [(⟨0, .PtrTrue, .PtrTrue⟩ : BddNode)] (by decide) (by decide) rfl
  exact ⟨h.1.2.2.2 (fun _ => false), h.2 (Or.inl rfl)⟩

/-- C5 counterexample: smoothing the single-node BDD for the level-1
variable to two variables returns a root that still skips level 0 — the
fill pass only acts below terminal edges, so not every root-to-leaf path of
the result mentions all `N` variables. -/
theorem claim5_counterexample :
    smooth linearOrder 9 [(⟨1, .PtrFalse, .PtrTrue⟩ : BddNode)] (.Reg 0) 2 =
      some (.Reg 2,
        [(⟨1, .PtrFalse, .PtrTrue⟩ : BddNode),
         (⟨1, .PtrTrue, .PtrTrue⟩ : BddNode),
         (⟨1, .Compl 1, .Reg 1⟩ : BddNode)]) ∧
    FullPathsB linearOrder
      [(⟨1, .PtrFalse, .PtrTrue⟩ : BddNode),
       (⟨1, .PtrTrue, .PtrTrue⟩ : BddNode),
       (⟨1, .Compl 1, .Reg 1⟩ : BddNode)] (.Reg 2) 0 2 = false :=
  ⟨rfl, rfl⟩


/-- Weighted model counting parameters, `WmcParams` from
src/src/repr/wmc.rs: per-variable `(low, high)` weights, absent entries
mapped to `none`. -/
structure WmcParams (α : Type) where
  zero : α
  one : α
  varToVal : List (Option (α × α))

/-- `WmcParams::get_var_weight` (wmc.rs lines 69-71):
`var_to_val[label].as_ref().unwrap()` — the out-of-bounds index and the
`unwrap` of an unset entry both panic, modelled as `none`. -/
def getVarWeight {α : Type} (P : WmcParams α) (label : VarLabel) :
    Option (α × α) :=
  match P.varToVal.get? label with
  | none => none
  | some none => none
  | some (some w) => some w

/-- Scratch state of the sampling passes: per node index, the
`(complemented, regular)` cached bottom-up values (`SampleCache`). -/
abbrev SState := Nat → Option (Option ℚ × Option ℚ)

/-- `bottomup_pass_h` inside `weighted_sample` (robdd.rs lines 235-285):
bottom-up weighted model count with the per-polarity scratch cache;
real arithmetic is modelled over ℚ, a missing variable weight (the
`var_weight` unwrap) as `none`. -/
def bottomupPassH (wmc : WmcParams ℚ) (s : Store) :
    Nat → SState → BddPtr → Option (ℚ × SState)
  | 0, _, _ => none
  | fuel + 1, st, p =>
    match p with
    | .PtrTrue => some (1, st)
    | .PtrFalse => some (0, st)
    | .Reg i | .Compl i =>
      let node := s.getD i dfltNode
      let l := if p.isNeg then node.low.neg else node.low
      let h := if p.isNeg then node.high.neg else node.high
      let helper := fun (cached : Option ℚ) =>
        match bottomupPassH wmc s fuel st l with
        | none => none
        | some (lowV, st1) =>
          match bottomupPassH wmc s fuel st1 h with
          | none => none
          | some (highV, st2) =>
            match getVarWeight wmc node.var with
            | none => none
            | some w =>
              let orV := w.1 * lowV + w.2 * highV
              some (orV, fun j =>
                if j = i then
                  (if p.isNeg then some (some orV, cached)
                   else some (cached, some orV))
                else st2 j)
      match st i with
      | some (some lv, some hv) => some ((if p.isNeg then lv else hv), st)
      | some (some v, none) =>
        if p.isNeg then some (v, st) else helper (some v)
      | some (none, some v) =>
        if p.isNeg then helper (some v) else some (v, st)
      | some (none, none) => helper none
      | none => helper none

/-- `sample_path` inside `weighted_sample` (robdd.rs lines 287-333):
walks down the BDD choosing a branch in proportion to the weighted counts
(the random draw `rand_val < and_low` is abstracted into the oracle
`choices`, consumed left to right), rebuilding the sampled path with
`get_or_insert`; the `PtrFalse` arm is the source's
`panic!("sample_path called on false!")`, modelled as `none`. -/
def samplePath (wmc : WmcParams ℚ) (choices : Nat → Bool) :
    Nat → Store → SState → Nat → BddPtr →
    Option (BddPtr × ℚ × Store × SState × Nat)
  | 0, _, _, _, _ => none
  | fuel + 1, s, st, k, p =>
    match p with
    | .PtrTrue => some (p, 1, s, st, k)
    | .PtrFalse => none
    | .Reg i | .Compl i =>
      let node := s.getD i dfltNode
      let l := if p.isNeg then node.low.neg else node.low
      let h := if p.isNeg then node.high.neg else node.high
      match bottomupPassH wmc s fuel st l with
      | none => none
      | some (lowV, st1) =>
        match bottomupPassH wmc s fuel st1 h with
        | none => none
        | some (highV, st2) =>
          match getVarWeight wmc node.var with
          | none => none
          | some w =>
            let andLow := w.1 * lowV
            let andHigh := w.2 * highV
            let totalWeight := andLow + andHigh
            if choices k then
              match samplePath wmc choices fuel s st2 (k + 1) l with
              | none => none
              | some (lowChild, pr, s2, st3, k2) =>
                let r := getOrInsert s2 ⟨node.var, lowChild, .PtrFalse⟩
                some (r.1, pr * andLow / totalWeight, r.2, st3, k2)
            else
              match samplePath wmc choices fuel s st2 (k + 1) h with
              | none => none
              | some (highChild, pr, s2, st3, k2) =>
                let r := getOrInsert s2 ⟨node.var, .PtrFalse, highChild⟩
                some (r.1, pr * andHigh / totalWeight, r.2, st3, k2)

/-- Fueled reachability of a store index from a pointer (an index is
reachable when some chain of child edges from the pointer's node hits it). -/
def reachB (s : Store) : Nat → BddPtr → Nat → Bool
  | 0, _, _ => false
  | fuel + 1, p, j =>
    match p.idx? with
    | none => false
    | some i =>
      decide (i = j) ||
      reachB s fuel (s.getD i dfltNode).low j ||
      reachB s fuel (s.getD i dfltNode).high j

/-- Modelled from the spec: `BddPtr::clear_scratch` (its code is not part of
the vendored sources) nulls the scratch slot of every node reachable from
the pointer. -/
def clearScratch {β : Type} (s : Store) (p : BddPtr)
    (st : Nat → Option β) : Nat → Option β :=
  fun i => if reachB s (s.length + 1) p i then none else st i

/-- `weighted_sample` (robdd.rs lines 228-340): sample a weighted path,
then clear the scratch the pass populated before returning. -/
def weightedSample (wmc : WmcParams ℚ) (choices : Nat → Bool) (fuel : Nat)
    (s : Store) (st : SState) (p : BddPtr) :
    Option ((BddPtr × ℚ) × Store × SState) :=
  match samplePath wmc choices fuel s st 0 p with
  | none => none
  | some (r, pr, s2, st2, _) =>
    some ((r, pr), s2, clearScratch s2 p st2)

/-- C9: precondition violations panic — `weighted_sample` on the false
constant aborts in `sample_path`, and `get_var_weight` aborts exactly on a
label with no assigned weight (index past the weight vector, or an entry
never set). -/
theorem claim9_panics {α : Type} (wmc : WmcParams ℚ) (choices : Nat → Bool)
    (fuel : Nat) (s : Store) (st : SState) (P : WmcParams α)
    (lbl : VarLabel) :
    weightedSample wmc choices (fuel + 1) s st .PtrFalse = none ∧
    (getVarWeight P lbl = none ↔
      (P.varToVal.get? lbl = none ∨ P.varToVal.get? lbl = some none)) := by
  constructor
  · rfl
  · cases h : P.varToVal.get? lbl with
    | none =>
      unfold getVarWeight
      rw [h]
      simp
    | some o =>
      unfold getVarWeight
      rw [h]
      cases o <;> simp


/-- A weighted path: `(weight, decisions)`, `Path` from `top_k_paths`
(robdd.rs lines 350-354); `OrderedFloat<f64>` weights are modelled over ℚ. -/
abbrev Path := ℚ × List (VarLabel × Bool)

/-- Stable insertion into a list sorted by non-increasing weight: the new
element goes after every element of weight at least its own. -/
def insertDesc (p : Path) : List Path → List Path
  | [] => [p]
  | q :: rest => if q.1 < p.1 then p :: q :: rest else q :: insertDesc p rest

/-- The stable descending sort `sort_by(|a, b| b.weight.cmp(&a.weight))`
of `top_k_paths`, modelled as stable insertion sort. -/
def sortDesc (l : List Path) : List Path :=
  l.foldl (fun acc p => insertDesc p acc) []

/-- Scratch state of the top-k pass: per node index the
`(complemented, regular)` cached path lists (`TopKCache`). -/
abbrev TState := Nat → Option (Option (List Path) × Option (List Path))

/-- `bottom_up_top_k` from `top_k_paths` (robdd.rs lines 358-429): merge
the children's top-`k` path lists, extending each with this node's decision
and scaling by the branch weight, sort descending, truncate to `k`, and
cache the result in the polarity-matching scratch slot. -/
def bottomUpTopK (wmc : WmcParams ℚ) (s : Store) (k : Nat) :
    Nat → TState → BddPtr → Option (List Path × TState)
  | 0, _, _ => none
  | fuel + 1, st, p =>
    match p with
    | .PtrTrue => some ([(1, [])], st)
    | .PtrFalse => some ([], st)
    | .Reg i | .Compl i =>
      let node := s.getD i dfltNode
      let l := if p.isNeg then node.low.neg else node.low
      let h := if p.isNeg then node.high.neg else node.high
      let helper := fun (cached : Option (List Path)) =>
        match bottomUpTopK wmc s k fuel st l with
        | none => none
        | some (lowPaths, st1) =>
          match bottomUpTopK wmc s k fuel st1 h with
          | none => none
          | some (highPaths, st2) =>
            match getVarWeight wmc node.var with
            | none => none
            | some w =>
              let truePaths :=
                lowPaths.map (fun q => (q.1 * w.1, (node.var, false) :: q.2))
                ++ highPaths.map (fun q => (q.1 * w.2, (node.var, true) :: q.2))
              let sorted := (sortDesc truePaths).take k
              some (sorted, fun j =>
                if j = i then
                  (if p.isNeg then some (some sorted, cached)
                   else some (cached, some sorted))
                else st2 j)
      match st i with
      | some (some lv, some hv) => some ((if p.isNeg then lv else hv), st)
      | some (some v, none) => if p.isNeg then some (v, st) else helper (some v)
      | some (none, some v) => if p.isNeg then helper (some v) else some (v, st)
      | some (none, none) => helper none
      | none => helper none

/-- First decision variables of the paths, for `construct_top_k_bdd`'s
`next_var` search. -/
def firstDecisions (paths : List Path) : List (VarLabel × Bool) :=
  paths.filterMap (fun q => q.2.head?)

/-- `min_by_key(order.get(var))` over the first decisions: the first
minimum-position variable, as Rust's `min_by_key` keeps the first of equal
keys. -/
def minFirstVar (ord : VarOrder) (paths : List Path) : Option VarLabel :=
  (firstDecisions paths).foldl
    (fun acc vd =>
      match acc with
      | none => some vd.1
      | some v => if ord.level vd.1 < ord.level v then some vd.1 else some v)
    none

/-- The partition predicate of `construct_top_k_bdd`: a path goes to the
low branch unless its first decision sets `next_var` to true
(`map_or(true, |&(v, d)| v != next_var || !d)`). -/
def lowSel (nextVar : VarLabel) (q : Path) : Bool :=
  match q.2.head? with
  | none => true
  | some vd => decide (vd.1 ≠ nextVar) || !vd.2

/-- Low-branch path adjustment of `construct_top_k_bdd`: drop a leading
decision on `next_var`. -/
def lowTransform (nextVar : VarLabel) (q : Path) : Path :=
  match q.2 with
  | [] => q
  | vd :: rest => if vd.1 = nextVar then (q.1, rest) else q

/-- `construct_top_k_bdd` from `top_k_paths` (robdd.rs lines 432-486):
build a BDD accepting the given paths, splitting on the earliest variable
among the paths' first decisions; paths not starting with that variable set
to true go to the low branch (dropping a leading `(next_var, false)`
decision), the rest to the high branch (dropping their first decision). -/
def constructTopK (ord : VarOrder) :
    Nat → Store → List Path → Option (BddPtr × Store)
  | 0, _, _ => none
  | fuel + 1, s, paths =>
    if paths = [] then some (.PtrFalse, s)
    else if paths.all (fun q => q.2.isEmpty) then some (.PtrTrue, s)
    else
      match minFirstVar ord paths with
      | none => none
      | some nextVar =>
        let lowPaths := (paths.filter (lowSel nextVar)).map
          (lowTransform nextVar)
        let highPaths := (paths.filter (fun q => ! lowSel nextVar q)).map
          (fun q => (q.1, q.2.tail))
        match constructTopK ord fuel s lowPaths with
        | none => none
        | some (low, s1) =>
          match constructTopK ord fuel s1 highPaths with
          | none => none
          | some (high, s2) =>
            if low = high then some (low, s2)
            else some (getOrInsert s2 ⟨nextVar, low, high⟩)

/-- `top_k_paths` (robdd.rs lines 343-491): bottom-up top-`k` path lists,
top-down reconstruction, then clear the scratch the bottom-up pass
populated. -/
def topKPaths (ord : VarOrder) (wmc : WmcParams ℚ) (k : Nat) (fuel : Nat)
    (s : Store) (st : TState) (p : BddPtr) :
    Option (BddPtr × Store × TState) :=
  match bottomUpTopK wmc s k fuel st p with
  | none => none
  | some (paths, st1) =>
    match constructTopK ord fuel s paths with
    | none => none
    | some (r, s2) => some (r, s2, clearScratch s2 p st1)


theorem reachB_neg (s : Store) (fuel : Nat) (p : BddPtr) (j : Nat) :
    reachB s fuel p.neg j = reachB s fuel p j := by
  cases fuel with
  | zero => rfl
  | succ fuel => cases p <;> rfl

theorem reachB_mono {s : Store} :
    ∀ {f f' : Nat} (p : BddPtr) (j : Nat), f ≤ f' →
      reachB s f p j = true → reachB s f' p j = true := by
  intro f
  induction f with
  | zero => intro f' p j _ h; exact absurd h (by simp [reachB, BddPtr.idx?])
  | succ f ih =>
    intro f' p j hle h
    obtain ⟨g, rfl⟩ : ∃ g, f' = g + 1 := ⟨f' - 1, by omega⟩
    cases p with
    | PtrTrue => simpa [reachB, BddPtr.idx?] using h
    | PtrFalse => simpa [reachB, BddPtr.idx?] using h
    | Reg i =>
      simp only [reachB, BddPtr.idx?, Bool.or_eq_true] at h ⊢
      rcases h with (h | h) | h
      · exact Or.inl (Or.inl h)
      · exact Or.inl (Or.inr (ih _ _ (by omega) h))
      · exact Or.inr (ih _ _ (by omega) h)
    | Compl i =>
      simp only [reachB, BddPtr.idx?, Bool.or_eq_true] at h ⊢
      rcases h with (h | h) | h
      · exact Or.inl (Or.inl h)
      · exact Or.inl (Or.inr (ih _ _ (by omega) h))
      · exact Or.inr (ih _ _ (by omega) h)

/-- With a valid store, reachability chains go through strictly decreasing
indices, so fuel exceeding the root index saturates. -/
theorem reachB_saturate {s : Store} (hs : ValidStore s) :
    ∀ (f : Nat) (p : BddPtr) (j : Nat) {i : Nat}, p.idx? = some i →
      i < s.length → reachB s f p j = true →
      ∀ g, i < g → reachB s g p j = true := by
  intro f
  induction f with
  | zero => intro p j i _ _ h; exact absurd h (by simp [reachB, BddPtr.idx?])
  | succ f ih =>
    intro p j i hidx hi h g hg
    obtain ⟨g0, rfl⟩ : ∃ g0, g = g0 + 1 := ⟨g - 1, by omega⟩
    have hnode := hs i hi
    cases p with
    | PtrTrue => exact absurd hidx (by simp [BddPtr.idx?])
    | PtrFalse => exact absurd hidx (by simp [BddPtr.idx?])
    | Reg i0 =>
      obtain rfl : i0 = i := by simpa [BddPtr.idx?] using hidx
      simp only [reachB, BddPtr.idx?, Bool.or_eq_true] at h ⊢
      rcases h with (h | h) | h
      · exact Or.inl (Or.inl h)
      · refine Or.inl (Or.inr ?_)
        cases hc : (s.getD i0 dfltNode).low with
        | PtrTrue => rw [hc] at h; exact absurd h (by cases f <;> simp [reachB, BddPtr.idx?])
        | PtrFalse => rw [hc] at h; exact absurd h (by cases f <;> simp [reachB, BddPtr.idx?])
        | Reg c =>
          have hci : c < i0 := by
            have := hnode.1; rw [hc] at this
            simpa [BddPtr.idxLt] using this
          rw [hc] at h
          exact ih (.Reg c) j rfl (Nat.lt_trans hci hi) h g0 (by omega)
        | Compl c =>
          have hci : c < i0 := by
            have := hnode.1; rw [hc] at this
            simpa [BddPtr.idxLt] using this
          rw [hc] at h
          exact ih (.Compl c) j rfl (Nat.lt_trans hci hi) h g0 (by omega)
      · refine Or.inr ?_
        cases hc : (s.getD i0 dfltNode).high with
        | PtrTrue => rw [hc] at h; exact absurd h (by cases f <;> simp [reachB, BddPtr.idx?])
        | PtrFalse => rw [hc] at h; exact absurd h (by cases f <;> simp [reachB, BddPtr.idx?])
        | Reg c =>
          have hci : c < i0 := by
            have := hnode.2; rw [hc] at this
            simpa [BddPtr.idxLt] using this
          rw [hc] at h
          exact ih (.Reg c) j rfl (Nat.lt_trans hci hi) h g0 (by omega)
        | Compl c =>
          have hci : c < i0 := by
            have := hnode.2; rw [hc] at this
            simpa [BddPtr.idxLt] using this
          rw [hc] at h
          exact ih (.Compl c) j rfl (Nat.lt_trans hci hi) h g0 (by omega)
    | Compl i0 =>
      obtain rfl : i0 = i := by simpa [BddPtr.idx?] using hidx
      simp only [reachB, BddPtr.idx?, Bool.or_eq_true] at h ⊢
      rcases h with (h | h) | h
      · exact Or.inl (Or.inl h)
      · refine Or.inl (Or.inr ?_)
        cases hc : (s.getD i0 dfltNode).low with
        | PtrTrue => rw [hc] at h; exact absurd h (by cases f <;> simp [reachB, BddPtr.idx?])
        | PtrFalse => rw [hc] at h; exact absurd h (by cases f <;> simp [reachB, BddPtr.idx?])
        | Reg c =>
          have hci : c < i0 := by
            have := hnode.1; rw [hc] at this
            simpa [BddPtr.idxLt] using this
          rw [hc] at h
          exact ih (.Reg c) j rfl (Nat.lt_trans hci hi) h g0 (by omega)
        | Compl c =>
          have hci : c < i0 := by
            have := hnode.1; rw [hc] at this
            simpa [BddPtr.idxLt] using this
          rw [hc] at h
          exact ih (.Compl c) j rfl (Nat.lt_trans hci hi) h g0 (by omega)
      · refine Or.inr ?_
        cases hc : (s.getD i0 dfltNode).high with
        | PtrTrue => rw [hc] at h; exact absurd h (by cases f <;> simp [reachB, BddPtr.idx?])
        | PtrFalse => rw [hc] at h; exact absurd h (by cases f <;> simp [reachB, BddPtr.idx?])
        | Reg c =>
          have hci : c < i0 := by
            have := hnode.2; rw [hc] at this
            simpa [BddPtr.idxLt] using this
          rw [hc] at h
          exact ih (.Reg c) j rfl (Nat.lt_trans hci hi) h g0 (by omega)
        | Compl c =>
          have hci : c < i0 := by
            have := hnode.2; rw [hc] at this
            simpa [BddPtr.idxLt] using this
          rw [hc] at h
          exact ih (.Compl c) j rfl (Nat.lt_trans hci hi) h g0 (by omega)

theorem reachB_extends {s2 s : Store} (hext : Extends s2 s)
    (hs : ValidStore s) :
    ∀ (f : Nat) (p : BddPtr) (j : Nat), ValidPtr s p →
      reachB s2 f p j = reachB s f p j := by
  intro f
  induction f with
  | zero => intro p j _; rfl
  | succ f ih =>
    intro p j hv
    cases p with
    | PtrTrue => rfl
    | PtrFalse => rfl
    | Reg i =>
      have hi : i < s.length := by simpa [ValidPtr, BddPtr.idxLt] using hv
      simp only [reachB, BddPtr.idx?]
      rw [getD_of_extends hext hi, ih _ _ (validPtr_low hs hi),
        ih _ _ (validPtr_high hs hi)]
    | Compl i =>
      have hi : i < s.length := by simpa [ValidPtr, BddPtr.idxLt] using hv
      simp only [reachB, BddPtr.idx?]
      rw [getD_of_extends hext hi, ih _ _ (validPtr_low hs hi),
        ih _ _ (validPtr_high hs hi)]

/-- Reachability of a child pointer extends through the parent with one
more unit of fuel. -/
theorem reachB_step_low {s : Store} {i : Nat} {f : Nat} {j : Nat}
    (h : reachB s f (s.getD i dfltNode).low j = true) (p : BddPtr)
    (hidx : p.idx? = some i) : reachB s (f + 1) p j = true := by
  cases p with
  | PtrTrue => exact absurd hidx (by simp [BddPtr.idx?])
  | PtrFalse => exact absurd hidx (by simp [BddPtr.idx?])
  | Reg i0 =>
    obtain rfl : i0 = i := by simpa [BddPtr.idx?] using hidx
    simp only [reachB, BddPtr.idx?, Bool.or_eq_true]
    exact Or.inl (Or.inr h)
  | Compl i0 =>
    obtain rfl : i0 = i := by simpa [BddPtr.idx?] using hidx
    simp only [reachB, BddPtr.idx?, Bool.or_eq_true]
    exact Or.inl (Or.inr h)

theorem reachB_step_high {s : Store} {i : Nat} {f : Nat} {j : Nat}
    (h : reachB s f (s.getD i dfltNode).high j = true) (p : BddPtr)
    (hidx : p.idx? = some i) : reachB s (f + 1) p j = true := by
  cases p with
  | PtrTrue => exact absurd hidx (by simp [BddPtr.idx?])
  | PtrFalse => exact absurd hidx (by simp [BddPtr.idx?])
  | Reg i0 =>
    obtain rfl : i0 = i := by simpa [BddPtr.idx?] using hidx
    simp only [reachB, BddPtr.idx?, Bool.or_eq_true]
    exact Or.inr h
  | Compl i0 =>
    obtain rfl : i0 = i := by simpa [BddPtr.idx?] using hidx
    simp only [reachB, BddPtr.idx?, Bool.or_eq_true]
    exact Or.inr h

theorem reachB_self {s : Store} {i : Nat} (f : Nat) (p : BddPtr)
    (hidx : p.idx? = some i) : reachB s (f + 1) p i = true := by
  cases p with
  | PtrTrue => exact absurd hidx (by simp [BddPtr.idx?])
  | PtrFalse => exact absurd hidx (by simp [BddPtr.idx?])
  | Reg i0 =>
    obtain rfl : i0 = i := by simpa [BddPtr.idx?] using hidx
    simp [reachB, BddPtr.idx?]
  | Compl i0 =>
    obtain rfl : i0 = i := by simpa [BddPtr.idx?] using hidx
    simp [reachB, BddPtr.idx?]


theorem bottomupPassH_scratch {wmc : WmcParams ℚ} {s : Store} :
    ∀ (fuel : Nat) (st : SState) (q : BddPtr) (v : ℚ) (st2 : SState),
      bottomupPassH wmc s fuel st q = some (v, st2) →
      ∀ j, st2 j ≠ st j → reachB s fuel q j = true := by
  intro fuel
  induction fuel with
  | zero => intro st q v st2 heq; exact Option.noConfusion heq
  | succ fuel ih =>
    intro st q v st2 heq j hj
    cases q with
    | PtrTrue =>
      simp only [bottomupPassH, Option.some.injEq, Prod.mk.injEq] at heq
      obtain ⟨rfl, rfl⟩ := heq
      exact absurd rfl hj
    | PtrFalse =>
      simp only [bottomupPassH, Option.some.injEq, Prod.mk.injEq] at heq
      obtain ⟨rfl, rfl⟩ := heq
      exact absurd rfl hj
    | Reg i =>
      simp only [bottomupPassH, BddPtr.isNeg, Bool.false_eq_true,
        if_false] at heq
      split at heq
      next lv hv0 hsti =>
        simp only [Option.some.injEq, Prod.mk.injEq] at heq
        obtain ⟨rfl, rfl⟩ := heq
        exact absurd rfl hj
      next v0 hsti =>
        split at heq
        · exact Option.noConfusion heq
        next lowV st1 hrec1 =>
          split at heq
          · exact Option.noConfusion heq
          next highV stB hrec2 =>
            split at heq
            · exact Option.noConfusion heq
            next w hw =>
              simp only [Option.some.injEq, Prod.mk.injEq] at heq
              obtain ⟨rfl, rfl⟩ := heq
              by_cases hji : j = i
              · subst hji; exact reachB_self fuel (.Reg j) rfl
              · have hstB : stB j ≠ st j := by simpa [hji] using hj
                by_cases h1 : st1 j = st j
                · have h2 : stB j ≠ st1 j := by rw [h1]; exact hstB
                  exact reachB_step_high (ih st1 _ highV stB hrec2 j h2)
                    (.Reg i) rfl
                · exact reachB_step_low (ih st _ lowV st1 hrec1 j h1)
                    (.Reg i) rfl
      next v0 hsti =>
        simp only [Option.some.injEq, Prod.mk.injEq] at heq
        obtain ⟨rfl, rfl⟩ := heq
        exact absurd rfl hj
      next hsti =>
        split at heq
        · exact Option.noConfusion heq
        next lowV st1 hrec1 =>
          split at heq
          · exact Option.noConfusion heq
          next highV stB hrec2 =>
            split at heq
            · exact Option.noConfusion heq
            next w hw =>
              simp only [Option.some.injEq, Prod.mk.injEq] at heq
              obtain ⟨rfl, rfl⟩ := heq
              by_cases hji : j = i
              · subst hji; exact reachB_self fuel (.Reg j) rfl
              · have hstB : stB j ≠ st j := by simpa [hji] using hj
                by_cases h1 : st1 j = st j
                · have h2 : stB j ≠ st1 j := by rw [h1]; exact hstB
                  exact reachB_step_high (ih st1 _ highV stB hrec2 j h2)
                    (.Reg i) rfl
                · exact reachB_step_low (ih st _ lowV st1 hrec1 j h1)
                    (.Reg i) rfl
      next hsti =>
        split at heq
        · exact Option.noConfusion heq
        next lowV st1 hrec1 =>
          split at heq
          · exact Option.noConfusion heq
          next highV stB hrec2 =>
            split at heq
            · exact Option.noConfusion heq
            next w hw =>
              simp only [Option.some.injEq, Prod.mk.injEq] at heq
              obtain ⟨rfl, rfl⟩ := heq
              by_cases hji : j = i
              · subst hji; exact reachB_self fuel (.Reg j) rfl
              · have hstB : stB j ≠ st j := by simpa [hji] using hj
                by_cases h1 : st1 j = st j
                · have h2 : stB j ≠ st1 j := by rw [h1]; exact hstB
                  exact reachB_step_high (ih st1 _ highV stB hrec2 j h2)
                    (.Reg i) rfl
                · exact reachB_step_low (ih st _ lowV st1 hrec1 j h1)
                    (.Reg i) rfl
    | Compl i =>
      simp only [bottomupPassH, BddPtr.isNeg, if_true] at heq
      split at heq
      next lv hv0 hsti =>
        simp only [Option.some.injEq, Prod.mk.injEq] at heq
        obtain ⟨rfl, rfl⟩ := heq
        exact absurd rfl hj
      next v0 hsti =>
        simp only [Option.some.injEq, Prod.mk.injEq] at heq
        obtain ⟨rfl, rfl⟩ := heq
        exact absurd rfl hj
      next v0 hsti =>
        split at heq
        · exact Option.noConfusion heq
        next lowV st1 hrec1 =>
          split at heq
          · exact Option.noConfusion heq
          next highV stB hrec2 =>
            split at heq
            · exact Option.noConfusion heq
            next w hw =>
              simp only [Option.some.injEq, Prod.mk.injEq] at heq
              obtain ⟨rfl, rfl⟩ := heq
              by_cases hji : j = i
              · subst hji; exact reachB_self fuel (.Compl j) rfl
              · have hstB : stB j ≠ st j := by simpa [hji] using hj
                by_cases h1 : st1 j = st j
                · have h2 : stB j ≠ st1 j := by rw [h1]; exact hstB
                  have hchild := ih st1 _ highV stB hrec2 j h2
                  rw [reachB_neg] at hchild
                  exact reachB_step_high hchild (.Compl i) rfl
                · have hchild := ih st _ lowV st1 hrec1 j h1
                  rw [reachB_neg] at hchild
                  exact reachB_step_low hchild (.Compl i) rfl
      next hsti =>
        split at heq
        · exact Option.noConfusion heq
        next lowV st1 hrec1 =>
          split at heq
          · exact Option.noConfusion heq
          next highV stB hrec2 =>
            split at heq
            · exact Option.noConfusion heq
            next w hw =>
              simp only [Option.some.injEq, Prod.mk.injEq] at heq
              obtain ⟨rfl, rfl⟩ := heq
              by_cases hji : j = i
              · subst hji; exact reachB_self fuel (.Compl j) rfl
              · have hstB : stB j ≠ st j := by simpa [hji] using hj
                by_cases h1 : st1 j = st j
                · have h2 : stB j ≠ st1 j := by rw [h1]; exact hstB
                  have hchild := ih st1 _ highV stB hrec2 j h2
                  rw [reachB_neg] at hchild
                  exact reachB_step_high hchild (.Compl i) rfl
                · have hchild := ih st _ lowV st1 hrec1 j h1
                  rw [reachB_neg] at hchild
                  exact reachB_step_low hchild (.Compl i) rfl
      next hsti =>
        split at heq
        · exact Option.noConfusion heq
        next lowV st1 hrec1 =>
          split at heq
          · exact Option.noConfusion heq
          next highV stB hrec2 =>
            split at heq
            · exact Option.noConfusion heq
            next w hw =>
              simp only [Option.some.injEq, Prod.mk.injEq] at heq
              obtain ⟨rfl, rfl⟩ := heq
              by_cases hji : j = i
              · subst hji; exact reachB_self fuel (.Compl j) rfl
              · have hstB : stB j ≠ st j := by simpa [hji] using hj
                by_cases h1 : st1 j = st j
                · have h2 : stB j ≠ st1 j := by rw [h1]; exact hstB
                  have hchild := ih st1 _ highV stB hrec2 j h2
                  rw [reachB_neg] at hchild
                  exact reachB_step_high hchild (.Compl i) rfl
                · have hchild := ih st _ lowV st1 hrec1 j h1
                  rw [reachB_neg] at hchild
                  exact reachB_step_low hchild (.Compl i) rfl


theorem bottomUpTopK_scratch {wmc : WmcParams ℚ} {s : Store} {k : Nat} :
    ∀ (fuel : Nat) (st : TState) (q : BddPtr) (v : List Path) (st2 : TState),
      bottomUpTopK wmc s k fuel st q = some (v, st2) →
      ∀ j, st2 j ≠ st j → reachB s fuel q j = true := by
  intro fuel
  induction fuel with
  | zero => intro st q v st2 heq; exact Option.noConfusion heq
  | succ fuel ih =>
    intro st q v st2 heq j hj
    cases q with
    | PtrTrue =>
      simp only [bottomUpTopK, Option.some.injEq, Prod.mk.injEq] at heq
      obtain ⟨rfl, rfl⟩ := heq
      exact absurd rfl hj
    | PtrFalse =>
      simp only [bottomUpTopK, Option.some.injEq, Prod.mk.injEq] at heq
      obtain ⟨rfl, rfl⟩ := heq
      exact absurd rfl hj
    | Reg i =>
      simp only [bottomUpTopK, BddPtr.isNeg, Bool.false_eq_true,
        if_false] at heq
      split at heq
      next lv hv0 hsti =>
        simp only [Option.some.injEq, Prod.mk.injEq] at heq
        obtain ⟨rfl, rfl⟩ := heq
        exact absurd rfl hj
      next v0 hsti =>
        split at heq
        · exact Option.noConfusion heq
        next lowV st1 hrec1 =>
          split at heq
          · exact Option.noConfusion heq
          next highV stB hrec2 =>
            split at heq
            · exact Option.noConfusion heq
            next w hw =>
              simp only [Option.some.injEq, Prod.mk.injEq] at heq
              obtain ⟨rfl, rfl⟩ := heq
              by_cases hji : j = i
              · subst hji; exact reachB_self fuel (.Reg j) rfl
              · have hstB : stB j ≠ st j := by simpa [hji] using hj
                by_cases h1 : st1 j = st j
                · have h2 : stB j ≠ st1 j := by rw [h1]; exact hstB
                  exact reachB_step_high (ih st1 _ highV stB hrec2 j h2)
                    (.Reg i) rfl
                · exact reachB_step_low (ih st _ lowV st1 hrec1 j h1)
                    (.Reg i) rfl
      next v0 hsti =>
        simp only [Option.some.injEq, Prod.mk.injEq] at heq
        obtain ⟨rfl, rfl⟩ := heq
        exact absurd rfl hj
      next hsti =>
        split at heq
        · exact Option.noConfusion heq
        next lowV st1 hrec1 =>
          split at heq
          · exact Option.noConfusion heq
          next highV stB hrec2 =>
            split at heq
            · exact Option.noConfusion heq
            next w hw =>
              simp only [Option.some.injEq, Prod.mk.injEq] at heq
              obtain ⟨rfl, rfl⟩ := heq
              by_cases hji : j = i
              · subst hji; exact reachB_self fuel (.Reg j) rfl
              · have hstB : stB j ≠ st j := by simpa [hji] using hj
                by_cases h1 : st1 j = st j
                · have h2 : stB j ≠ st1 j := by rw [h1]; exact hstB
                  exact reachB_step_high (ih st1 _ highV stB hrec2 j h2)
                    (.Reg i) rfl
                · exact reachB_step_low (ih st _ lowV st1 hrec1 j h1)
                    (.Reg i) rfl
      next hsti =>
        split at heq
        · exact Option.noConfusion heq
        next lowV st1 hrec1 =>
          split at heq
          · exact Option.noConfusion heq
          next highV stB hrec2 =>
            split at heq
            · exact Option.noConfusion heq
            next w hw =>
              simp only [Option.some.injEq, Prod.mk.injEq] at heq
              obtain ⟨rfl, rfl⟩ := heq
              by_cases hji : j = i
              · subst hji; exact reachB_self fuel (.Reg j) rfl
              · have hstB : stB j ≠ st j := by simpa [hji] using hj
                by_cases h1 : st1 j = st j
                · have h2 : stB j ≠ st1 j := by rw [h1]; exact hstB
                  exact reachB_step_high (ih st1 _ highV stB hrec2 j h2)
                    (.Reg i) rfl
                · exact reachB_step_low (ih st _ lowV st1 hrec1 j h1)
                    (.Reg i) rfl
    | Compl i =>
      simp only [bottomUpTopK, BddPtr.isNeg, if_true] at heq
      split at heq
      next lv hv0 hsti =>
        simp only [Option.some.injEq, Prod.mk.injEq] at heq
        obtain ⟨rfl, rfl⟩ := heq
        exact absurd rfl hj
      next v0 hsti =>
        simp only [Option.some.injEq, Prod.mk.injEq] at heq
        obtain ⟨rfl, rfl⟩ := heq
        exact absurd rfl hj
      next v0 hsti =>
        split at heq
        · exact Option.noConfusion heq
        next lowV st1 hrec1 =>
          split at heq
          · exact Option.noConfusion heq
          next highV stB hrec2 =>
            split at heq
            · exact Option.noConfusion heq
            next w hw =>
              simp only [Option.some.injEq, Prod.mk.injEq] at heq
              obtain ⟨rfl, rfl⟩ := heq
              by_cases hji : j = i
              · subst hji; exact reachB_self fuel (.Compl j) rfl
              · have hstB : stB j ≠ st j := by simpa [hji] using hj
                by_cases h1 : st1 j = st j
                · have h2 : stB j ≠ st1 j := by rw [h1]; exact hstB
                  have hchild := ih st1 _ highV stB hrec2 j h2
                  rw [reachB_neg] at hchild
                  exact reachB_step_high hchild (.Compl i) rfl
                · have hchild := ih st _ lowV st1 hrec1 j h1
                  rw [reachB_neg] at hchild
                  exact reachB_step_low hchild (.Compl i) rfl
      next hsti =>
        split at heq
        · exact Option.noConfusion heq
        next lowV st1 hrec1 =>
          split at heq
          · exact Option.noConfusion heq
          next highV stB hrec2 =>
            split at heq
            · exact Option.noConfusion heq
            next w hw =>
              simp only [Option.some.injEq, Prod.mk.injEq] at heq
              obtain ⟨rfl, rfl⟩ := heq
              by_cases hji : j = i
              · subst hji; exact reachB_self fuel (.Compl j) rfl
              · have hstB : stB j ≠ st j := by simpa [hji] using hj
                by_cases h1 : st1 j = st j
                · have h2 : stB j ≠ st1 j := by rw [h1]; exact hstB
                  have hchild := ih st1 _ highV stB hrec2 j h2
                  rw [reachB_neg] at hchild
                  exact reachB_step_high hchild (.Compl i) rfl
                · have hchild := ih st _ lowV st1 hrec1 j h1
                  rw [reachB_neg] at hchild
                  exact reachB_step_low hchild (.Compl i) rfl
      next hsti =>
        split at heq
        · exact Option.noConfusion heq
        next lowV st1 hrec1 =>
          split at heq
          · exact Option.noConfusion heq
          next highV stB hrec2 =>
            split at heq
            · exact Option.noConfusion heq
            next w hw =>
              simp only [Option.some.injEq, Prod.mk.injEq] at heq
              obtain ⟨rfl, rfl⟩ := heq
              by_cases hji : j = i
              · subst hji; exact reachB_self fuel (.Compl j) rfl
              · have hstB : stB j ≠ st j := by simpa [hji] using hj
                by_cases h1 : st1 j = st j
                · have h2 : stB j ≠ st1 j := by rw [h1]; exact hstB
                  have hchild := ih st1 _ highV stB hrec2 j h2
                  rw [reachB_neg] at hchild
                  exact reachB_step_high hchild (.Compl i) rfl
                · have hchild := ih st _ lowV st1 hrec1 j h1
                  rw [reachB_neg] at hchild
                  exact reachB_step_low hchild (.Compl i) rfl



theorem samplePath_scratch {wmc : WmcParams ℚ} {choices : Nat → Bool} :
    ∀ (fuel : Nat) (s : Store) (st : SState) (k : Nat) (p r : BddPtr)
      (pr : ℚ) (s2 : Store) (st2 : SState) (k2 : Nat),
      ValidStore s → ValidPtr s p →
      samplePath wmc choices fuel s st k p = some (r, pr, s2, st2, k2) →
      Extends s2 s ∧ ValidStore s2 ∧ ValidPtr s2 r ∧
      (∀ j, st2 j ≠ st j → reachB s fuel p j = true) := by
  intro fuel
  induction fuel with
  | zero =>
    intro s st k p r pr s2 st2 k2 _ _ heq
    exact Option.noConfusion heq
  | succ fuel ih =>
    intro s st k p r pr s2 st2 k2 hs hv heq
    cases p with
    | PtrTrue =>
      simp only [samplePath, Option.some.injEq, Prod.mk.injEq] at heq
      obtain ⟨rfl, rfl, rfl, rfl, rfl⟩ := heq
      exact ⟨extends_refl _, hs, hv, fun j hj => absurd rfl hj⟩
    | PtrFalse => exact Option.noConfusion heq
    | Reg i =>
      have hi : i < s.length := by simpa [ValidPtr, BddPtr.idxLt] using hv
      simp only [samplePath, BddPtr.isNeg, Bool.false_eq_true, if_false] at heq
      split at heq
      · exact Option.noConfusion heq
      next lowV st1 hb1 =>
        split at heq
        · exact Option.noConfusion heq
        next highV stB hb2 =>
          split at heq
          · exact Option.noConfusion heq
          next w hw =>
            split at heq
            next hch =>
              split at heq
              · exact Option.noConfusion heq
              next lowChild prc s2c st3 k2c hrecl =>
                simp only [Option.some.injEq, Prod.mk.injEq] at heq
                obtain ⟨rfl, rfl, rfl, rfl, rfl⟩ := heq
                obtain ⟨hexts, hvs2, hvchild, hscr⟩ :=
                  ih s stB (k+1) _ lowChild prc s2c st3 k2c hs
                    (validPtr_low hs hi) hrecl
                refine ⟨extends_trans (getOrInsert_extends _ _) hexts,
                  @getOrInsert_validStore s2c
                    ⟨(s.getD i dfltNode).var, lowChild, .PtrFalse⟩ hvs2 hvchild
                    (by simp [ValidPtr, BddPtr.idxLt]),
                  getOrInsert_validPtr _ _, ?_⟩
                intro j hj
                by_cases h1 : st1 j = st j
                · by_cases h2 : stB j = st1 j
                  · have h3 : st3 j ≠ stB j := by rw [h2, h1]; exact hj
                    exact reachB_step_low (hscr j h3) (.Reg i) rfl
                  · exact reachB_step_high
                      (bottomupPassH_scratch fuel st1 _ highV stB hb2 j h2)
                      (.Reg i) rfl
                · exact reachB_step_low
                    (bottomupPassH_scratch fuel st _ lowV st1 hb1 j h1)
                    (.Reg i) rfl
            next hch =>
              split at heq
              · exact Option.noConfusion heq
              next highChild prc s2c st3 k2c hrech =>
                simp only [Option.some.injEq, Prod.mk.injEq] at heq
                obtain ⟨rfl, rfl, rfl, rfl, rfl⟩ := heq
                obtain ⟨hexts, hvs2, hvchild, hscr⟩ :=
                  ih s stB (k+1) _ highChild prc s2c st3 k2c hs
                    (validPtr_high hs hi) hrech
                refine ⟨extends_trans (getOrInsert_extends _ _) hexts,
                  @getOrInsert_validStore s2c
                    ⟨(s.getD i dfltNode).var, .PtrFalse, highChild⟩ hvs2
                    (by simp [ValidPtr, BddPtr.idxLt]) hvchild,
                  getOrInsert_validPtr _ _, ?_⟩
                intro j hj
                by_cases h1 : st1 j = st j
                · by_cases h2 : stB j = st1 j
                  · have h3 : st3 j ≠ stB j := by rw [h2, h1]; exact hj
                    exact reachB_step_high (hscr j h3) (.Reg i) rfl
                  · exact reachB_step_high
                      (bottomupPassH_scratch fuel st1 _ highV stB hb2 j h2)
                      (.Reg i) rfl
                · exact reachB_step_low
                    (bottomupPassH_scratch fuel st _ lowV st1 hb1 j h1)
                    (.Reg i) rfl
    | Compl i =>
      have hi : i < s.length := by simpa [ValidPtr, BddPtr.idxLt] using hv
      simp only [samplePath, BddPtr.isNeg, if_true] at heq
      split at heq
      · exact Option.noConfusion heq
      next lowV st1 hb1 =>
        split at heq
        · exact Option.noConfusion heq
        next highV stB hb2 =>
          split at heq
          · exact Option.noConfusion heq
          next w hw =>
            split at heq
            next hch =>
              split at heq
              · exact Option.noConfusion heq
              next lowChild prc s2c st3 k2c hrecl =>
                simp only [Option.some.injEq, Prod.mk.injEq] at heq
                obtain ⟨rfl, rfl, rfl, rfl, rfl⟩ := heq
                obtain ⟨hexts, hvs2, hvchild, hscr⟩ :=
                  ih s stB (k+1) _ lowChild prc s2c st3 k2c hs
                    (validPtr_neg (validPtr_low hs hi)) hrecl
                refine ⟨extends_trans (getOrInsert_extends _ _) hexts,
                  @getOrInsert_validStore s2c
                    ⟨(s.getD i dfltNode).var, lowChild, .PtrFalse⟩ hvs2 hvchild
                    (by simp [ValidPtr, BddPtr.idxLt]),
                  getOrInsert_validPtr _ _, ?_⟩
                intro j hj
                by_cases h1 : st1 j = st j
                · by_cases h2 : stB j = st1 j
                  · have h3 : st3 j ≠ stB j := by rw [h2, h1]; exact hj
                    have hr := hscr j h3
                    rw [reachB_neg] at hr
                    exact reachB_step_low hr (.Compl i) rfl
                  · have hr := bottomupPassH_scratch fuel st1 _ highV stB hb2 j h2
                    rw [reachB_neg] at hr
                    exact reachB_step_high hr (.Compl i) rfl
                · have hr := bottomupPassH_scratch fuel st _ lowV st1 hb1 j h1
                  rw [reachB_neg] at hr
                  exact reachB_step_low hr (.Compl i) rfl
            next hch =>
              split at heq
              · exact Option.noConfusion heq
              next highChild prc s2c st3 k2c hrech =>
                simp only [Option.some.injEq, Prod.mk.injEq] at heq
                obtain ⟨rfl, rfl, rfl, rfl, rfl⟩ := heq
                obtain ⟨hexts, hvs2, hvchild, hscr⟩ :=
                  ih s stB (k+1) _ highChild prc s2c st3 k2c hs
                    (validPtr_neg (validPtr_high hs hi)) hrech
                refine ⟨extends_trans (getOrInsert_extends _ _) hexts,
                  @getOrInsert_validStore s2c
                    ⟨(s.getD i dfltNode).var, .PtrFalse, highChild⟩ hvs2
                    (by simp [ValidPtr, BddPtr.idxLt]) hvchild,
                  getOrInsert_validPtr _ _, ?_⟩
                intro j hj
                by_cases h1 : st1 j = st j
                · by_cases h2 : stB j = st1 j
                  · have h3 : st3 j ≠ stB j := by rw [h2, h1]; exact hj
                    have hr := hscr j h3
                    rw [reachB_neg] at hr
                    exact reachB_step_high hr (.Compl i) rfl
                  · have hr := bottomupPassH_scratch fuel st1 _ highV stB hb2 j h2
                    rw [reachB_neg] at hr
                    exact reachB_step_high hr (.Compl i) rfl
                · have hr := bottomupPassH_scratch fuel st _ lowV st1 hb1 j h1
                  rw [reachB_neg] at hr
                  exact reachB_step_low hr (.Compl i) rfl


theorem condWithAlloc_scratch {ord : VarOrder} (hinj : OrdInj ord)
    (lbl : VarLabel) (value : Bool) :
    ∀ (fuel : Nat) (st : CondSt) (bdd r : BddPtr) (st2 : CondSt),
      ValidStore st.store → OrderedStore ord st.store →
      MemoOK ord lbl value st → ValidPtr st.store bdd →
      condWithAlloc ord fuel st bdd lbl value = some (r, st2) →
      ∀ j, st2.scratch j ≠ st.scratch j →
        reachB st.store fuel bdd j = true := by
  intro fuel
  induction fuel with
  | zero => intro st bdd r st2 _ _ _ _ heq; exact Option.noConfusion heq
  | succ fuel ih =>
    intro st bdd r st2 hs ho hm hvb heq j hj
    cases bdd with
    | PtrTrue =>
      simp only [condWithAlloc, Option.some.injEq, Prod.mk.injEq] at heq
      obtain ⟨rfl, rfl⟩ := heq
      exact absurd rfl hj
    | PtrFalse =>
      simp only [condWithAlloc, Option.some.injEq, Prod.mk.injEq] at heq
      obtain ⟨rfl, rfl⟩ := heq
      exact absurd rfl hj
    | Reg i =>
      have hi : i < st.store.length := by
        simpa [ValidPtr, BddPtr.idxLt] using hvb
      simp only [condWithAlloc] at heq
      split at heq
      next hlt =>
        simp only [Option.some.injEq, Prod.mk.injEq] at heq
        obtain ⟨-, rfl⟩ := heq
        exact absurd rfl hj
      next hnlt =>
        split at heq
        next hveq =>
          simp only [Option.some.injEq, Prod.mk.injEq] at heq
          obtain ⟨-, rfl⟩ := heq
          exact absurd rfl hj
        next hvne =>
          split at heq
          next v hscr =>
            simp only [Option.some.injEq, Prod.mk.injEq] at heq
            obtain ⟨-, rfl⟩ := heq
            exact absurd rfl hj
          next hscr =>
            split at heq
            · exact Option.noConfusion heq
            next cl stA hrec1 =>
              split at heq
              · exact Option.noConfusion heq
              next ch stB hrec2 =>
                obtain ⟨hextA, hvA, hoA, hmA, hvl, -, -⟩ :=
                  condWithAlloc_spec hinj lbl value fuel
                    ⟨st.store, st.scratch, st.alloc, st.steps + 1⟩ _ cl stA
                    hs ho hm (validPtr_low hs hi) hrec1
                split at heq
                next hlh =>
                  simp only [Option.some.injEq, Prod.mk.injEq] at heq
                  obtain ⟨-, rfl⟩ := heq
                  have hstB : stB.scratch j ≠ st.scratch j := hj
                  by_cases h1 : stA.scratch j = st.scratch j
                  · have h2 : stB.scratch j ≠ stA.scratch j := by
                      rw [h1]; exact hstB
                    have hr := ih stA _ ch stB hvA hoA hmA
                      (validPtr_mono hextA (validPtr_high hs hi)) hrec2 j h2
                    rw [reachB_extends hextA hs fuel _ j
                      (validPtr_high hs hi)] at hr
                    exact reachB_step_high hr (.Reg i) rfl
                  · have hr := ih ⟨st.store, st.scratch, st.alloc, st.steps + 1⟩
                      _ cl stA hs ho hm (validPtr_low hs hi) hrec1 j h1
                    exact reachB_step_low hr (.Reg i) rfl
                next hlh =>
                  simp only [Option.some.injEq, Prod.mk.injEq] at heq
                  obtain ⟨-, rfl⟩ := heq
                  by_cases hji : j = i
                  · subst hji; exact reachB_self fuel (.Reg j) rfl
                  · have hstB : stB.scratch j ≠ st.scratch j := by
                      simpa [hji] using hj
                    by_cases h1 : stA.scratch j = st.scratch j
                    · have h2 : stB.scratch j ≠ stA.scratch j := by
                        rw [h1]; exact hstB
                      have hr := ih stA _ ch stB hvA hoA hmA
                        (validPtr_mono hextA (validPtr_high hs hi)) hrec2 j h2
                      rw [reachB_extends hextA hs fuel _ j
                        (validPtr_high hs hi)] at hr
                      exact reachB_step_high hr (.Reg i) rfl
                    · have hr := ih ⟨st.store, st.scratch, st.alloc, st.steps + 1⟩
                        _ cl stA hs ho hm (validPtr_low hs hi) hrec1 j h1
                      exact reachB_step_low hr (.Reg i) rfl
    | Compl i =>
      have hi : i < st.store.length := by
        simpa [ValidPtr, BddPtr.idxLt] using hvb
      simp only [condWithAlloc] at heq
      split at heq
      next hlt =>
        simp only [Option.some.injEq, Prod.mk.injEq] at heq
        obtain ⟨-, rfl⟩ := heq
        exact absurd rfl hj
      next hnlt =>
        split at heq
        next hveq =>
          simp only [Option.some.injEq, Prod.mk.injEq] at heq
          obtain ⟨-, rfl⟩ := heq
          exact absurd rfl hj
        next hvne =>
          split at heq
          next v hscr =>
            simp only [Option.some.injEq, Prod.mk.injEq] at heq
            obtain ⟨-, rfl⟩ := heq
            exact absurd rfl hj
          next hscr =>
            split at heq
            · exact Option.noConfusion heq
            next cl stA hrec1 =>
              split at heq
              · exact Option.noConfusion heq
              next ch stB hrec2 =>
                obtain ⟨hextA, hvA, hoA, hmA, hvl, -, -⟩ :=
                  condWithAlloc_spec hinj lbl value fuel
                    ⟨st.store, st.scratch, st.alloc, st.steps + 1⟩ _ cl stA
                    hs ho hm (validPtr_low hs hi) hrec1
                split at heq
                next hlh =>
                  simp only [Option.some.injEq, Prod.mk.injEq] at heq
                  obtain ⟨-, rfl⟩ := heq
                  have hstB : stB.scratch j ≠ st.scratch j := hj
                  by_cases h1 : stA.scratch j = st.scratch j
                  · have h2 : stB.scratch j ≠ stA.scratch j := by
                      rw [h1]; exact hstB
                    have hr := ih stA _ ch stB hvA hoA hmA
                      (validPtr_mono hextA (validPtr_high hs hi)) hrec2 j h2
                    rw [reachB_extends hextA hs fuel _ j
                      (validPtr_high hs hi)] at hr
                    exact reachB_step_high hr (.Compl i) rfl
                  · have hr := ih ⟨st.store, st.scratch, st.alloc, st.steps + 1⟩
                      _ cl stA hs ho hm (validPtr_low hs hi) hrec1 j h1
                    exact reachB_step_low hr (.Compl i) rfl
                next hlh =>
                  simp only [Option.some.injEq, Prod.mk.injEq] at heq
                  obtain ⟨-, rfl⟩ := heq
                  by_cases hji : j = i
                  · subst hji; exact reachB_self fuel (.Compl j) rfl
                  · have hstB : stB.scratch j ≠ st.scratch j := by
                      simpa [hji] using hj
                    by_cases h1 : stA.scratch j = st.scratch j
                    · have h2 : stB.scratch j ≠ stA.scratch j := by
                        rw [h1]; exact hstB
                      have hr := ih stA _ ch stB hvA hoA hmA
                        (validPtr_mono hextA (validPtr_high hs hi)) hrec2 j h2
                      rw [reachB_extends hextA hs fuel _ j
                        (validPtr_high hs hi)] at hr
                      exact reachB_step_high hr (.Compl i) rfl
                    · have hr := ih ⟨st.store, st.scratch, st.alloc, st.steps + 1⟩
                        _ cl stA hs ho hm (validPtr_low hs hi) hrec1 j h1
                      exact reachB_step_low hr (.Compl i) rfl

/-- An environment is consistent with a path's decisions when it assigns
every decided variable its decided polarity. -/
def consistentB (env : Env) (decs : List (VarLabel × Bool)) : Bool :=
  decs.all (fun vd => env vd.1 == vd.2)

theorem any_low_transfer {env : Env} {paths : List Path}
    {nextVar : VarLabel} (henv : env nextVar = false)
    (h : ((paths.filter (lowSel nextVar)).map (lowTransform nextVar)).any
      (fun q => consistentB env q.2) = true) :
    paths.any (fun q => consistentB env q.2) = true := by
  rw [List.any_eq_true] at h ⊢
  obtain ⟨q1, hmem, hcons⟩ := h
  obtain ⟨q0, hq0mem, rfl⟩ := List.mem_map.mp hmem
  obtain ⟨hq0, hsel⟩ := List.mem_filter.mp hq0mem
  refine ⟨q0, hq0, ?_⟩
  cases hd : q0.2 with
  | nil => simp [consistentB]
  | cons vd rest =>
    have htr : lowTransform nextVar q0 =
        if vd.1 = nextVar then (q0.1, rest) else q0 := by
      unfold lowTransform; rw [hd]
    rw [htr] at hcons
    by_cases hvv : vd.1 = nextVar
    · rw [if_pos hvv] at hcons
      have hdfalse : vd.2 = false := by
        have hsel2 := hsel
        unfold lowSel at hsel2
        rw [hd] at hsel2
        simp only [List.head?_cons, Bool.or_eq_true,
          decide_eq_true_eq] at hsel2
        rcases hsel2 with h2 | h2
        · exact absurd hvv h2
        · simpa using h2
      simp only [consistentB, hd, List.all_cons, Bool.and_eq_true,
        beq_iff_eq]
      exact ⟨by rw [hvv, henv, hdfalse], hcons⟩
    · rw [if_neg hvv] at hcons
      exact hd ▸ hcons

theorem any_high_transfer {env : Env} {paths : List Path}
    {nextVar : VarLabel} (henv : env nextVar = true)
    (h : ((paths.filter (fun q => ! lowSel nextVar q)).map
      (fun q => (q.1, q.2.tail))).any
        (fun q => consistentB env q.2) = true) :
    paths.any (fun q => consistentB env q.2) = true := by
  rw [List.any_eq_true] at h ⊢
  obtain ⟨q1, hmem, hcons⟩ := h
  obtain ⟨q0, hq0mem, rfl⟩ := List.mem_map.mp hmem
  obtain ⟨hq0, hsel⟩ := List.mem_filter.mp hq0mem
  refine ⟨q0, hq0, ?_⟩
  have hsel2 : lowSel nextVar q0 = false := by
    simpa using hsel
  cases hd : q0.2 with
  | nil =>
    exfalso
    unfold lowSel at hsel2
    rw [hd] at hsel2
    simp at hsel2
  | cons vd rest =>
    have hvt : vd.1 = nextVar ∧ vd.2 = true := by
      unfold lowSel at hsel2
      rw [hd] at hsel2
      simp only [List.head?_cons, Bool.or_eq_false_iff,
        decide_eq_false_iff_not, Bool.not_eq_false, not_not] at hsel2
      exact ⟨not_not.mp (fun hne => by simp [hne] at hsel2), by
        simpa using hsel2.2⟩
    rw [hd] at hcons
    simp only [List.tail_cons] at hcons
    simp only [consistentB, hd, List.all_cons, Bool.and_eq_true, beq_iff_eq]
    exact ⟨by rw [hvt.1, henv, hvt.2], hcons⟩

theorem constructTopK_sound {ord : VarOrder} :
    ∀ (fuel : Nat) (s : Store) (paths : List Path) (r : BddPtr) (s2 : Store),
      ValidStore s →
      constructTopK ord fuel s paths = some (r, s2) →
      Extends s2 s ∧ ValidStore s2 ∧ ValidPtr s2 r ∧
      ∀ env, evalPtr s2 r env = true →
        paths.any (fun q => consistentB env q.2) = true := by
  intro fuel
  induction fuel with
  | zero => intro s paths r s2 _ heq; exact Option.noConfusion heq
  | succ fuel ih =>
    intro s paths r s2 hs heq
    by_cases hnil : paths = []
    · subst hnil
      simp only [constructTopK, if_true, Option.some.injEq,
        Prod.mk.injEq] at heq
      obtain ⟨rfl, rfl⟩ := heq
      refine ⟨extends_refl _, hs, by simp [ValidPtr, BddPtr.idxLt], ?_⟩
      intro env hev
      rw [evalPtr_false] at hev
      exact absurd hev (by simp)
    · simp only [constructTopK, hnil, if_false] at heq
      by_cases hall : paths.all (fun q => q.2.isEmpty) = true
      · rw [if_pos hall] at heq
        simp only [Option.some.injEq, Prod.mk.injEq] at heq
        obtain ⟨rfl, rfl⟩ := heq
        refine ⟨extends_refl _, hs, by simp [ValidPtr, BddPtr.idxLt], ?_⟩
        intro env _
        cases paths with
        | nil => exact absurd rfl hnil
        | cons q rest =>
          have hq2 : q.2 = [] := by
            have h2 := hall
            simp only [List.all_cons, Bool.and_eq_true] at h2
            simpa [List.isEmpty_iff] using h2.1
          simp [consistentB, hq2]
      · rw [if_neg hall] at heq
        split at heq
        · exact Option.noConfusion heq
        next nextVar hmin =>
          split at heq
          · exact Option.noConfusion heq
          next low s1 hrecl =>
            split at heq
            · exact Option.noConfusion heq
            next high s2c hrech =>
              obtain ⟨hextL, hvsL, hvL, hsoundL⟩ := ih s _ low s1 hs hrecl
              obtain ⟨hextH, hvsH, hvH, hsoundH⟩ := ih s1 _ high s2c hvsL hrech
              by_cases hlh : low = high
              · rw [if_pos hlh] at heq
                simp only [Option.some.injEq, Prod.mk.injEq] at heq
                obtain ⟨rfl, rfl⟩ := heq
                refine ⟨extends_trans hextH hextL, hvsH,
                  validPtr_mono hextH hvL, ?_⟩
                intro env hev
                cases henv : env nextVar
                · refine any_low_transfer henv (hsoundL env ?_)
                  rw [← evalPtr_extends hextH hvsL hvL]
                  exact hev
                · refine any_high_transfer henv (hsoundH env ?_)
                  rw [← hlh]
                  exact hev
              · rw [if_neg hlh] at heq
                have hr1 : (getOrInsert s2c ⟨nextVar, low, high⟩).1 = r :=
                  congrArg Prod.fst (Option.some.inj heq)
                have hr2 : (getOrInsert s2c ⟨nextVar, low, high⟩).2 = s2 :=
                  congrArg Prod.snd (Option.some.inj heq)
                subst hr1 hr2
                refine ⟨extends_trans (getOrInsert_extends _ _)
                  (extends_trans hextH hextL),
                  @getOrInsert_validStore s2c ⟨nextVar, low, high⟩ hvsH
                    (validPtr_mono hextH hvL) hvH,
                  getOrInsert_validPtr _ _, ?_⟩
                intro env hev
                rw [@getOrInsert_eval s2c ⟨nextVar, low, high⟩ hvsH
                  (validPtr_mono hextH hvL) hvH env] at hev
                cases henv : env nextVar
                · rw [henv] at hev
                  simp only [Bool.false_eq_true, if_false] at hev
                  refine any_low_transfer henv (hsoundL env ?_)
                  rw [← evalPtr_extends hextH hvsL hvL]
                  exact hev
                · rw [henv] at hev
                  simp only [if_true] at hev
                  exact any_high_transfer henv (hsoundH env hev)


/-- Modelled from the spec (§4.5): the public `condition` operation (its
trait-level wrapper is not part of the vendored sources) runs
`cond_with_alloc` and clears the local memo — the scratch slots reachable
from the input pointer — before returning. -/
def condition (ord : VarOrder) (fuel : Nat) (st : CondSt) (bdd : BddPtr)
    (lbl : VarLabel) (value : Bool) : Option (BddPtr × CondSt) :=
  match condWithAlloc ord fuel st bdd lbl value with
  | none => none
  | some (r, st2) =>
    some (r, ⟨st2.store, clearScratch st2.store bdd st2.scratch, st2.alloc,
      st2.steps⟩)

theorem clearScratch_all_none {β : Type} {s s2 : Store} {p : BddPtr}
    {st st2 : Nat → Option β} (hs : ValidStore s) (hext : Extends s2 s)
    (hs2 : ValidStore s2) (hv : ValidPtr s p)
    (hempty : ∀ j, st j = none)
    (hpop : ∀ j, st2 j ≠ st j → ∃ f, reachB s f p j = true) :
    ∀ j, clearScratch s2 p st2 j = none := by
  intro j
  simp only [clearScratch]
  by_cases hr : reachB s2 (s2.length + 1) p j = true
  · rw [if_pos hr]
  · rw [if_neg hr]
    by_cases hch : st2 j = st j
    · rw [hch]; exact hempty j
    · obtain ⟨f, hf⟩ := hpop j hch
      exfalso
      cases p with
      | PtrTrue =>
        exact absurd hf (by cases f <;> simp [reachB, BddPtr.idx?])
      | PtrFalse =>
        exact absurd hf (by cases f <;> simp [reachB, BddPtr.idx?])
      | Reg i =>
        have hi : i < s.length := by simpa [ValidPtr, BddPtr.idxLt] using hv
        rw [← reachB_extends hext hs f _ j hv] at hf
        refine hr (reachB_saturate hs2 f (.Reg i) j rfl
          (Nat.lt_of_lt_of_le hi (extends_length hext)) hf _ ?_)
        have := extends_length hext
        omega
      | Compl i =>
        have hi : i < s.length := by simpa [ValidPtr, BddPtr.idxLt] using hv
        rw [← reachB_extends hext hs f _ j hv] at hf
        refine hr (reachB_saturate hs2 f (.Compl i) j rfl
          (Nat.lt_of_lt_of_le hi (extends_length hext)) hf _ ?_)
        have := extends_length hext
        omega

/-- C8: each scratch-populating public operation — `weighted_sample`,
`condition` and `top_k_paths` — clears every scratch slot it populated
before returning: starting from all-null scratch, the scratch state it
hands back is again all-null. -/
theorem claim8_scratch_cleared {ord : VarOrder} (hinj : OrdInj ord)
    (wmc : WmcParams ℚ) (choices : Nat → Bool) (k fuel : Nat)
    (lbl : VarLabel) (value : Bool) :
    (∀ (s : Store) (st : SState) (p r : BddPtr) (pr : ℚ) (s2 : Store)
      (st3 : SState), ValidStore s → ValidPtr s p → (∀ j, st j = none) →
      weightedSample wmc choices fuel s st p = some ((r, pr), s2, st3) →
      ∀ j, st3 j = none) ∧
    (∀ (st : CondSt) (bdd r : BddPtr) (st2 : CondSt),
      ValidStore st.store → OrderedStore ord st.store →
      ValidPtr st.store bdd → (∀ j, st.scratch j = none) →
      condition ord fuel st bdd lbl value = some (r, st2) →
      ∀ j, st2.scratch j = none) ∧
    (∀ (s : Store) (st : TState) (p r : BddPtr) (s2 : Store) (st3 : TState),
      ValidStore s → ValidPtr s p → (∀ j, st j = none) →
      topKPaths ord wmc k fuel s st p = some (r, s2, st3) →
      ∀ j, st3 j = none) := by
  refine ⟨?_, ?_, ?_⟩
  · intro s st p r pr s2 st3 hs hv hempty heq
    unfold weightedSample at heq
    split at heq
    · exact Option.noConfusion heq
    next r0 pr0 s20 st20 k20 hsp =>
      simp only [Option.some.injEq, Prod.mk.injEq] at heq
      obtain ⟨⟨rfl, rfl⟩, rfl, rfl⟩ := heq
      obtain ⟨hext, hs2, _, hpop⟩ :=
        samplePath_scratch fuel s st 0 p r0 pr0 s20 st20 k20 hs hv hsp
      exact clearScratch_all_none hs hext hs2 hv hempty
        (fun j hj => ⟨fuel, hpop j hj⟩)
  · intro st bdd r st2 hs ho hv hempty heq
    unfold condition at heq
    split at heq
    · exact Option.noConfusion heq
    next r0 st20 hcw =>
      simp only [Option.some.injEq, Prod.mk.injEq] at heq
      obtain ⟨rfl, rfl⟩ := heq
      obtain ⟨hext, hs2, -, -, -, -, -⟩ :=
        condWithAlloc_spec hinj lbl value fuel st bdd r0 st20 hs ho
          (memoOK_empty hempty) hv hcw
      have hpop := condWithAlloc_scratch hinj lbl value fuel st bdd r0 st20
        hs ho (memoOK_empty hempty) hv hcw
      exact clearScratch_all_none hs hext hs2 hv hempty
        (fun j hj => ⟨fuel, hpop j hj⟩)
  · intro s st p r s2 st3 hs hv hempty heq
    unfold topKPaths at heq
    split at heq
    · exact Option.noConfusion heq
    next paths st1 hbu =>
      split at heq
      · exact Option.noConfusion heq
      next r0 s20 hct =>
        simp only [Option.some.injEq, Prod.mk.injEq] at heq
        obtain ⟨rfl, rfl, rfl⟩ := heq
        obtain ⟨hext, hs2, -, -⟩ := constructTopK_sound fuel s paths r0 s20
          hs hct
        exact clearScratch_all_none hs hext hs2 hv hempty
          (fun j hj => ⟨fuel, bottomUpTopK_scratch fuel st p paths st1 hbu
            j hj⟩)


/-- Witness for C8: a concrete `condition` call on a two-node store returns
with the scratch memo cleared. -/
theorem claim8_witness :
    condition linearOrder 3 c4St (.Reg 1) 0 true =
      some (.Reg 1, ⟨c4Stb.store,
        clearScratch c4Stb.store (.Reg 1) c4Stb.scratch, c4Stb.alloc,
        c4Stb.steps⟩) ∧
    clearScratch c4Stb.store (.Reg 1) c4Stb.scratch 0 = none ∧
    clearScratch c4Stb.store (.Reg 1) c4Stb.scratch 1 = none := by
  have hrun : condition linearOrder 3 c4St (.Reg 1) 0 true =
      some (.Reg 1, ⟨c4Stb.store,
        clearScratch c4Stb.store (.Reg 1) c4Stb.scratch, c4Stb.alloc,
        c4Stb.steps⟩) := rfl
  have h := (@claim8_scratch_cleared linearOrder (fun a b h => h)
      ⟨0, 1, []⟩ (fun _ => false) 0 3 0 true).2.1
      c4St (.Reg 1) (.Reg 1)
      ⟨c4Stb.store, clearScratch c4Stb.store (.Reg 1) c4Stb.scratch,
        c4Stb.alloc, c4Stb.steps⟩
      (by decide) (by decide) (by decide) (fun j => rfl) hrun
  exact ⟨hrun, h 0, h 1⟩


/-- `WmcParams::get_weight` (wmc.rs lines 48-58): product of the chosen
branch weight of every literal, panicking (`none`) on an unweighted label. -/
def getWeight {α : Type} [Mul α] (P : WmcParams α) :
    List (VarLabel × Bool) → α → Option α
  | [], prod => some prod
  | lit :: rest, prod =>
    match P.varToVal.get? lit.1 with
    | none => none
    | some none => none
    | some (some w) =>
      getWeight P rest (prod * (if lit.2 then w.2 else w.1))

/-- Non-increasing weights along the list. -/
def sortedDescB : List Path → Bool
  | [] => true
  | [_] => true
  | p :: q :: rest => decide (q.1 ≤ p.1) && sortedDescB (q :: rest)

theorem sortedDescB_tail {p : Path} {l : List Path}
    (h : sortedDescB (p :: l) = true) : sortedDescB l = true := by
  cases l with
  | nil => rfl
  | cons q rest =>
    simp only [sortedDescB, Bool.and_eq_true] at h
    exact h.2

theorem insertDesc_sorted (p : Path) :
    ∀ l, sortedDescB l = true →
      sortedDescB (insertDesc p l) = true ∧
      ∀ x, (insertDesc p l).head? = some x → x = p ∨ l.head? = some x := by
  intro l
  induction l with
  | nil =>
    intro _
    exact ⟨rfl, fun x hx => Or.inl (Option.some.inj hx).symm⟩
  | cons q rest ih =>
    intro h
    by_cases hqp : q.1 < p.1
    · rw [show insertDesc p (q :: rest) = p :: q :: rest by
        simp only [insertDesc]; rw [if_pos hqp]]
      refine ⟨?_, fun x hx => Or.inl (Option.some.inj hx).symm⟩
      simp only [sortedDescB, Bool.and_eq_true, decide_eq_true_eq]
      exact ⟨le_of_lt hqp, h⟩
    · rw [show insertDesc p (q :: rest) = q :: insertDesc p rest by
        simp only [insertDesc]; rw [if_neg hqp]]
      obtain ⟨hsorted, hhead⟩ := ih (sortedDescB_tail h)
      constructor
      · cases hres : insertDesc p rest with
        | nil => rfl
        | cons x tl =>
          rw [hres] at hsorted
          simp only [sortedDescB, Bool.and_eq_true, decide_eq_true_eq]
          refine ⟨?_, hsorted⟩
          rcases hhead x (by rw [hres]; rfl) with rfl | hx
          · exact le_of_not_lt hqp
          · cases rest with
            | nil => exact absurd hx (by simp)
            | cons y tl2 =>
              obtain rfl : y = x := by simpa using hx
              simp only [sortedDescB, Bool.and_eq_true,
                decide_eq_true_eq] at h
              exact h.1
      · intro x hx
        exact Or.inr (by simpa using hx)

theorem foldl_insertDesc_sorted :
    ∀ (l : List Path) (acc : List Path), sortedDescB acc = true →
      sortedDescB (l.foldl (fun a p => insertDesc p a) acc) = true := by
  intro l
  induction l with
  | nil => intro acc h; exact h
  | cons p rest ih =>
    intro acc h
    exact ih (insertDesc p acc) ((insertDesc_sorted p acc h).1)

theorem sortDesc_sorted (l : List Path) : sortedDescB (sortDesc l) = true :=
  foldl_insertDesc_sorted l [] rfl

theorem sortedDescB_take :
    ∀ (l : List Path) (k : Nat), sortedDescB l = true →
      sortedDescB (l.take k) = true := by
  intro l
  induction l with
  | nil => intro k _; simp [sortedDescB]
  | cons p rest ih =>
    intro k h
    cases k with
    | zero => rfl
    | succ k =>
      simp only [List.take_succ_cons]
      cases rest with
      | nil => simp [sortedDescB]
      | cons q rest2 =>
        cases k with
        | zero => simp [sortedDescB]
        | succ k2 =>
          simp only [List.take_succ_cons, sortedDescB, Bool.and_eq_true,
            decide_eq_true_eq]
          simp only [sortedDescB, Bool.and_eq_true,
            decide_eq_true_eq] at h
          refine ⟨h.1, ?_⟩
          have := ih (k2 + 1) h.2
          simpa [List.take_succ_cons] using this

/-- Invariant of the top-k scratch: every cached list obeys the length
bound and sortedness. -/
def TStateOK (k : Nat) (st : TState) : Prop :=
  ∀ i pr, st i = some pr →
    (∀ L, pr.1 = some L → L.length ≤ max k 1 ∧ sortedDescB L = true) ∧
    (∀ L, pr.2 = some L → L.length ≤ max k 1 ∧ sortedDescB L = true)

theorem tStateOK_empty {k : Nat} {st : TState} (h : ∀ i, st i = none) :
    TStateOK k st := by
  intro i pr hpr
  rw [h i] at hpr
  exact Option.noConfusion hpr


theorem tStateOK_update {k : Nat} {st : TState} (hOK : TStateOK k st)
    (i : Nat) (pr : Option (List Path) × Option (List Path))
    (h1 : ∀ L, pr.1 = some L → L.length ≤ max k 1 ∧ sortedDescB L = true)
    (h2 : ∀ L, pr.2 = some L → L.length ≤ max k 1 ∧ sortedDescB L = true) :
    TStateOK k (fun j => if j = i then some pr else st j) := by
  intro i0 pr0 hpr0
  simp only at hpr0
  by_cases hji : i0 = i
  · rw [if_pos hji] at hpr0
    obtain rfl := Option.some.inj hpr0
    exact ⟨h1, h2⟩
  · rw [if_neg hji] at hpr0
    exact hOK i0 pr0 hpr0

theorem bottomUpTopK_props {wmc : WmcParams ℚ} {s : Store} {k : Nat} :
    ∀ (fuel : Nat) (st : TState) (p : BddPtr) (res : List Path)
      (st2 : TState), TStateOK k st →
      bottomUpTopK wmc s k fuel st p = some (res, st2) →
      (res.length ≤ max k 1 ∧ sortedDescB res = true) ∧ TStateOK k st2 := by
  intro fuel
  induction fuel with
  | zero => intro st p res st2 _ heq; exact Option.noConfusion heq
  | succ fuel ih =>
    intro st p res st2 hOK heq
    cases p with
    | PtrTrue =>
      simp only [bottomUpTopK, Option.some.injEq, Prod.mk.injEq] at heq
      obtain ⟨rfl, rfl⟩ := heq
      exact ⟨⟨by simpa using Nat.le_max_right k 1, rfl⟩, hOK⟩
    | PtrFalse =>
      simp only [bottomUpTopK, Option.some.injEq, Prod.mk.injEq] at heq
      obtain ⟨rfl, rfl⟩ := heq
      exact ⟨⟨by simp, rfl⟩, hOK⟩
    | Reg i =>
      simp only [bottomUpTopK, BddPtr.isNeg, Bool.false_eq_true,
        if_false] at heq
      split at heq
      next lv hv0 hsti =>
        simp only [Option.some.injEq, Prod.mk.injEq] at heq
        obtain ⟨rfl, rfl⟩ := heq
        exact ⟨(hOK i _ hsti).2 _ rfl, hOK⟩
      next v0 hsti =>
        split at heq
        · exact Option.noConfusion heq
        next lowPaths st1 hrec1 =>
          split at heq
          · exact Option.noConfusion heq
          next highPaths stB hrec2 =>
            split at heq
            · exact Option.noConfusion heq
            next w hw =>
              simp only [Option.some.injEq, Prod.mk.injEq] at heq
              obtain ⟨rfl, rfl⟩ := heq
              obtain ⟨-, hOK1⟩ := ih st _ lowPaths st1 hOK hrec1
              obtain ⟨-, hOK2⟩ := ih st1 _ highPaths stB hOK1 hrec2
              refine ⟨⟨?_, ?_⟩, ?_⟩
              · exact le_trans (List.length_take_le _ _) (le_max_left _ _)
              · exact sortedDescB_take _ _ (sortDesc_sorted _)
              · refine tStateOK_update hOK2 i _ ?_ ?_
                · exact (hOK i _ hsti).1
                · intro L hL
                  obtain rfl := Option.some.inj hL
                  exact ⟨le_trans (List.length_take_le _ _) (le_max_left _ _),
                    sortedDescB_take _ _ (sortDesc_sorted _)⟩
      next v0 hsti =>
        simp only [Option.some.injEq, Prod.mk.injEq] at heq
        obtain ⟨rfl, rfl⟩ := heq
        exact ⟨(hOK i _ hsti).2 _ rfl, hOK⟩
      next hsti =>
        split at heq
        · exact Option.noConfusion heq
        next lowPaths st1 hrec1 =>
          split at heq
          · exact Option.noConfusion heq
          next highPaths stB hrec2 =>
            split at heq
            · exact Option.noConfusion heq
            next w hw =>
              simp only [Option.some.injEq, Prod.mk.injEq] at heq
              obtain ⟨rfl, rfl⟩ := heq
              obtain ⟨-, hOK1⟩ := ih st _ lowPaths st1 hOK hrec1
              obtain ⟨-, hOK2⟩ := ih st1 _ highPaths stB hOK1 hrec2
              refine ⟨⟨?_, ?_⟩, ?_⟩
              · exact le_trans (List.length_take_le _ _) (le_max_left _ _)
              · exact sortedDescB_take _ _ (sortDesc_sorted _)
              · refine tStateOK_update hOK2 i _ ?_ ?_
                · intro L hL
                  exact Option.noConfusion hL
                · intro L hL
                  obtain rfl := Option.some.inj hL
                  exact ⟨le_trans (List.length_take_le _ _) (le_max_left _ _),
                    sortedDescB_take _ _ (sortDesc_sorted _)⟩
      next hsti =>
        split at heq
        · exact Option.noConfusion heq
        next lowPaths st1 hrec1 =>
          split at heq
          · exact Option.noConfusion heq
          next highPaths stB hrec2 =>
            split at heq
            · exact Option.noConfusion heq
            next w hw =>
              simp only [Option.some.injEq, Prod.mk.injEq] at heq
              obtain ⟨rfl, rfl⟩ := heq
              obtain ⟨-, hOK1⟩ := ih st _ lowPaths st1 hOK hrec1
              obtain ⟨-, hOK2⟩ := ih st1 _ highPaths stB hOK1 hrec2
              refine ⟨⟨?_, ?_⟩, ?_⟩
              · exact le_trans (List.length_take_le _ _) (le_max_left _ _)
              · exact sortedDescB_take _ _ (sortDesc_sorted _)
              · refine tStateOK_update hOK2 i _ ?_ ?_
                · intro L hL
                  exact Option.noConfusion hL
                · intro L hL
                  obtain rfl := Option.some.inj hL
                  exact ⟨le_trans (List.length_take_le _ _) (le_max_left _ _),
                    sortedDescB_take _ _ (sortDesc_sorted _)⟩
    | Compl i =>
      simp only [bottomUpTopK, BddPtr.isNeg, if_true] at heq
      split at heq
      next lv hv0 hsti =>
        simp only [Option.some.injEq, Prod.mk.injEq] at heq
        obtain ⟨rfl, rfl⟩ := heq
        exact ⟨(hOK i _ hsti).1 _ rfl, hOK⟩
      next v0 hsti =>
        simp only [Option.some.injEq, Prod.mk.injEq] at heq
        obtain ⟨rfl, rfl⟩ := heq
        exact ⟨(hOK i _ hsti).1 _ rfl, hOK⟩
      next v0 hsti =>
        split at heq
        · exact Option.noConfusion heq
        next lowPaths st1 hrec1 =>
          split at heq
          · exact Option.noConfusion heq
          next highPaths stB hrec2 =>
            split at heq
            · exact Option.noConfusion heq
            next w hw =>
              simp only [Option.some.injEq, Prod.mk.injEq] at heq
              obtain ⟨rfl, rfl⟩ := heq
              obtain ⟨-, hOK1⟩ := ih st _ lowPaths st1 hOK hrec1
              obtain ⟨-, hOK2⟩ := ih st1 _ highPaths stB hOK1 hrec2
              refine ⟨⟨?_, ?_⟩, ?_⟩
              · exact le_trans (List.length_take_le _ _) (le_max_left _ _)
              · exact sortedDescB_take _ _ (sortDesc_sorted _)
              · refine tStateOK_update hOK2 i _ ?_ ?_
                · intro L hL
                  obtain rfl := Option.some.inj hL
                  exact ⟨le_trans (List.length_take_le _ _) (le_max_left _ _),
                    sortedDescB_take _ _ (sortDesc_sorted _)⟩
                · exact (hOK i _ hsti).2
      next hsti =>
        split at heq
        · exact Option.noConfusion heq
        next lowPaths st1 hrec1 =>
          split at heq
          · exact Option.noConfusion heq
          next highPaths stB hrec2 =>
            split at heq
            · exact Option.noConfusion heq
            next w hw =>
              simp only [Option.some.injEq, Prod.mk.injEq] at heq
              obtain ⟨rfl, rfl⟩ := heq
              obtain ⟨-, hOK1⟩ := ih st _ lowPaths st1 hOK hrec1
              obtain ⟨-, hOK2⟩ := ih st1 _ highPaths stB hOK1 hrec2
              refine ⟨⟨?_, ?_⟩, ?_⟩
              · exact le_trans (List.length_take_le _ _) (le_max_left _ _)
              · exact sortedDescB_take _ _ (sortDesc_sorted _)
              · refine tStateOK_update hOK2 i _ ?_ ?_
                · intro L hL
                  obtain rfl := Option.some.inj hL
                  exact ⟨le_trans (List.length_take_le _ _) (le_max_left _ _),
                    sortedDescB_take _ _ (sortDesc_sorted _)⟩
                · intro L hL
                  exact Option.noConfusion hL
      next hsti =>
        split at heq
        · exact Option.noConfusion heq
        next lowPaths st1 hrec1 =>
          split at heq
          · exact Option.noConfusion heq
          next highPaths stB hrec2 =>
            split at heq
            · exact Option.noConfusion heq
            next w hw =>
              simp only [Option.some.injEq, Prod.mk.injEq] at heq
              obtain ⟨rfl, rfl⟩ := heq
              obtain ⟨-, hOK1⟩ := ih st _ lowPaths st1 hOK hrec1
              obtain ⟨-, hOK2⟩ := ih st1 _ highPaths stB hOK1 hrec2
              refine ⟨⟨?_, ?_⟩, ?_⟩
              · exact le_trans (List.length_take_le _ _) (le_max_left _ _)
              · exact sortedDescB_take _ _ (sortDesc_sorted _)
              · refine tStateOK_update hOK2 i _ ?_ ?_
                · intro L hL
                  obtain rfl := Option.some.inj hL
                  exact ⟨le_trans (List.length_take_le _ _) (le_max_left _ _),
                    sortedDescB_take _ _ (sortDesc_sorted _)⟩
                · intro L hL
                  exact Option.noConfusion hL

/-- C7 (amended): `top_k_paths` selects top-k weighted PATHS, not
assignments.  The bottom-up pass produces a path list sorted by
non-increasing weight and truncated to `k`, the public function returns the
reconstruction of that list with the scratch cleared, and the returned BDD
only accepts assignments consistent with one of the retained root-to-true
paths.  A path's weight is the product of the branch weights it mentions,
so the accepted cylinders in general differ from the `k` highest-weighted
full satisfying assignments (see the counterexample). -/
theorem claim7_top_k_paths {ord : VarOrder} (wmc : WmcParams ℚ)
    (k fuel : Nat) (s : Store) (st : TState) (p : BddPtr)
    (paths : List Path) (st1 : TState) (r : BddPtr) (s2 : Store)
    (hs : ValidStore s) (hOK : TStateOK k st)
    (hbu : bottomUpTopK wmc s k fuel st p = some (paths, st1))
    (hct : constructTopK ord fuel s paths = some (r, s2)) :
    topKPaths ord wmc k fuel s st p =
      some (r, s2, clearScratch s2 p st1) ∧
    paths.length ≤ max k 1 ∧ sortedDescB paths = true ∧
    Extends s2 s ∧ ValidStore s2 ∧ ValidPtr s2 r ∧
    ∀ env, evalPtr s2 r env = true →
      paths.any (fun q => consistentB env q.2) = true := by
  obtain ⟨⟨hlen, hsort⟩, -⟩ :=
    bottomUpTopK_props fuel st p paths st1 hOK hbu
  obtain ⟨hext, hs2, hvr, hsound⟩ :=
    constructTopK_sound fuel s paths r s2 hs hct
  refine ⟨?_, hlen, hsort, hext, hs2, hvr, hsound⟩
  simp only [topKPaths, hbu, hct]

def c7S : Store := [⟨1, .PtrFalse, .PtrTrue⟩, ⟨0, .Reg 0, .PtrTrue⟩]

def c7W : WmcParams ℚ := ⟨0, 1, [some (1, 9/10), some (1/2, 1/2)]⟩

def c7S2 : Store := c7S ++ [⟨0, .PtrFalse, .PtrTrue⟩]

def c7St1 : TState := fun j =>
  if j = 1 then some (none, some [((9 : ℚ)/10, [(0, true)])])
  else if j = 0 then some (none, some [((1 : ℚ)/2, [(1, true)])])
  else none

/-- Witness for C7: the top-1 run over the BDD of `v0 or v1` keeps the
single path `v0 = true` of weight 9/10, sorted and truncated, and the
accepting all-true assignment is consistent with it. -/
theorem claim7_witness :
    topKPaths linearOrder c7W 1 9 c7S (fun _ => none) (.Reg 1) =
      some (.Reg 2, c7S2, clearScratch c7S2 (.Reg 1) c7St1) ∧
    sortedDescB [((9 : ℚ)/10, [(0, true)])] = true ∧
    (evalPtr c7S2 (.Reg 2) (fun _ => true) = true →
      ([((9 : ℚ)/10, [(0, true)])].any
        (fun q => consistentB (fun _ => true) q.2)) = true) := by
  have h := @claim7_top_k_paths linearOrder c7W 1 9 c7S (fun _ => none)
    (.Reg 1) [((9 : ℚ)/10, [(0, true)])] c7St1 (.Reg 2) c7S2
    (by decide) (tStateOK_empty (fun i => rfl))
    (by with_unfolding_all rfl) (by with_unfolding_all rfl)
  exact ⟨h.1, h.2.2.1, fun hev => h.2.2.2.2.2.2 (fun _ => true) hev⟩

/-- C7 counterexample: over `v0 or v1` with weights
`(low, high) = (1, 9/10)` for `v0` and `(1/2, 1/2)` for `v1` and `k = 1`,
the returned BDD rejects the satisfying assignment `v0 = F, v1 = T` of
assignment weight 1/2 while accepting `v0 = T, v1 = T` of strictly smaller
assignment weight 9/20 — so it does not accept exactly the union of the
`k` highest-weighted satisfying assignments. -/
theorem claim7_counterexample :
    (topKPaths linearOrder c7W 1 9 c7S (fun _ => none) (.Reg 1)).map
      (fun x => (x.1, x.2.1)) = some (.Reg 2, c7S2) ∧
    evalPtr c7S (.Reg 1) (fun v => decide (v = 1)) = true ∧
    evalPtr c7S (.Reg 1) (fun _ => true) = true ∧
    getWeight c7W [(0, false), (1, true)] c7W.one = some (1/2) ∧
    getWeight c7W [(0, true), (1, true)] c7W.one = some (9/20) ∧
    ((9 : ℚ)/20) < 1/2 ∧
    evalPtr c7S2 (.Reg 2) (fun v => decide (v = 1)) = false ∧
    evalPtr c7S2 (.Reg 2) (fun _ => true) = true := by
  refine ⟨by with_unfolding_all rfl, ?_, ?_, by with_unfolding_all rfl,
    by with_unfolding_all rfl, by norm_num, ?_, ?_⟩
  · simp [evalPtr, evalTag, evalIdx, c7S, get?_eq_getD, List.getD]
  · simp [evalPtr, evalTag, evalIdx, c7S, get?_eq_getD, List.getD]
  · simp [evalPtr, evalTag, evalIdx, c7S2, c7S, get?_eq_getD, List.getD]
  · simp [evalPtr, evalTag, evalIdx, c7S2, c7S, get?_eq_getD, List.getD]


/-- Pointer measure for the canonicity induction: index plus one. -/
def pm : BddPtr → Nat
  | .Reg i => i + 1
  | .Compl i => i + 1
  | _ => 0

theorem pm_le_of_idxLt {x : BddPtr} {k : Nat} (h : x.idxLt k = true) :
    pm x ≤ k := by
  cases x <;> simp [pm, BddPtr.idxLt] at h ⊢ <;> omega

/-- Cofactor pointer of a node edge: the child selected by `b`, negated
through a complement edge. -/
def cof (s : Store) (b : Bool) : BddPtr → BddPtr
  | .Reg i => if b then (s.getD i dfltNode).high else (s.getD i dfltNode).low
  | .Compl i =>
    (if b then (s.getD i dfltNode).high else (s.getD i dfltNode).low).neg
  | p => p

theorem cof_valid {s : Store} (hs : ValidStore s) {p : BddPtr} {i : Nat}
    (hidx : p.idx? = some i) (hi : i < s.length) (b : Bool) :
    ValidPtr s (cof s b p) := by
  cases p with
  | PtrTrue => exact Option.noConfusion hidx
  | PtrFalse => exact Option.noConfusion hidx
  | Reg i0 =>
    obtain rfl : i = i0 := by simpa [BddPtr.idx?] using hidx.symm
    cases b
    · simpa [cof] using validPtr_low hs hi
    · simpa [cof] using validPtr_high hs hi
  | Compl i0 =>
    obtain rfl : i = i0 := by simpa [BddPtr.idx?] using hidx.symm
    cases b
    · simpa [cof] using validPtr_neg (validPtr_low hs hi)
    · simpa [cof] using validPtr_neg (validPtr_high hs hi)

theorem cof_pm {s : Store} (hs : ValidStore s) {p : BddPtr} {i : Nat}
    (hidx : p.idx? = some i) (hi : i < s.length) (b : Bool) :
    pm (cof s b p) ≤ i := by
  have hlow := (hs i hi).1
  have hhigh := (hs i hi).2
  cases p with
  | PtrTrue => exact Option.noConfusion hidx
  | PtrFalse => exact Option.noConfusion hidx
  | Reg i0 =>
    obtain rfl : i = i0 := by simpa [BddPtr.idx?] using hidx.symm
    cases b
    · simpa [cof] using pm_le_of_idxLt hlow
    · simpa [cof] using pm_le_of_idxLt hhigh
  | Compl i0 =>
    obtain rfl : i = i0 := by simpa [BddPtr.idx?] using hidx.symm
    cases b
    · simp only [cof, Bool.false_eq_true, if_false]
      cases hc : (s.getD i dfltNode).low <;>
        simpa [BddPtr.neg, pm] using pm_le_of_idxLt (hc ▸ hlow)
    · simp only [cof, if_true]
      cases hc : (s.getD i dfltNode).high <;>
        simpa [BddPtr.neg, pm] using pm_le_of_idxLt (hc ▸ hhigh)

theorem cof_bound {ord : VarOrder} {s : Store} (ho : OrderedStore ord s)
    {p : BddPtr} {i : Nat} (hidx : p.idx? = some i) (hi : i < s.length)
    (b : Bool) :
    levBoundB ord s (cof s b p)
      (ord.level ((s.getD i dfltNode).var) + 1) = true := by
  cases p with
  | PtrTrue => exact Option.noConfusion hidx
  | PtrFalse => exact Option.noConfusion hidx
  | Reg i0 =>
    obtain rfl : i = i0 := by simpa [BddPtr.idx?] using hidx.symm
    cases b
    · simpa [cof] using (ho i hi).1
    · simpa [cof] using (ho i hi).2
  | Compl i0 =>
    obtain rfl : i = i0 := by simpa [BddPtr.idx?] using hidx.symm
    cases b
    · simp only [cof, Bool.false_eq_true, if_false]
      rw [levBoundB_neg]
      exact (ho i hi).1
    · simp only [cof, if_true]
      rw [levBoundB_neg]
      exact (ho i hi).2

theorem cof_eval {s : Store} (hs : ValidStore s) {p : BddPtr} {i : Nat}
    (hidx : p.idx? = some i) (hi : i < s.length) (b : Bool) (env : Env) :
    evalPtr s p (updEnv env ((s.getD i dfltNode).var) b) =
    evalPtr s (cof s b p) (updEnv env ((s.getD i dfltNode).var) b) := by
  cases p with
  | PtrTrue => exact Option.noConfusion hidx
  | PtrFalse => exact Option.noConfusion hidx
  | Reg i0 =>
    obtain rfl : i = i0 := by simpa [BddPtr.idx?] using hidx.symm
    rw [evalPtr_reg hs hi, updEnv_self]
    cases b
    · simp [cof]
    · simp [cof]
  | Compl i0 =>
    obtain rfl : i = i0 := by simpa [BddPtr.idx?] using hidx.symm
    rw [evalPtr_compl, evalPtr_reg hs hi, updEnv_self]
    cases b
    · simp only [cof, Bool.false_eq_true, if_false]
      rw [evalPtr_neg]
    · simp only [cof, if_true]
      rw [evalPtr_neg]

theorem cof_indep {ord : VarOrder} {s : Store} (hs : ValidStore s)
    (ho : OrderedStore ord s) {p : BddPtr} {i : Nat}
    (hidx : p.idx? = some i) (hi : i < s.length) (b b2 : Bool) (env : Env) :
    evalPtr s (cof s b p) (updEnv env ((s.getD i dfltNode).var) b2) =
    evalPtr s (cof s b p) env :=
  (evalPtr_indep hs ho (cof_valid hs hidx hi b) (cof_bound ho hidx hi b)
    (updEnv_agree ord env _ b2)).symm

theorem levBoundB_self {ord : VarOrder} {s : Store} {p : BddPtr} {i : Nat}
    (hidx : p.idx? = some i) :
    levBoundB ord s p (ord.level ((s.getD i dfltNode).var)) = true := by
  cases p with
  | PtrTrue => exact Option.noConfusion hidx
  | PtrFalse => exact Option.noConfusion hidx
  | Reg i0 =>
    obtain rfl : i = i0 := by simpa [BddPtr.idx?] using hidx.symm
    simp [levBoundB, BddPtr.idx?]
  | Compl i0 =>
    obtain rfl : i = i0 := by simpa [BddPtr.idx?] using hidx.symm
    simp [levBoundB, BddPtr.idx?]

theorem reg_not_constant {ord : VarOrder} {s : Store} (hs : ValidStore s)
    (ho : OrderedStore ord s) (hhc : HighCanon s) (hred : ReducedStore s) :
    ∀ i, i < s.length →
      (∃ env, evalPtr s (.Reg i) env = true) ∧
      (∃ env, evalPtr s (.Reg i) env = false) := by
  intro i
  induction i using Nat.strong_induction_on with
  | _ i ih =>
    intro hi
    obtain ⟨hhneg, hhfalse⟩ := hhc i hi
    have hvl := validPtr_low hs hi
    have hvh := validPtr_high hs hi
    have hbl := (ho i hi).1
    have hbh := (ho i hi).2
    constructor
    · cases hh : (s.getD i dfltNode).high with
      | PtrFalse => rw [hh] at hhfalse; exact absurd hhfalse (by simp [BddPtr.isFalse])
      | Compl c => rw [hh] at hhneg; exact absurd hhneg (by simp [BddPtr.isNeg])
      | PtrTrue =>
        refine ⟨updEnv (fun _ => true) (s.getD i dfltNode).var true, ?_⟩
        rw [evalPtr_reg hs hi, updEnv_self]
        simp only [if_true]
        rw [hh]
        simp
      | Reg c =>
        have hc : c < i := by
          have h2 := (hs i hi).2
          rw [hh] at h2
          simpa [BddPtr.idxLt] using h2
        obtain ⟨⟨et, het⟩, -⟩ := ih c hc (Nat.lt_trans hc hi)
        refine ⟨updEnv et (s.getD i dfltNode).var true, ?_⟩
        rw [evalPtr_reg hs hi, updEnv_self]
        simp only [if_true]
        rw [← evalPtr_indep hs ho hvh hbh
          (updEnv_agree ord et (s.getD i dfltNode).var true), hh]
        exact het
    · cases hh : (s.getD i dfltNode).high with
      | PtrFalse => rw [hh] at hhfalse; exact absurd hhfalse (by simp [BddPtr.isFalse])
      | Compl c => rw [hh] at hhneg; exact absurd hhneg (by simp [BddPtr.isNeg])
      | Reg c =>
        have hc : c < i := by
          have h2 := (hs i hi).2
          rw [hh] at h2
          simpa [BddPtr.idxLt] using h2
        obtain ⟨-, ⟨ef, hef⟩⟩ := ih c hc (Nat.lt_trans hc hi)
        refine ⟨updEnv ef (s.getD i dfltNode).var true, ?_⟩
        rw [evalPtr_reg hs hi, updEnv_self]
        simp only [if_true]
        rw [← evalPtr_indep hs ho hvh hbh
          (updEnv_agree ord ef (s.getD i dfltNode).var true), hh]
        exact hef
      | PtrTrue =>
        cases hl : (s.getD i dfltNode).low with
        | PtrTrue => exact absurd (hl.trans hh.symm) (hred i hi)
        | PtrFalse =>
          refine ⟨updEnv (fun _ => true) (s.getD i dfltNode).var false, ?_⟩
          rw [evalPtr_reg hs hi, updEnv_self]
          simp only [Bool.false_eq_true, if_false]
          rw [hl]
          simp
        | Reg c =>
          have hc : c < i := by
            have h2 := (hs i hi).1
            rw [hl] at h2
            simpa [BddPtr.idxLt] using h2
          obtain ⟨-, ⟨ef, hef⟩⟩ := ih c hc (Nat.lt_trans hc hi)
          refine ⟨updEnv ef (s.getD i dfltNode).var false, ?_⟩
          rw [evalPtr_reg hs hi, updEnv_self]
          simp only [Bool.false_eq_true, if_false]
          rw [← evalPtr_indep hs ho hvl hbl
            (updEnv_agree ord ef (s.getD i dfltNode).var false), hl]
          exact hef
        | Compl c =>
          have hc : c < i := by
            have h2 := (hs i hi).1
            rw [hl] at h2
            simpa [BddPtr.idxLt] using h2
          obtain ⟨⟨et, het⟩, -⟩ := ih c hc (Nat.lt_trans hc hi)
          refine ⟨updEnv et (s.getD i dfltNode).var false, ?_⟩
          rw [evalPtr_reg hs hi, updEnv_self]
          simp only [Bool.false_eq_true, if_false]
          rw [← evalPtr_indep hs ho hvl hbl
            (updEnv_agree ord et (s.getD i dfltNode).var false), hl,
            evalPtr_compl, het]
          rfl


theorem cof_funeq {ord : VarOrder} {s : Store} (hs : ValidStore s)
    (ho : OrderedStore ord s) {p q : BddPtr} {i j : Nat}
    (hidxp : p.idx? = some i) (hidxq : q.idx? = some j)
    (hi : i < s.length) (hj : j < s.length)
    (hvv : (s.getD j dfltNode).var = (s.getD i dfltNode).var)
    (hsame : ∀ env, evalPtr s p env = evalPtr s q env) (b : Bool) :
    ∀ env, evalPtr s (cof s b p) env = evalPtr s (cof s b q) env := by
  intro env
  have h1 := cof_indep hs ho hidxp hi b b env
  have h2 := cof_eval hs hidxp hi b env
  have h3 := cof_indep hs ho hidxq hj b b env
  have h4 := cof_eval hs hidxq hj b env
  rw [hvv] at h3 h4
  calc evalPtr s (cof s b p) env
      = evalPtr s p (updEnv env ((s.getD i dfltNode).var) b) := by
        rw [h2, h1]
    _ = evalPtr s q (updEnv env ((s.getD i dfltNode).var) b) := hsame _
    _ = evalPtr s (cof s b q) env := by rw [h4, h3]

theorem cof_collapse {ord : VarOrder} {s : Store} (hs : ValidStore s)
    (ho : OrderedStore ord s) {p q : BddPtr} {i j : Nat}
    (hidxp : p.idx? = some i) (hidxq : q.idx? = some j)
    (hi : i < s.length) (hvq : ValidPtr s q)
    (hlt : ord.level ((s.getD i dfltNode).var) <
      ord.level ((s.getD j dfltNode).var))
    (hsame : ∀ env, evalPtr s p env = evalPtr s q env) :
    ∀ env, evalPtr s (cof s true p) env = evalPtr s (cof s false p) env := by
  intro env
  have hqb0 := @levBoundB_self ord s q j hidxq
  have hq_indep : ∀ b, evalPtr s q
      (updEnv env ((s.getD i dfltNode).var) b) = evalPtr s q env :=
    fun b => (evalPtr_indep hs ho hvq (levBoundB_mono hqb0 (by omega))
      (updEnv_agree ord env _ b)).symm
  calc evalPtr s (cof s true p) env
      = evalPtr s p (updEnv env ((s.getD i dfltNode).var) true) := by
        rw [cof_eval hs hidxp hi true env, cof_indep hs ho hidxp hi true true env]
    _ = evalPtr s q (updEnv env ((s.getD i dfltNode).var) true) := hsame _
    _ = evalPtr s q env := hq_indep true
    _ = evalPtr s q (updEnv env ((s.getD i dfltNode).var) false) :=
        (hq_indep false).symm
    _ = evalPtr s p (updEnv env ((s.getD i dfltNode).var) false) :=
        (hsame _).symm
    _ = evalPtr s (cof s false p) env := by
        rw [cof_eval hs hidxp hi false env,
          cof_indep hs ho hidxp hi false false env]

theorem cof_TF_ne {s : Store} (hred : ReducedStore s) {p : BddPtr} {i : Nat}
    (hidx : p.idx? = some i) (hi : i < s.length) :
    cof s true p ≠ cof s false p := by
  cases p with
  | PtrTrue => exact Option.noConfusion hidx
  | PtrFalse => exact Option.noConfusion hidx
  | Reg i0 =>
    obtain rfl : i = i0 := by simpa [BddPtr.idx?] using hidx.symm
    simp only [cof, if_true, Bool.false_eq_true, if_false]
    exact (hred i hi).symm
  | Compl i0 =>
    obtain rfl : i = i0 := by simpa [BddPtr.idx?] using hidx.symm
    simp only [cof, if_true, Bool.false_eq_true, if_false]
    intro h
    exact (hred i hi) (neg_injective h).symm

theorem bddNode_ext {n m : BddNode} (h1 : n.var = m.var) (h2 : n.low = m.low)
    (h3 : n.high = m.high) : n = m := by
  cases n
  cases m
  simp_all

theorem cof_ptr_eq {s : Store} (hhc : HighCanon s) (hnd : NoDupStore s)
    {p q : BddPtr} {i j : Nat} (hidxp : p.idx? = some i)
    (hidxq : q.idx? = some j) (hi : i < s.length) (hj : j < s.length)
    (hvv : (s.getD j dfltNode).var = (s.getD i dfltNode).var)
    (hT : cof s true p = cof s true q) (hF : cof s false p = cof s false q) :
    p = q := by
  have hmix : ∀ a b : Nat, a < s.length → b < s.length →
      (s.getD a dfltNode).high ≠ ((s.getD b dfltNode).high).neg := by
    intro a b ha hb h
    obtain ⟨hna, hfa⟩ := hhc a ha
    obtain ⟨hnb, hfb⟩ := hhc b hb
    cases hcb : (s.getD b dfltNode).high with
    | PtrTrue => rw [hcb] at h; rw [h] at hfa; simp [BddPtr.neg, BddPtr.isFalse] at hfa
    | PtrFalse => rw [hcb] at hfb; simp [BddPtr.isFalse] at hfb
    | Reg c => rw [hcb] at h; rw [h] at hna; simp [BddPtr.neg, BddPtr.isNeg] at hna
    | Compl c => rw [hcb] at hnb; simp [BddPtr.isNeg] at hnb
  cases p with
  | PtrTrue => exact Option.noConfusion hidxp
  | PtrFalse => exact Option.noConfusion hidxp
  | Reg i0 =>
    obtain rfl : i = i0 := by simpa [BddPtr.idx?] using hidxp.symm
    cases q with
    | PtrTrue => exact Option.noConfusion hidxq
    | PtrFalse => exact Option.noConfusion hidxq
    | Reg j0 =>
      obtain rfl : j = j0 := by simpa [BddPtr.idx?] using hidxq.symm
      simp only [cof, if_true, Bool.false_eq_true, if_false] at hT hF
      have hnode := bddNode_ext hvv.symm hF hT
      have := hnd i hi j hj hnode
      rw [this]
    | Compl j0 =>
      obtain rfl : j = j0 := by simpa [BddPtr.idx?] using hidxq.symm
      simp only [cof, if_true, Bool.false_eq_true, if_false] at hT
      exact absurd hT (hmix i j hi hj)
  | Compl i0 =>
    obtain rfl : i = i0 := by simpa [BddPtr.idx?] using hidxp.symm
    cases q with
    | PtrTrue => exact Option.noConfusion hidxq
    | PtrFalse => exact Option.noConfusion hidxq
    | Reg j0 =>
      obtain rfl : j = j0 := by simpa [BddPtr.idx?] using hidxq.symm
      simp only [cof, if_true, Bool.false_eq_true, if_false] at hT
      exact absurd hT.symm (hmix j i hj hi)
    | Compl j0 =>
      obtain rfl : j = j0 := by simpa [BddPtr.idx?] using hidxq.symm
      simp only [cof, if_true, Bool.false_eq_true, if_false] at hT hF
      have hnode := bddNode_ext hvv.symm (neg_injective hF)
        (neg_injective hT)
      have := hnd i hi j hj hnode
      rw [this]


theorem ptr_unique {ord : VarOrder} (hinj : OrdInj ord) {s : Store}
    (hs : ValidStore s) (ho : OrderedStore ord s) (hhc : HighCanon s)
    (hred : ReducedStore s) (hnd : NoDupStore s) :
    ∀ (n : Nat) (p q : BddPtr), pm p ≤ n → pm q ≤ n →
      ValidPtr s p → ValidPtr s q →
      (∀ env, evalPtr s p env = evalPtr s q env) → p = q := by
  intro n
  induction n with
  | zero =>
    intro p q hpn hqn hvp hvq hsame
    cases p with
    | Reg i => exact absurd hpn (by simp [pm])
    | Compl i => exact absurd hpn (by simp [pm])
    | PtrTrue =>
      cases q with
      | PtrTrue => rfl
      | PtrFalse =>
        have h := hsame (fun _ => true)
        rw [evalPtr_true, evalPtr_false] at h
        exact absurd h (by simp)
      | Reg j => exact absurd hqn (by simp [pm])
      | Compl j => exact absurd hqn (by simp [pm])
    | PtrFalse =>
      cases q with
      | PtrFalse => rfl
      | PtrTrue =>
        have h := hsame (fun _ => true)
        rw [evalPtr_true, evalPtr_false] at h
        exact absurd h (by simp)
      | Reg j => exact absurd hqn (by simp [pm])
      | Compl j => exact absurd hqn (by simp [pm])
  | succ n ihn =>
    intro p q hpn hqn hvp hvq hsame
    cases p with
    | PtrTrue =>
      cases q with
      | PtrTrue => rfl
      | PtrFalse =>
        have h := hsame (fun _ => true)
        rw [evalPtr_true, evalPtr_false] at h
        exact absurd h (by simp)
      | Reg j =>
        have hj : j < s.length := by
          simpa [ValidPtr, BddPtr.idxLt] using hvq
        obtain ⟨-, ⟨ef, hef⟩⟩ := reg_not_constant hs ho hhc hred j hj
        have h := hsame ef
        rw [evalPtr_true, hef] at h
        exact absurd h (by simp)
      | Compl j =>
        have hj : j < s.length := by
          simpa [ValidPtr, BddPtr.idxLt] using hvq
        obtain ⟨⟨et, het⟩, -⟩ := reg_not_constant hs ho hhc hred j hj
        have h := hsame et
        rw [evalPtr_true, evalPtr_compl, het] at h
        exact absurd h (by simp)
    | PtrFalse =>
      cases q with
      | PtrFalse => rfl
      | PtrTrue =>
        have h := hsame (fun _ => true)
        rw [evalPtr_true, evalPtr_false] at h
        exact absurd h (by simp)
      | Reg j =>
        have hj : j < s.length := by
          simpa [ValidPtr, BddPtr.idxLt] using hvq
        obtain ⟨⟨et, het⟩, -⟩ := reg_not_constant hs ho hhc hred j hj
        have h := hsame et
        rw [evalPtr_false, het] at h
        exact absurd h (by simp)
      | Compl j =>
        have hj : j < s.length := by
          simpa [ValidPtr, BddPtr.idxLt] using hvq
        obtain ⟨-, ⟨ef, hef⟩⟩ := reg_not_constant hs ho hhc hred j hj
        have h := hsame ef
        rw [evalPtr_false, evalPtr_compl, hef] at h
        exact absurd h (by simp)
    | Reg i =>
      cases q with
      | PtrTrue =>
        have hi : i < s.length := by
          simpa [ValidPtr, BddPtr.idxLt] using hvp
        obtain ⟨-, ⟨ef, hef⟩⟩ := reg_not_constant hs ho hhc hred i hi
        have h := hsame ef
        rw [evalPtr_true, hef] at h
        exact absurd h (by simp)
      | PtrFalse =>
        have hi : i < s.length := by
          simpa [ValidPtr, BddPtr.idxLt] using hvp
        obtain ⟨⟨et, het⟩, -⟩ := reg_not_constant hs ho hhc hred i hi
        have h := hsame et
        rw [evalPtr_false, het] at h
        exact absurd h (by simp)
      | Reg j =>
        have hi : i < s.length := by
          simpa [ValidPtr, BddPtr.idxLt] using hvp
        have hj : j < s.length := by
          simpa [ValidPtr, BddPtr.idxLt] using hvq
        have hpn2 : i ≤ n := by simp [pm] at hpn; omega
        have hqn2 : j ≤ n := by simp [pm] at hqn; omega
        rcases Nat.lt_trichotomy (ord.level ((s.getD i dfltNode).var))
          (ord.level ((s.getD j dfltNode).var)) with hlt | heq | hgt
        · have hfe := @cof_collapse ord s hs ho (BddPtr.Reg i) (BddPtr.Reg j) i j rfl rfl hi
            hvq hlt hsame
          have hEq := ihn (cof s true (BddPtr.Reg i)) (cof s false (BddPtr.Reg i))
            (le_trans (@cof_pm s hs (BddPtr.Reg i) i rfl hi true) hpn2)
            (le_trans (@cof_pm s hs (BddPtr.Reg i) i rfl hi false) hpn2)
            (@cof_valid s hs (BddPtr.Reg i) i rfl hi true)
            (@cof_valid s hs (BddPtr.Reg i) i rfl hi false) hfe
          exact absurd hEq (@cof_TF_ne s hred (BddPtr.Reg i) i rfl hi)
        · have hvv : (s.getD j dfltNode).var = (s.getD i dfltNode).var :=
            hinj _ _ heq.symm
          have hfT := @cof_funeq ord s hs ho (BddPtr.Reg i) (BddPtr.Reg j) i j rfl rfl hi hj
            hvv hsame true
          have hfF := @cof_funeq ord s hs ho (BddPtr.Reg i) (BddPtr.Reg j) i j rfl rfl hi hj
            hvv hsame false
          have hT := ihn (cof s true (BddPtr.Reg i)) (cof s true (BddPtr.Reg j))
            (le_trans (@cof_pm s hs (BddPtr.Reg i) i rfl hi true) hpn2)
            (le_trans (@cof_pm s hs (BddPtr.Reg j) j rfl hj true) hqn2)
            (@cof_valid s hs (BddPtr.Reg i) i rfl hi true)
            (@cof_valid s hs (BddPtr.Reg j) j rfl hj true) hfT
          have hF := ihn (cof s false (BddPtr.Reg i)) (cof s false (BddPtr.Reg j))
            (le_trans (@cof_pm s hs (BddPtr.Reg i) i rfl hi false) hpn2)
            (le_trans (@cof_pm s hs (BddPtr.Reg j) j rfl hj false) hqn2)
            (@cof_valid s hs (BddPtr.Reg i) i rfl hi false)
            (@cof_valid s hs (BddPtr.Reg j) j rfl hj false) hfF
          exact @cof_ptr_eq s hhc hnd (BddPtr.Reg i) (BddPtr.Reg j) i j rfl rfl hi hj hvv hT hF
        · have hfe := @cof_collapse ord s hs ho (BddPtr.Reg j) (BddPtr.Reg i) j i rfl rfl hj
            hvp hgt (fun env => (hsame env).symm)
          have hEq := ihn (cof s true (BddPtr.Reg j)) (cof s false (BddPtr.Reg j))
            (le_trans (@cof_pm s hs (BddPtr.Reg j) j rfl hj true) hqn2)
            (le_trans (@cof_pm s hs (BddPtr.Reg j) j rfl hj false) hqn2)
            (@cof_valid s hs (BddPtr.Reg j) j rfl hj true)
            (@cof_valid s hs (BddPtr.Reg j) j rfl hj false) hfe
          exact absurd hEq (@cof_TF_ne s hred (BddPtr.Reg j) j rfl hj)
      | Compl j =>
        have hi : i < s.length := by
          simpa [ValidPtr, BddPtr.idxLt] using hvp
        have hj : j < s.length := by
          simpa [ValidPtr, BddPtr.idxLt] using hvq
        have hpn2 : i ≤ n := by simp [pm] at hpn; omega
        have hqn2 : j ≤ n := by simp [pm] at hqn; omega
        rcases Nat.lt_trichotomy (ord.level ((s.getD i dfltNode).var))
          (ord.level ((s.getD j dfltNode).var)) with hlt | heq | hgt
        · have hfe := @cof_collapse ord s hs ho (BddPtr.Reg i) (BddPtr.Compl j) i j rfl rfl hi
            hvq hlt hsame
          have hEq := ihn (cof s true (BddPtr.Reg i)) (cof s false (BddPtr.Reg i))
            (le_trans (@cof_pm s hs (BddPtr.Reg i) i rfl hi true) hpn2)
            (le_trans (@cof_pm s hs (BddPtr.Reg i) i rfl hi false) hpn2)
            (@cof_valid s hs (BddPtr.Reg i) i rfl hi true)
            (@cof_valid s hs (BddPtr.Reg i) i rfl hi false) hfe
          exact absurd hEq (@cof_TF_ne s hred (BddPtr.Reg i) i rfl hi)
        · have hvv : (s.getD j dfltNode).var = (s.getD i dfltNode).var :=
            hinj _ _ heq.symm
          have hfT := @cof_funeq ord s hs ho (BddPtr.Reg i) (BddPtr.Compl j) i j rfl rfl hi hj
            hvv hsame true
          have hfF := @cof_funeq ord s hs ho (BddPtr.Reg i) (BddPtr.Compl j) i j rfl rfl hi hj
            hvv hsame false
          have hT := ihn (cof s true (BddPtr.Reg i)) (cof s true (BddPtr.Compl j))
            (le_trans (@cof_pm s hs (BddPtr.Reg i) i rfl hi true) hpn2)
            (le_trans (@cof_pm s hs (BddPtr.Compl j) j rfl hj true) hqn2)
            (@cof_valid s hs (BddPtr.Reg i) i rfl hi true)
            (@cof_valid s hs (BddPtr.Compl j) j rfl hj true) hfT
          have hF := ihn (cof s false (BddPtr.Reg i)) (cof s false (BddPtr.Compl j))
            (le_trans (@cof_pm s hs (BddPtr.Reg i) i rfl hi false) hpn2)
            (le_trans (@cof_pm s hs (BddPtr.Compl j) j rfl hj false) hqn2)
            (@cof_valid s hs (BddPtr.Reg i) i rfl hi false)
            (@cof_valid s hs (BddPtr.Compl j) j rfl hj false) hfF
          exact @cof_ptr_eq s hhc hnd (BddPtr.Reg i) (BddPtr.Compl j) i j rfl rfl hi hj hvv hT hF
        · have hfe := @cof_collapse ord s hs ho (BddPtr.Compl j) (BddPtr.Reg i) j i rfl rfl hj
            hvp hgt (fun env => (hsame env).symm)
          have hEq := ihn (cof s true (BddPtr.Compl j)) (cof s false (BddPtr.Compl j))
            (le_trans (@cof_pm s hs (BddPtr.Compl j) j rfl hj true) hqn2)
            (le_trans (@cof_pm s hs (BddPtr.Compl j) j rfl hj false) hqn2)
            (@cof_valid s hs (BddPtr.Compl j) j rfl hj true)
            (@cof_valid s hs (BddPtr.Compl j) j rfl hj false) hfe
          exact absurd hEq (@cof_TF_ne s hred (BddPtr.Compl j) j rfl hj)
    | Compl i =>
      cases q with
      | PtrTrue =>
        have hi : i < s.length := by
          simpa [ValidPtr, BddPtr.idxLt] using hvp
        obtain ⟨⟨et, het⟩, -⟩ := reg_not_constant hs ho hhc hred i hi
        have h := hsame et
        rw [evalPtr_true, evalPtr_compl, het] at h
        exact absurd h (by simp)
      | PtrFalse =>
        have hi : i < s.length := by
          simpa [ValidPtr, BddPtr.idxLt] using hvp
        obtain ⟨-, ⟨ef, hef⟩⟩ := reg_not_constant hs ho hhc hred i hi
        have h := hsame ef
        rw [evalPtr_false, evalPtr_compl, hef] at h
        exact absurd h (by simp)
      | Reg j =>
        have hi : i < s.length := by
          simpa [ValidPtr, BddPtr.idxLt] using hvp
        have hj : j < s.length := by
          simpa [ValidPtr, BddPtr.idxLt] using hvq
        have hpn2 : i ≤ n := by simp [pm] at hpn; omega
        have hqn2 : j ≤ n := by simp [pm] at hqn; omega
        rcases Nat.lt_trichotomy (ord.level ((s.getD i dfltNode).var))
          (ord.level ((s.getD j dfltNode).var)) with hlt | heq | hgt
        · have hfe := @cof_collapse ord s hs ho (BddPtr.Compl i) (BddPtr.Reg j) i j rfl rfl hi
            hvq hlt hsame
          have hEq := ihn (cof s true (BddPtr.Compl i)) (cof s false (BddPtr.Compl i))
            (le_trans (@cof_pm s hs (BddPtr.Compl i) i rfl hi true) hpn2)
            (le_trans (@cof_pm s hs (BddPtr.Compl i) i rfl hi false) hpn2)
            (@cof_valid s hs (BddPtr.Compl i) i rfl hi true)
            (@cof_valid s hs (BddPtr.Compl i) i rfl hi false) hfe
          exact absurd hEq (@cof_TF_ne s hred (BddPtr.Compl i) i rfl hi)
        · have hvv : (s.getD j dfltNode).var = (s.getD i dfltNode).var :=
            hinj _ _ heq.symm
          have hfT := @cof_funeq ord s hs ho (BddPtr.Compl i) (BddPtr.Reg j) i j rfl rfl hi hj
            hvv hsame true
          have hfF := @cof_funeq ord s hs ho (BddPtr.Compl i) (BddPtr.Reg j) i j rfl rfl hi hj
            hvv hsame false
          have hT := ihn (cof s true (BddPtr.Compl i)) (cof s true (BddPtr.Reg j))
            (le_trans (@cof_pm s hs (BddPtr.Compl i) i rfl hi true) hpn2)
            (le_trans (@cof_pm s hs (BddPtr.Reg j) j rfl hj true) hqn2)
            (@cof_valid s hs (BddPtr.Compl i) i rfl hi true)
            (@cof_valid s hs (BddPtr.Reg j) j rfl hj true) hfT
          have hF := ihn (cof s false (BddPtr.Compl i)) (cof s false (BddPtr.Reg j))
            (le_trans (@cof_pm s hs (BddPtr.Compl i) i rfl hi false) hpn2)
            (le_trans (@cof_pm s hs (BddPtr.Reg j) j rfl hj false) hqn2)
            (@cof_valid s hs (BddPtr.Compl i) i rfl hi false)
            (@cof_valid s hs (BddPtr.Reg j) j rfl hj false) hfF
          exact @cof_ptr_eq s hhc hnd (BddPtr.Compl i) (BddPtr.Reg j) i j rfl rfl hi hj hvv hT hF
        · have hfe := @cof_collapse ord s hs ho (BddPtr.Reg j) (BddPtr.Compl i) j i rfl rfl hj
            hvp hgt (fun env => (hsame env).symm)
          have hEq := ihn (cof s true (BddPtr.Reg j)) (cof s false (BddPtr.Reg j))
            (le_trans (@cof_pm s hs (BddPtr.Reg j) j rfl hj true) hqn2)
            (le_trans (@cof_pm s hs (BddPtr.Reg j) j rfl hj false) hqn2)
            (@cof_valid s hs (BddPtr.Reg j) j rfl hj true)
            (@cof_valid s hs (BddPtr.Reg j) j rfl hj false) hfe
          exact absurd hEq (@cof_TF_ne s hred (BddPtr.Reg j) j rfl hj)
      | Compl j =>
        have hi : i < s.length := by
          simpa [ValidPtr, BddPtr.idxLt] using hvp
        have hj : j < s.length := by
          simpa [ValidPtr, BddPtr.idxLt] using hvq
        have hpn2 : i ≤ n := by simp [pm] at hpn; omega
        have hqn2 : j ≤ n := by simp [pm] at hqn; omega
        rcases Nat.lt_trichotomy (ord.level ((s.getD i dfltNode).var))
          (ord.level ((s.getD j dfltNode).var)) with hlt | heq | hgt
        · have hfe := @cof_collapse ord s hs ho (BddPtr.Compl i) (BddPtr.Compl j) i j rfl rfl hi
            hvq hlt hsame
          have hEq := ihn (cof s true (BddPtr.Compl i)) (cof s false (BddPtr.Compl i))
            (le_trans (@cof_pm s hs (BddPtr.Compl i) i rfl hi true) hpn2)
            (le_trans (@cof_pm s hs (BddPtr.Compl i) i rfl hi false) hpn2)
            (@cof_valid s hs (BddPtr.Compl i) i rfl hi true)
            (@cof_valid s hs (BddPtr.Compl i) i rfl hi false) hfe
          exact absurd hEq (@cof_TF_ne s hred (BddPtr.Compl i) i rfl hi)
        · have hvv : (s.getD j dfltNode).var = (s.getD i dfltNode).var :=
            hinj _ _ heq.symm
          have hfT := @cof_funeq ord s hs ho (BddPtr.Compl i) (BddPtr.Compl j) i j rfl rfl hi hj
            hvv hsame true
          have hfF := @cof_funeq ord s hs ho (BddPtr.Compl i) (BddPtr.Compl j) i j rfl rfl hi hj
            hvv hsame false
          have hT := ihn (cof s true (BddPtr.Compl i)) (cof s true (BddPtr.Compl j))
            (le_trans (@cof_pm s hs (BddPtr.Compl i) i rfl hi true) hpn2)
            (le_trans (@cof_pm s hs (BddPtr.Compl j) j rfl hj true) hqn2)
            (@cof_valid s hs (BddPtr.Compl i) i rfl hi true)
            (@cof_valid s hs (BddPtr.Compl j) j rfl hj true) hfT
          have hF := ihn (cof s false (BddPtr.Compl i)) (cof s false (BddPtr.Compl j))
            (le_trans (@cof_pm s hs (BddPtr.Compl i) i rfl hi false) hpn2)
            (le_trans (@cof_pm s hs (BddPtr.Compl j) j rfl hj false) hqn2)
            (@cof_valid s hs (BddPtr.Compl i) i rfl hi false)
            (@cof_valid s hs (BddPtr.Compl j) j rfl hj false) hfF
          exact @cof_ptr_eq s hhc hnd (BddPtr.Compl i) (BddPtr.Compl j) i j rfl rfl hi hj hvv hT hF
        · have hfe := @cof_collapse ord s hs ho (BddPtr.Compl j) (BddPtr.Compl i) j i rfl rfl hj
            hvp hgt (fun env => (hsame env).symm)
          have hEq := ihn (cof s true (BddPtr.Compl j)) (cof s false (BddPtr.Compl j))
            (le_trans (@cof_pm s hs (BddPtr.Compl j) j rfl hj true) hqn2)
            (le_trans (@cof_pm s hs (BddPtr.Compl j) j rfl hj false) hqn2)
            (@cof_valid s hs (BddPtr.Compl j) j rfl hj true)
            (@cof_valid s hs (BddPtr.Compl j) j rfl hj false) hfe
          exact absurd hEq (@cof_TF_ne s hred (BddPtr.Compl j) j rfl hj)

/-- C1 (amended): canonicity holds for the stored ROBDD invariants, not
unconditionally.  Over a store that is valid, ordered for an injective
variable order, complement-edge canonical, reduced and duplicate-free, two
valid pointers denote the same Boolean function exactly when they are equal
as tagged pointers.  The unconditional claim is false: `smooth` interns
non-reduced `(u, c, c)` fill nodes, after which a fresh pointer denotes the
same function as the true constant (see the counterexample). -/
theorem claim1_canonicity {ord : VarOrder} (hinj : OrdInj ord) {s : Store}
    (hs : ValidStore s) (ho : OrderedStore ord s) (hhc : HighCanon s)
    (hred : ReducedStore s) (hnd : NoDupStore s) (p q : BddPtr)
    (hvp : ValidPtr s p) (hvq : ValidPtr s q) :
    (∀ env, evalPtr s p env = evalPtr s q env) ↔ p = q := by
  constructor
  · intro hsame
    exact ptr_unique hinj hs ho hhc hred hnd (pm p ⊔ pm q) p q
      (le_max_left _ _) (le_max_right _ _) hvp hvq hsame
  · intro h
    subst h
    intro env
    rfl

/-- Witness for C1 at the single-node store for variable 0: the invariants
hold and pointer equality coincides with functional equality. -/
theorem claim1_witness :
    evalPtr [(⟨0, .PtrFalse, .PtrTrue⟩ : BddNode)] (.Reg 0) (fun _ => true) =
      evalPtr [(⟨0, .PtrFalse, .PtrTrue⟩ : BddNode)] (.Reg 0)
        (fun _ => true) :=
  (@claim1_canonicity linearOrder (fun a b h => h)
    [(⟨0, .PtrFalse, .PtrTrue⟩ : BddNode)] (by decide) (by decide)
    (by decide) (by decide) (by decide) (.Reg 0) (.Reg 0) (by decide)
    (by decide)).mpr rfl (fun _ => true)

/-- C1 counterexample: `smooth` interns the non-reduced node `(0, T, T)`;
the returned pointer denotes the constant-true function yet differs from
`PtrTrue` as a tagged pointer, so pointer equality is not complete for
Boolean equivalence across all pointers the manager hands out. -/
theorem claim1_counterexample :
    smooth linearOrder 9 [] .PtrTrue 1 =
      some (.Reg 0, [(⟨0, .PtrTrue, .PtrTrue⟩ : BddNode)]) ∧
    evalPtr [(⟨0, .PtrTrue, .PtrTrue⟩ : BddNode)] (.Reg 0) =
      evalPtr [(⟨0, .PtrTrue, .PtrTrue⟩ : BddNode)] .PtrTrue ∧
    (BddPtr.Reg 0 ≠ .PtrTrue) := by
  refine ⟨rfl, funext fun env => ?_, by simp⟩
  rw [evalPtr_true]
  rw [evalPtr_reg (by decide) (by decide) env]
  simp


end Rsdd
